import Mathlib

/-!
CS32 Project 4: fuzzy trie, genome records and the genome matcher

A shallow embedding of `Project 4/Project4/Trie.h`, `Genome.cpp` and
`GenomeMatcher.cpp`, followed by theorems about the embedded code.

Conventions of the embedding
* `std::string` is `List Char` (`Str`); `std::vector<T>` is `List T`.
* A `Node*` tree is the inductive type `Node`; mutation through pointers is
  rebuilt functionally (the walked path is replaced, everything else kept).
* `int` values are `Int`, `size_t` values are `Nat`; the conversion from `int`
  to `size_t` is written out (`sizeT`, modulo `2 ^ 64`) at the two places where
  the source compares or bounds a `size_t` with an `int`.  String sizes are
  assumed to fit in an `int`, as `Genome::length()` returns one.
* `Option` results: `none` stands for a C++ run that does not return a value
  (an exception, an out-of-range vector access, a division by zero, or a loop
  that ran out of fuel).
* `double` values are `Dbl`: not-a-number, the infinities, and finite values as
  rationals.  The results of `/` and `*` are rounded to the nearest binary64 value, ties
  to even (IEEE 754, expressions evaluated in `double` precision).
-/

namespace CS32

/-- The type of `std::string` values. -/
abbrev Str := List Char

/-! ## Trie.h -/

/-- The struct `Trie<ValueType>::Node`: a character id, the values stored at the node and
the children in creation order. -/
inductive Node (V : Type) where
  | mk (id : Char) (vals : List V) (childs : List (Node V)) : Node V

namespace Node

variable {V : Type}

/-- Field `id`. -/
def id : Node V → Char
  | mk c _ _ => c

/-- Field `vals`. -/
def vals : Node V → List V
  | mk _ vs _ => vs

/-- Field `childs`. -/
def childs : Node V → List (Node V)
  | mk _ _ cs => cs

end Node

/-- The class `Trie<ValueType>`: it owns the root node. -/
structure Trie (V : Type) where
  m_root : Node V

section TrieOps

variable {V : Type}

/-- The function `Trie::createNode`, the fresh child only: id set, no values, no children.
(Its attachment to the parent is done by `insertChild`.) -/
def createNode (id : Char) : Node V :=
  Node.mk id [] []

/-- The function `Trie::isChild`: the first child whose id is `id`, if any. -/
def isChild (id : Char) : List (Node V) → Option (Node V)
  | [] => none
  | ch :: rest => if id = ch.id then some ch else isChild id rest

/-- One iteration of the loop of `Trie::insert`, seen from the parent's child vector:
the first child with the given id (`isChild`) is the node the walk continues in, and
when there is none a node made by `createNode` is pushed at the back and the walk
continues there.  `walk` is the effect of the rest of the insertion on that node. -/
def insertChild (id : Char) (walk : Node V → Node V) : List (Node V) → List (Node V)
  | [] => [walk (createNode id)]
  | ch :: rest => if id = ch.id then walk ch :: rest else ch :: insertChild id walk rest

/-- The loop of `Trie::insert` started at node `root` with the remaining key `key`:
after the last character the value is pushed at the back of the node's values. -/
def insertNode (root : Node V) (key : Str) (value : V) : Node V :=
  match key with
  | [] => Node.mk root.id (root.vals ++ [value]) root.childs
  | c :: key' =>
    Node.mk root.id root.vals (insertChild c (fun ch => insertNode ch key' value) root.childs)

/-- The function `Trie::findNode`, returning the values it pushes onto `vals`, in order. -/
def findNode (root : Node V) (key : Str) (exactMatchOnly : Bool) : List V :=
  match key with
  | [] => root.vals
  | c :: key' =>
    root.childs.flatMap (fun ch =>
      if c = ch.id then findNode ch key' exactMatchOnly
      else if !exactMatchOnly then findNode ch key' true
      else [])

/-- The value of `key[0]`: for an empty `std::string` this is the terminating null. -/
def keyFront (key : Str) : Char :=
  key.headD (Char.ofNat 0)

/-- The value of `key.substr(1)`; on the empty string it throws `std::out_of_range`. -/
def substr1 (key : Str) : Option Str :=
  match key with
  | [] => none
  | _ :: rest => some rest

/-- The loop of `Trie::find` over the root's children. -/
def findLoop (key : Str) (exactMatchOnly : Bool) : List (Node V) → Option (List V)
  | [] => some []
  | ch :: rest =>
    if keyFront key = ch.id then
      match substr1 key with
      | none => none
      | some key' =>
        match findLoop key exactMatchOnly rest with
        | none => none
        | some more => some (findNode ch key' exactMatchOnly ++ more)
    else findLoop key exactMatchOnly rest

namespace Trie

/-- The constructor `Trie::Trie`: a root without values or children.  The root's id is
left uninitialised by the source and is never read; the embedding puts the null there. -/
def empty : Trie V :=
  ⟨Node.mk (Char.ofNat 0) [] []⟩

/-- The function `Trie::reset`: the whole tree is dropped for a new root. -/
def reset (_t : Trie V) : Trie V :=
  empty

/-- The function `Trie::insert`. -/
def insert (t : Trie V) (key : Str) (value : V) : Trie V :=
  ⟨insertNode t.m_root key value⟩

/-- The function `Trie::find`. -/
def find (t : Trie V) (key : Str) (exactMatchOnly : Bool) : Option (List V) :=
  findLoop key exactMatchOnly t.m_root.childs

/-- The trie obtained from the empty one by the given `insert` calls, in order. -/
def ofInserts (kvs : List (Str × V)) : Trie V :=
  kvs.foldl (fun t kv => t.insert kv.1 kv.2) empty

end Trie

end TrieOps

/-! ## Genome.cpp -/

/-- The class `GenomeImpl`. -/
structure Genome where
  m_name : Str
  m_sequence : Str
deriving DecidableEq

namespace Genome

/-- The function `GenomeImpl::length`. -/
def length (g : Genome) : Int :=
  (g.m_sequence.length : Int)

/-- The function `GenomeImpl::name`. -/
def name (g : Genome) : Str :=
  g.m_name

/-- The loop of `GenomeImpl::extract`: `n` iterations left, loop variable `i`. `none` is the
early `return false`. -/
def extractLoop (seq : Str) : Nat → Int → Str → Option Str
  | 0, _, temp => some temp
  | n + 1, i, temp =>
    if i < 0 ∨ (seq.length : Int) ≤ i then none
    else extractLoop seq n (i + 1) (temp ++ [seq.getD i.toNat (Char.ofNat 0)])

/-- The function `GenomeImpl::extract`: the success flag and the content of `fragment`
after the call (`fragment` is its content before the call).  The loop runs
`max 0 length` times. -/
def extract (g : Genome) (position length : Int) (fragment : Str) : Bool × Str :=
  if g.m_sequence.isEmpty then (false, fragment)
  else
    match extractLoop g.m_sequence length.toNat position [] with
    | none => (false, fragment)
    | some temp => (true, temp)

end Genome

/-! ## GenomeMatcher.cpp -/

/-- The struct `GenomeMatcherImpl::SeqFrag`. -/
structure SeqFrag where
  genomeIndex : Nat
  position : Int
deriving DecidableEq

/-- The struct `DNAMatch` of `provided.h` (its three fields are the ones the source
assigns: `genomeName`, `length`, `position`).  `length` is a loop count, kept as a `Nat`. -/
structure DNAMatch where
  genomeName : Str
  length : Nat
  position : Int
deriving DecidableEq

/-- The class `GenomeMatcherImpl`.  The constructor takes a positive `int`; the embedding
keeps every non-negative value. -/
structure GenomeMatcherImpl where
  m_minSearchLength : Nat
  m_genomeList : List Genome
  m_seqFragTrie : Trie SeqFrag

/-- The conversion of an `int` to `size_t` (64 bit). -/
def sizeT (n : Int) : Nat :=
  (n % 2 ^ 64).toNat

/-- The loop of `GenomeMatcherImpl::findMatch`, returning the final `length`: first list is
`fragment` from index `i` on, second is `gfrag` from index `i` on.  (`gfrag` is never longer
than `fragment`; the second equation is there for totality only.) -/
def matchLength : Str → Str → Bool → Nat
  | _, [], _ => 0
  | [], _ :: _, _ => 0
  | f :: fs, g :: gs, exactMatchOnly =>
    if !exactMatchOnly && f ≠ g then matchLength fs gs true + 1
    else if f ≠ g then 0
    else matchLength fs gs exactMatchOnly + 1

/-- The function `GenomeMatcherImpl::sameGenome`: the index of the first existing match with
the name of `newMatch`, `none` for `false`. -/
def sameGenome (newMatch : DNAMatch) : List DNAMatch → Option Nat
  | [] => none
  | e :: rest =>
    if newMatch.genomeName = e.genomeName then some 0
    else (sameGenome newMatch rest).map (· + 1)

/-- The body of the loop of `findGenomesWithThisDNA` after `findMatch`: what becomes of
`matchHolder`. -/
def reconcile (minimumLength : Int) (mt : DNAMatch) (matchHolder : List DNAMatch) :
    List DNAMatch :=
  match sameGenome mt matchHolder with
  | some repl =>
    match matchHolder[repl]? with
    | some old => if old.length < mt.length then matchHolder.set repl mt else matchHolder
    | none => matchHolder
  | none => if minimumLength ≤ (mt.length : Int) then matchHolder ++ [mt] else matchHolder

namespace GenomeMatcherImpl

/-- The constructor. -/
def construct (minSearchLength : Nat) : GenomeMatcherImpl :=
  ⟨minSearchLength, [], Trie.empty⟩

/-- The function `minimumSearchLength`. -/
def minimumSearchLength (m : GenomeMatcherImpl) : Nat :=
  m.m_minSearchLength

/-- The trie entry made by iteration `i` of the loop of `addGenome`: the key is what
`extract` leaves in the fresh, empty `fragment` (its result is not checked).  The source
passes the `size_t` loop variable as an `int`; the embedding takes that conversion as the
identity, which it is while `i` is at most the length of a sequence. -/
def addGenomeEntry (genome : Genome) (w idx i : Nat) : Str × SeqFrag :=
  ((genome.extract (i : Int) (w : Int) []).2, ⟨idx, (i : Int)⟩)

/-- The loop of `addGenome` with loop variable `i : size_t` and the bound converted to
`size_t`; `fuel` bounds the number of loop tests, `none` when it runs out. -/
def addGenomeLoop (genome : Genome) (w idx bound : Nat) :
    Nat → Nat → Trie SeqFrag → Option (Trie SeqFrag)
  | 0, _, _ => none
  | fuel + 1, i, t =>
    if i ≤ bound then
      addGenomeLoop genome w idx bound fuel ((i + 1) % 2 ^ 64)
        (t.insert (addGenomeEntry genome w idx i).1 (addGenomeEntry genome w idx i).2)
    else some t

/-- The function `addGenome`. -/
def addGenome (m : GenomeMatcherImpl) (genome : Genome) (fuel : Nat) :
    Option GenomeMatcherImpl :=
  let genomeList := m.m_genomeList ++ [genome]
  match addGenomeLoop genome m.m_minSearchLength (genomeList.length - 1)
      (sizeT (genome.length - (m.m_minSearchLength : Int))) fuel 0 m.m_seqFragTrie with
  | none => none
  | some t => some ⟨m.m_minSearchLength, genomeList, t⟩

/-- The function `findMatch`; `none` when `match.genomeIndex` is not an index of
`m_genomeList`. -/
def findMatch (m : GenomeMatcherImpl) (fragment : Str) (sf : SeqFrag) (exactMatchOnly : Bool) :
    Option DNAMatch :=
  match m.m_genomeList[sf.genomeIndex]? with
  | none => none
  | some genome =>
    let glength : Int := min (fragment.length : Int) (genome.length - sf.position)
    let gfrag : Str := (genome.extract sf.position glength []).2
    some ⟨genome.name, matchLength fragment gfrag exactMatchOnly, sf.position⟩

/-- The loop of `findGenomesWithThisDNA` over `tempMatches`, returning the final
`matchHolder`. -/
def findGenomesLoop (m : GenomeMatcherImpl) (fragment : Str) (minimumLength : Int)
    (exactMatchOnly : Bool) : List SeqFrag → List DNAMatch → Option (List DNAMatch)
  | [], matchHolder => some matchHolder
  | sf :: rest, matchHolder =>
    match m.findMatch fragment sf exactMatchOnly with
    | none => none
    | some mt =>
      findGenomesLoop m fragment minimumLength exactMatchOnly rest
        (reconcile minimumLength mt matchHolder)

/-- The function `findGenomesWithThisDNA`: the returned flag and the content of `matches`
after the call (`matches_` is its content before the call). -/
def findGenomesWithThisDNA (m : GenomeMatcherImpl) (fragment : Str) (minimumLength : Int)
    (exactMatchOnly : Bool) (matches_ : List DNAMatch) : Option (Bool × List DNAMatch) :=
  if fragment.length < sizeT minimumLength ∨ minimumLength < (m.m_minSearchLength : Int) then
    some (false, matches_)
  else
    match m.m_seqFragTrie.find (fragment.take m.m_minSearchLength) exactMatchOnly with
    | none => none
    | some tempMatches =>
      match findGenomesLoop m fragment minimumLength exactMatchOnly tempMatches [] with
      | none => none
      | some matchHolder => some (!matchHolder.isEmpty, matches_ ++ matchHolder)

/-- The states of a matcher: the constructed one and those `addGenome` returns. -/
inductive Reachable (w : Nat) : GenomeMatcherImpl → Prop
  | construct : Reachable w (construct w)
  | addGenome {m m' : GenomeMatcherImpl} (genome : Genome) (fuel : Nat) :
      Reachable w m → m.addGenome genome fuel = some m' → Reachable w m'

end GenomeMatcherImpl

/-! ## Vocabulary of the statements -/

/-- The number of positions at which two strings differ, over their common length. -/
def mismatches : Str → Str → Nat
  | a :: as, b :: bs => (if a = b then 0 else 1) + mismatches as bs
  | _, _ => 0

/-- The substring `s[position : position + length]`. -/
def slice (s : Str) (position length : Nat) : Str :=
  (s.drop position).take length

/-! ## Vocabulary of the trie statements -/

/-- Whether a value stored under the key suffix `k` below a node is collected by `findNode`
run on that node with the query suffix `q`: equal lengths and no differing position, or
one when `exactMatchOnly` is false. -/
def keyMatch : Str → Str → Bool → Bool
  | [], [], _ => true
  | c :: k, d :: q, exactMatchOnly =>
    if d = c then keyMatch k q exactMatchOnly else (!exactMatchOnly && keyMatch k q true)
  | _, _, _ => false

/-- Well-formed nodes: the ids of the children of every node are pairwise distinct. -/
inductive Node.WF {V : Type} : Node V → Prop
  | mk (id : Char) (vals : List V) (childs : List (Node V)) :
      (childs.map Node.id).Nodup → (∀ ch ∈ childs, Node.WF ch) → Node.WF (Node.mk id vals childs)

/-- What `Trie::find` collects from one child of the root for the query `d :: q`. -/
def rootStep {V : Type} (d : Char) (q : Str) (ex : Bool) (ch : Node V) : List V :=
  if d = ch.id then findNode ch q ex else []

/-- Whether a value inserted under `k` is collected by `Trie::find` on the query `q`. -/
def rootMatch : Str → Str → Bool → Bool
  | c :: k, d :: q, ex => decide (d = c) && keyMatch k q ex
  | _, _, _ => false

/-- The number of mismatches `findMatch` tolerates: none in exact mode, one otherwise. -/
def budget (exactMatchOnly : Bool) : Nat :=
  if exactMatchOnly then 0 else 1

/-! ## Vocabulary of the matcher statements -/

/-- The candidate matches of a query: `findMatch` applied to the anchors the trie returned,
in trie lookup order (`none` when an anchor's index is out of range). -/
def candidates (m : GenomeMatcherImpl) (fragment : Str) (exactMatchOnly : Bool) :
    List SeqFrag → Option (List DNAMatch)
  | [] => some []
  | sf :: rest =>
    match m.findMatch fragment sf exactMatchOnly with
    | none => none
    | some c => (candidates m fragment exactMatchOnly rest).map (c :: ·)

/-- The entry of `matchHolder` for the name `n`: the first one with that name. -/
def holderEntry (n : Str) (matchHolder : List DNAMatch) : Option DNAMatch :=
  matchHolder.find? (fun e => decide (e.genomeName = n))

/-- What one candidate does to the entry kept for the name `n`. -/
def entryStep (minimumLength : Int) (n : Str) (s : Option DNAMatch) (c : DNAMatch) :
    Option DNAMatch :=
  if c.genomeName = n then
    match s with
    | some old => if old.length < c.length then some c else some old
    | none => if minimumLength ≤ (c.length : Int) then some c else none
  else s

/-- What is known of the entry kept for `n` after the candidates `P` were processed. -/
def EntryInv (minimumLength : Int) (n : Str) (P : List DNAMatch) (s : Option DNAMatch) :
    Prop :=
  (∀ r, s = some r → r.genomeName = n ∧ minimumLength ≤ (r.length : Int) ∧
      (∀ c ∈ P, c.genomeName = n → c.length ≤ r.length) ∧
      P.find? (fun c => decide (c.genomeName = n ∧ c.length = r.length)) = some r) ∧
    (s = none → ∀ c ∈ P, c.genomeName = n → ¬ minimumLength ≤ (c.length : Int))

/-- The entries of a matcher's trie: the trie is the one built by a list of inserts in which
every pair was made by `addGenome` for a stored genome (`valid`), and which has the pair of
every window of every stored genome whose length fits in a `size_t` (`complete`). -/
structure MatcherInv (w : Nat) (m : GenomeMatcherImpl) (kvs : List (Str × SeqFrag)) : Prop where
  window : m.m_minSearchLength = w
  trie : m.m_seqFragTrie = Trie.ofInserts kvs
  valid : ∀ kv ∈ kvs, ∃ (g : Genome) (i : Nat), m.m_genomeList[kv.2.genomeIndex]? = some g ∧
    kv.2.position = (i : Int) ∧ kv.1 = (g.extract (i : Int) (w : Int) []).2
  complete : ∀ (idx : Nat) (g : Genome), m.m_genomeList[idx]? = some g →
    g.m_sequence.length < 2 ^ 64 → ∀ i : Nat, i + w ≤ g.m_sequence.length →
      (slice g.m_sequence i w, (⟨idx, (i : Int)⟩ : SeqFrag)) ∈ kvs

/-! ## A small matcher used in the examples -/

/-- Three genomes, two of them with the same name. -/
def exampleGenomes : List Genome :=
  [⟨"A".toList, "ACGTACGT".toList⟩, ⟨"B".toList, "TTACGTTA".toList⟩,
    ⟨"A".toList, "GGACGTAC".toList⟩]

/-- The run of `addGenome` on each genome of a list in turn, each call with the given fuel. -/
def addGenomes (fuel : Nat) : GenomeMatcherImpl → List Genome → Option GenomeMatcherImpl
  | m, [] => some m
  | m, g :: rest =>
    match m.addGenome g fuel with
    | none => none
    | some m' => addGenomes fuel m' rest

/-- The matcher of window size 4 holding `exampleGenomes`. -/
def exampleMatcher : GenomeMatcherImpl :=
  (addGenomes 10 (GenomeMatcherImpl.construct 4) exampleGenomes).getD
    (GenomeMatcherImpl.construct 4)

/-! ## GenomeMatcher.cpp: findRelatedGenomes -/

/-- The number of binary digits of `n`; `fuel` bounds the number of halvings. -/
def bitLength : Nat → Nat → Nat
  | 0, _ => 0
  | fuel + 1, n => if n = 0 then 0 else bitLength fuel (n / 2) + 1

/-- Whether `2 ^ k ≤ a / b`, for a positive `b`. -/
def reachesPower (a b : Nat) (k : Int) : Bool :=
  if 0 ≤ k then decide (2 ^ k.toNat * b ≤ a) else decide (b ≤ 2 ^ (-k).toNat * a)

/-- The binary exponent of the positive rational `a / b`: the `e` with
`2 ^ e ≤ a / b < 2 ^ (e + 1)`.  The difference of the bit lengths is `e` or `e + 1`. -/
def binaryExponent (a b : Nat) : Int :=
  if reachesPower a b ((bitLength a a : Int) - (bitLength b b : Int)) then
    (bitLength a a : Int) - (bitLength b b : Int)
  else (bitLength a a : Int) - (bitLength b b : Int) - 1

/-- The integer nearest to `num / den`, the even one of the two in a tie. -/
def roundHalfEven (num den : Nat) : Nat :=
  if 2 * (num % den) < den then num / den
  else if den < 2 * (num % den) then num / den + 1
  else if (num / den) % 2 = 0 then num / den else num / den + 1

/-- The positive rational `a / b` rounded to 53 significant bits, ties to even, with the
spacing of the subnormal values below `2 ^ (-1022)`: with `e` the binary exponent (not
below `-1022`), the nearest multiple of `2 ^ (e - 52)`.  No bound above is applied here. -/
def roundMagnitude (a b : Nat) : ℚ :=
  if 0 ≤ 52 - max (binaryExponent a b) (-1022) then
    (roundHalfEven (a * 2 ^ (52 - max (binaryExponent a b) (-1022)).toNat) b : ℚ) /
      (2 ^ (52 - max (binaryExponent a b) (-1022)).toNat : Nat)
  else
    (roundHalfEven a (b * 2 ^ (-(52 - max (binaryExponent a b) (-1022))).toNat) : ℚ) *
      (2 ^ (-(52 - max (binaryExponent a b) (-1022))).toNat : Nat)

/-- The values of a `double` as far as the source needs them: not-a-number, the two
infinities and the finite values.  A finite value is a rational; the results of the
operators `/` and `*` are rounded to the nearest binary64 value (`Dbl.round`).  The sign of
zero is not modelled. -/
inductive Dbl where
  | nan : Dbl
  | ninf : Dbl
  | val (q : ℚ) : Dbl
  | pinf : Dbl
deriving DecidableEq

namespace Dbl

/-- The binary64 value of an exact result `q`, round to nearest, ties to even: a rounded
magnitude of `2 ^ 1024` or more (binary exponent at least 1024) is an infinity. -/
def round (q : ℚ) : Dbl :=
  if q = 0 then val 0
  else if 1024 ≤ binaryExponent (roundMagnitude q.num.natAbs q.den).num.natAbs
      (roundMagnitude q.num.natAbs q.den).den then
    (if 0 < q then pinf else ninf)
  else val (if 0 < q then roundMagnitude q.num.natAbs q.den
    else - roundMagnitude q.num.natAbs q.den)

/-- The conversion `(double) n` of an `int`: exact, an `int` has 32 bits. -/
def ofInt (n : Int) : Dbl :=
  val (n : ℚ)

/-- The operator `/` on `double`. -/
def div : Dbl → Dbl → Dbl
  | nan, _ => nan
  | _, nan => nan
  | val x, val y =>
    if y = 0 then (if x = 0 then nan else if 0 < x then pinf else ninf) else round (x / y)
  | val _, pinf => val 0
  | val _, ninf => val 0
  | pinf, val y => if 0 ≤ y then pinf else ninf
  | ninf, val y => if 0 ≤ y then ninf else pinf
  | pinf, pinf => nan
  | pinf, ninf => nan
  | ninf, pinf => nan
  | ninf, ninf => nan

/-- The operator `*` on `double`. -/
def mul : Dbl → Dbl → Dbl
  | nan, _ => nan
  | _, nan => nan
  | val x, val y => round (x * y)
  | val x, pinf => if x = 0 then nan else if 0 < x then pinf else ninf
  | val x, ninf => if x = 0 then nan else if 0 < x then ninf else pinf
  | pinf, val y => if y = 0 then nan else if 0 < y then pinf else ninf
  | ninf, val y => if y = 0 then nan else if 0 < y then ninf else pinf
  | pinf, pinf => pinf
  | pinf, ninf => ninf
  | ninf, pinf => ninf
  | ninf, ninf => pinf

/-- The operator `>` on `double`: false as soon as one side is not a number. -/
def gt : Dbl → Dbl → Bool
  | nan, _ => false
  | _, nan => false
  | ninf, _ => false
  | val _, ninf => true
  | val x, val y => decide (y < x)
  | val _, pinf => false
  | pinf, pinf => false
  | pinf, ninf => true
  | pinf, val _ => true

/-- The operator `==` on `double`: false as soon as one side is not a number. -/
def eq : Dbl → Dbl → Bool
  | ninf, ninf => true
  | val x, val y => decide (x = y)
  | pinf, pinf => true
  | _, _ => false

end Dbl

/-- The struct `GenomeMatch` of `provided.h` (the two fields the source assigns). -/
structure GenomeMatch where
  genomeName : Str
  percentMatch : Dbl
deriving DecidableEq

/-- The operator `<` of `std::string`: lexicographic on the characters. -/
def strLt : Str → Str → Bool
  | [], [] => false
  | [], _ :: _ => true
  | _ :: _, [] => false
  | a :: as, b :: bs => if a < b then true else if b < a then false else strLt as bs

/-- The function `GenomeMatcherImpl::numMatches`. -/
def numMatches : List DNAMatch → Str → Nat
  | [], _ => 0
  | e :: rest, genomeName =>
    (if e.genomeName = genomeName then 1 else 0) + numMatches rest genomeName

/-- The test of the loop of `insertMatch`: `match` goes before `it`. -/
def insertBefore (mt it : GenomeMatch) : Bool :=
  Dbl.gt mt.percentMatch it.percentMatch ||
    (Dbl.eq mt.percentMatch it.percentMatch && strLt mt.genomeName it.genomeName)

/-- The function `GenomeMatcherImpl::insertMatch`. -/
def insertMatch (mt : GenomeMatch) : List GenomeMatch → List GenomeMatch
  | [] => [mt]
  | it :: rest => if insertBefore mt it then mt :: it :: rest else it :: insertMatch mt rest

/-- The expression `(double)count / numFrags * 100` of `findRelatedGenomes`. -/
def percentage (count : Nat) (numFrags : Int) : Dbl :=
  Dbl.mul (Dbl.div (Dbl.ofInt (count : Int)) (Dbl.ofInt numFrags)) (Dbl.ofInt 100)

namespace GenomeMatcherImpl

/-- The first loop of `findRelatedGenomes` over the window numbers still to do, returning
the final `matches`.  The window is what `extract` leaves in the fresh, empty `fragment`;
the result flag of `findGenomesWithThisDNA` is dropped. -/
def poolLoop (m : GenomeMatcherImpl) (query : Genome) (fragmentMatchLength : Int)
    (exactMatchOnly : Bool) : List Nat → List DNAMatch → Option (List DNAMatch)
  | [], matches_ => some matches_
  | i :: rest, matches_ =>
    match m.findGenomesWithThisDNA
        (query.extract ((i : Int) * fragmentMatchLength) fragmentMatchLength []).2
        fragmentMatchLength exactMatchOnly matches_ with
    | none => none
    | some r => poolLoop m query fragmentMatchLength exactMatchOnly rest r.2

/-- The second loop of `findRelatedGenomes` over the genomes still to do, returning the
final `matchHolder`. -/
def scoreLoop (matches_ : List DNAMatch) (numFrags : Int) (matchPercentThreshold : Dbl) :
    List Genome → List GenomeMatch → List GenomeMatch
  | [], matchHolder => matchHolder
  | g :: rest, matchHolder =>
    if Dbl.gt (percentage (numMatches matches_ g.name) numFrags) matchPercentThreshold then
      scoreLoop matches_ numFrags matchPercentThreshold rest
        (insertMatch ⟨g.name, percentage (numMatches matches_ g.name) numFrags⟩ matchHolder)
    else scoreLoop matches_ numFrags matchPercentThreshold rest matchHolder

/-- The function `findRelatedGenomes`: the returned flag and the content of `results` after
the call.  `none` for the integer division by zero; past the first test `numFrags` is not
negative, so the loop bound is taken without the conversion to `size_t`. -/
def findRelatedGenomes (m : GenomeMatcherImpl) (query : Genome) (fragmentMatchLength : Int)
    (exactMatchOnly : Bool) (matchPercentThreshold : Dbl) (results : List GenomeMatch) :
    Option (Bool × List GenomeMatch) :=
  if fragmentMatchLength < (m.m_minSearchLength : Int) then some (false, results)
  else if fragmentMatchLength = 0 then none
  else
    match poolLoop m query fragmentMatchLength exactMatchOnly
        (List.range (Int.tdiv query.length fragmentMatchLength).toNat) [] with
    | none => none
    | some matches_ =>
      some (!(scoreLoop matches_ (Int.tdiv query.length fragmentMatchLength)
              matchPercentThreshold m.m_genomeList []).isEmpty,
        results ++ scoreLoop matches_ (Int.tdiv query.length fragmentMatchLength)
              matchPercentThreshold m.m_genomeList [])

end GenomeMatcherImpl

/-! ## Vocabulary of the findRelatedGenomes statements -/

/-- The order of the results: `a` may stand before `b` when its percentage is greater, or
equal with a name that is not after the name of `b`. -/
def GenomeMatch.before (a b : GenomeMatch) : Prop :=
  Dbl.gt a.percentMatch b.percentMatch = true ∨
    (Dbl.eq a.percentMatch b.percentMatch = true ∧ strLt b.genomeName a.genomeName = false)

/-- The number of the non-overlapping windows of the query (window `i` is
`query[i * len : (i + 1) * len]`, for `i < floor(query.length / len)`) on which
`findGenomesWithThisDNA` with `minimumLength = len` returns a match named `n`. -/
def windowHits (m : GenomeMatcherImpl) (query : Genome) (fragmentMatchLength : Int)
    (exactMatchOnly : Bool) (n : Str) : Nat :=
  ((List.range (Int.tdiv query.length fragmentMatchLength).toNat).filter (fun i =>
    match m.findGenomesWithThisDNA
        (slice query.m_sequence (i * fragmentMatchLength.toNat) fragmentMatchLength.toNat)
        fragmentMatchLength exactMatchOnly [] with
    | some r => r.2.any (fun x => decide (x.genomeName = n))
    | none => false)).length

/-- Whether the call on window `i`, as the first loop of `findRelatedGenomes` makes it,
returns a match named `n`. -/
def poolHit (m : GenomeMatcherImpl) (query : Genome) (fml : Int) (ex : Bool) (n : Str)
    (i : Nat) : Bool :=
  match m.findGenomesWithThisDNA (query.extract ((i : Int) * fml) fml []).2 fml ex [] with
  | some r => r.2.any (fun x => decide (x.genomeName = n))
  | none => false

/-- The query cut after its last whole window. -/
def truncateQuery (query : Genome) (fragmentMatchLength : Int) : Genome :=
  ⟨query.m_name, query.m_sequence.take
    (Int.tdiv query.length fragmentMatchLength * fragmentMatchLength).toNat⟩

/-- The matcher of window size 4 holding the one sequence `A = ACGTACGT` of the examples of
the specification: the state `addGenome` returns from the constructed matcher. -/
def specExampleMatcher : GenomeMatcherImpl :=
  ⟨4, [⟨"A".toList, "ACGTACGT".toList⟩],
    ((List.range 5).map (fun i => (slice "ACGTACGT".toList i 4,
      (⟨0, (i : Int)⟩ : SeqFrag)))).foldl (fun t kv => t.insert kv.1 kv.2) Trie.empty⟩

/-- A matcher of window size 4 holding `Y = CCACGTCC` and `X = ACGTGGGG`, in that order. -/
def rankingExampleMatcher : GenomeMatcherImpl :=
  (addGenomes 10 (GenomeMatcherImpl.construct 4)
    [⟨"Y".toList, "CCACGTCC".toList⟩, ⟨"X".toList, "ACGTGGGG".toList⟩]).getD
    (GenomeMatcherImpl.construct 4)

/-! ## Genome.cpp: load -/

/-- The function `GenomeImpl::isValidBase`: the result flag and the character after the
call (a lower-case base is made upper-case). -/
def isValidBase (base : Char) : Bool × Char :=
  let base' :=
    if base = 'a' ∨ base = 'c' ∨ base = 't' ∨ base = 'g' ∨ base = 'n' then base.toUpper
    else base
  (decide (base' = 'A' ∨ base' = 'C' ∨ base' = 'T' ∨ base' = 'G' ∨ base' = 'N'), base')

/-- The loop of `isValidSequence` over `temp`: the copy with its bases made upper-case, or
`none` for the early `return false`. -/
def validBasesLoop : Str → Option Str
  | [] => some []
  | c :: rest =>
    if (isValidBase c).1 then (validBasesLoop rest).map ((isValidBase c).2 :: ·) else none

/-- The function `GenomeImpl::isValidSequence`: the result flag and the string after the
call. -/
def isValidSequence (sequence : Str) : Bool × Str :=
  if sequence.isEmpty ∨ 80 < sequence.length then (false, sequence)
  else
    match validBasesLoop sequence with
    | none => (false, sequence)
    | some temp => (true, temp)

/-- The function `GenomeImpl::isValidName`: the result flag and the string after the call
(the leading `>` removed). -/
def isValidName (name : Str) : Bool × Str :=
  if name.length ≤ 1 ∨ keyFront name ≠ '>' then (false, name) else (true, name.drop 1)

/-- The `while (getline …)` loop of `GenomeImpl::load` and what follows it, on the lines
still to read, with the locals `name` and `sequence` and the caller's `genomes`; the static
helper `addGenome` pushes `Genome(name, sequence)` and clears both strings. -/
def loadLoop : Str → Str → List Genome → List Str → Bool × List Genome
  | name, sequence, genomes, [] =>
    if name.isEmpty ∨ sequence.isEmpty then (false, genomes)
    else (true, genomes ++ [⟨name, sequence⟩])
  | name, sequence, genomes, line :: rest =>
    if (isValidName line).1 then
      if sequence.isEmpty then (false, genomes)
      else loadLoop (isValidName line).2 [] (genomes ++ [⟨name, sequence⟩]) rest
    else if (isValidSequence line).1 then
      loadLoop name (sequence ++ (isValidSequence line).2) genomes rest
    else (false, genomes)

/-- The function `GenomeImpl::load` on an input given as the list of its lines (what
`getline` yields in turn): the result flag and the content of `genomes` after the call. -/
def load (genomeSource : List Str) (genomes : List Genome) : Bool × List Genome :=
  match genomeSource with
  | [] => (false, genomes)
  | line :: rest =>
    if (isValidName line).1 then loadLoop (isValidName line).2 [] genomes rest
    else (false, genomes)

/-! ## Vocabulary of the load statements -/

/-- A name line: it starts with `>` and has at least one further character. -/
def IsNameLine (l : Str) : Prop :=
  l.head? = some '>' ∧ 2 ≤ l.length

/-- One of the bases `A`, `C`, `T`, `G`, `N`, in either case. -/
def IsBase (c : Char) : Prop :=
  c = 'A' ∨ c = 'C' ∨ c = 'T' ∨ c = 'G' ∨ c = 'N' ∨
    c = 'a' ∨ c = 'c' ∨ c = 't' ∨ c = 'g' ∨ c = 'n'

/-- A sequence line: between 1 and 80 characters, all of them bases. -/
def IsSequenceLine (l : Str) : Prop :=
  1 ≤ l.length ∧ l.length ≤ 80 ∧ ∀ c ∈ l, IsBase c

instance (l : Str) : Decidable (IsNameLine l) := by
  unfold IsNameLine; infer_instance

instance (c : Char) : Decidable (IsBase c) := by
  unfold IsBase; infer_instance

instance (l : Str) : Decidable (IsSequenceLine l) := by
  unfold IsSequenceLine; infer_instance

/-- A well-formed input, in the words of the specification: the list of lines is not empty,
its first line is a name line, every other line is a name line or a sequence line, and every
name line is immediately followed by a sequence line (line `i + 1` exists and is one). -/
def WellFormedInput (lines : List Str) : Prop :=
  lines ≠ [] ∧
  IsNameLine (lines.headD []) ∧
  (∀ l ∈ lines.tail, IsNameLine l ∨ IsSequenceLine l) ∧
  (∀ i, i < lines.length → IsNameLine (lines.getD i []) →
    i + 1 < lines.length ∧ IsSequenceLine (lines.getD (i + 1) []))

instance (lines : List Str) : Decidable (WellFormedInput lines) := by
  unfold WellFormedInput; infer_instance

/-- The upper-case form of a character. -/
def upperBase (c : Char) : Char :=
  c.toUpper

/-- The bases of a record: the upper-cased lines up to the next name line, concatenated. -/
def basesUntilName : List Str → Str
  | [] => []
  | l :: rest => if IsNameLine l then [] else l.map upperBase ++ basesUntilName rest

/-- The records of an input, in the words of the specification: one per name line, in input
order, named by the name line without its leading delimiter, with the bases of the lines
between that name line and the next. -/
def recordsOf : List Str → List Genome
  | [] => []
  | l :: rest =>
    if IsNameLine l then ⟨l.drop 1, basesUntilName rest⟩ :: recordsOf rest
    else recordsOf rest

/-- The number of name lines of an input. -/
def nameLineCount (lines : List Str) : Nat :=
  (lines.filter (fun l => decide (IsNameLine l))).length

/-- One of the upper-case bases `A`, `C`, `T`, `G`, `N`. -/
def IsUpperBase (c : Char) : Prop :=
  c = 'A' ∨ c = 'C' ∨ c = 'T' ∨ c = 'G' ∨ c = 'N'

/-- Lines that `load` accepts after a name line: `pendingEmpty` tells whether the record
being read has no sequence line yet. -/
def LinesOk : Bool → List Str → Prop
  | b, [] => b = false
  | b, l :: rest =>
    if IsNameLine l then b = false ∧ LinesOk true rest
    else IsSequenceLine l ∧ LinesOk false rest

/-- Every name line of the list is immediately followed by a sequence line. -/
def NamesFollowed (lines : List Str) : Prop :=
  ∀ i, i < lines.length → IsNameLine (lines.getD i []) →
    i + 1 < lines.length ∧ IsSequenceLine (lines.getD (i + 1) [])

/-- The values stored in the trie under the key `key`: the values of the node the path
`key` leads to from the root (what `findNode` collects from the root in exact mode). -/
def Trie.storedUnder {V : Type} (t : Trie V) (key : Str) : List V :=
  findNode t.m_root key true

/-! ## Vocabulary of the last statements -/

/-- The nodes the path `key` leads to from `root`: at each character every child with that
id is followed. -/
def nodesAt {V : Type} : Str → Node V → List (Node V)
  | [], root => [root]
  | c :: key, root =>
    (root.childs.filter (fun ch => decide (c = ch.id))).flatMap (nodesAt key)

/-- Written from the specification's words: the length of the extension of a match over two
strings, continued while the mismatches stay within the budget `b` that is left (a mismatch
is accepted and uses up one unit while one is left, and stops the extension otherwise). -/
def extensionWithBudget : Nat → Str → Str → Nat
  | _, _, [] => 0
  | _, [], _ :: _ => 0
  | b, f :: fs, g :: gs =>
    if f = g then extensionWithBudget b fs gs + 1
    else
      match b with
      | 0 => 0
      | b' + 1 => extensionWithBudget b' fs gs + 1

/-! ## Vocabulary of the corrected statements -/

/-- The lines `load` reads after a name line before it meets a violation: a name line while
the record being read has no sequence line yet (`pendingEmpty`), or a line that is neither
a name line nor a sequence line, ends them; the violating line is not among them. -/
def acceptedLines : Bool → List Str → List Str
  | _, [] => []
  | pendingEmpty, l :: rest =>
    if IsNameLine l then (if pendingEmpty then [] else l :: acceptedLines true rest)
    else if IsSequenceLine l then l :: acceptedLines false rest
    else []

/-- The lines of the input before the first violation (all of them when the only violation
is the end of the input right after a name line): nothing when the first line is not a name
line. -/
def linesBeforeViolation (lines : List Str) : List Str :=
  match lines with
  | [] => []
  | l :: rest => if IsNameLine l then l :: acceptedLines true rest else []

/-- A matcher of window size 1 holding the one sequence `X = A`. -/
def roundingExampleMatcher : GenomeMatcherImpl :=
  (addGenomes 10 (GenomeMatcherImpl.construct 1) [⟨"X".toList, "A".toList⟩]).getD
    (GenomeMatcherImpl.construct 1)

/-- A query of 20 windows of length 1, of which the first 11 are `A`. -/
def roundingExampleQuery : Genome :=
  ⟨"Q".toList, "AAAAAAAAAAACCCCCCCCC".toList⟩

end CS32

namespace CS32

/-! ## The trie -/

section TrieTheorems

variable {V : Type}

/-- The child vector after one step of `insert`, in the words of `isChild`: when `isChild`
finds no child, the walked fresh node is pushed at the back. -/
theorem insertChild_of_isChild_none (id : Char) (walk : Node V → Node V) :
    ∀ cs : List (Node V), isChild id cs = none →
      insertChild id walk cs = cs ++ [walk (createNode id)] := by
  intro cs
  induction cs with
  | nil => intro _; rfl
  | cons ch rest ih =>
    intro h
    by_cases hc : id = ch.id
    · simp [isChild, hc] at h
    · rw [isChild, if_neg hc] at h
      rw [insertChild, if_neg hc, ih h, List.cons_append]

/-- When `isChild` finds the child `ch`, it is the first with that id, and it alone is
replaced by the walked node. -/
theorem insertChild_of_isChild_some (id : Char) (walk : Node V → Node V) :
    ∀ (cs : List (Node V)) (ch : Node V), isChild id cs = some ch →
      ∃ pre post, cs = pre ++ ch :: post ∧ id = ch.id ∧ (∀ x ∈ pre, ¬ id = x.id) ∧
        insertChild id walk cs = pre ++ walk ch :: post := by
  intro cs
  induction cs with
  | nil => intro ch h; simp [isChild] at h
  | cons c rest ih =>
    intro ch h
    by_cases hc : id = c.id
    · rw [isChild, if_pos hc, Option.some.injEq] at h
      subst h
      exact ⟨[], rest, rfl, hc, by simp, by simp [insertChild, hc]⟩
    · rw [isChild, if_neg hc] at h
      obtain ⟨pre, post, h1, h2, h3, h4⟩ := ih ch h
      refine ⟨c :: pre, post, by rw [h1, List.cons_append], h2, ?_, ?_⟩
      · intro x hx
        rcases List.mem_cons.mp hx with rfl | hx
        · exact hc
        · exact h3 x hx
      · rw [insertChild, if_neg hc, h4, List.cons_append]

theorem insertNode_id (root : Node V) (key : Str) (value : V) :
    (insertNode root key value).id = root.id := by
  cases key <;> rfl

theorem findNode_createNode (c : Char) (q : Str) (ex : Bool) :
    findNode (createNode c : Node V) q ex = [] := by
  cases q <;> simp [findNode, createNode, Node.vals, Node.childs]

theorem flatMap_insertChild_perm (c : Char) (walk : Node V → Node V) (F : Node V → List V)
    (X : List V) (h1 : ∀ ch, c = ch.id → (F (walk ch)).Perm (F ch ++ X))
    (h2 : (F (walk (createNode c))).Perm X) (cs : List (Node V)) :
    ((insertChild c walk cs).flatMap F).Perm (cs.flatMap F ++ X) := by
  induction cs with
  | nil => simpa [insertChild] using h2
  | cons ch rest ih =>
    by_cases hc : c = ch.id
    · simp only [insertChild, if_pos hc, List.flatMap_cons]
      have := (h1 ch hc).append_right (rest.flatMap F)
      refine this.trans ?_
      simp only [List.append_assoc]
      exact List.Perm.append_left _ List.perm_append_comm
    · simp only [insertChild, if_neg hc, List.flatMap_cons, List.append_assoc]
      exact List.Perm.append_left _ ih

/-- Inserting below a node adds to every `findNode` result exactly the inserted value when the
inserted key suffix matches the query suffix, and nothing otherwise. -/
theorem findNode_insertNode_perm (k : Str) (v : V) :
    ∀ (n : Node V) (q : Str) (ex : Bool),
      (findNode (insertNode n k v) q ex).Perm
        (findNode n q ex ++ if keyMatch k q ex then [v] else []) := by
  induction k with
  | nil =>
    intro n q ex
    cases q with
    | nil => simp [insertNode, findNode, Node.vals, keyMatch]
    | cons d q => simp [insertNode, findNode, Node.childs, keyMatch]
  | cons c k ih =>
    intro n q ex
    cases q with
    | nil => simp [insertNode, findNode, Node.vals, keyMatch]
    | cons d q =>
      simp only [insertNode, findNode, Node.childs]
      apply flatMap_insertChild_perm
      · intro ch hc
        rw [insertNode_id]
        by_cases hd : d = ch.id
        · have hdc : d = c := by rw [hd, hc]
          simpa [hd, keyMatch, hdc, hc] using ih ch q ex
        · have hdc : ¬ d = c := by rw [hc]; exact hd
          cases ex with
          | true => simp [hd, keyMatch, hdc]
          | false => simpa [hd, keyMatch, hdc] using ih ch q true
      · rw [insertNode_id]
        have hid : (createNode c : Node V).id = c := rfl
        rw [hid]
        by_cases hdc : d = c
        · simpa [hdc, keyMatch, findNode_createNode] using ih (createNode c) q ex
        · cases ex with
          | true => simp [hdc, keyMatch]
          | false => simpa [hdc, keyMatch, findNode_createNode] using ih (createNode c) q true

theorem findLoop_cons (d : Char) (q : Str) (ex : Bool) (cs : List (Node V)) :
    findLoop (d :: q) ex cs = some (cs.flatMap (rootStep d q ex)) := by
  induction cs with
  | nil => rfl
  | cons ch rest ih =>
    by_cases h : d = ch.id
    · have hk : keyFront (d :: q) = ch.id := h
      simp only [findLoop, if_pos hk, substr1, ih]
      simp [rootStep, h]
    · have hk : ¬ keyFront (d :: q) = ch.id := h
      simp only [findLoop, if_neg hk, ih]
      simp [rootStep, h]

theorem find_cons (t : Trie V) (d : Char) (q : Str) (ex : Bool) :
    t.find (d :: q) ex = some (t.m_root.childs.flatMap (rootStep d q ex)) :=
  findLoop_cons d q ex _

theorem find_insert_perm (t : Trie V) (k : Str) (v : V) (d : Char) (q : Str) (ex : Bool) :
    ((t.insert k v).m_root.childs.flatMap (rootStep d q ex)).Perm
      (t.m_root.childs.flatMap (rootStep d q ex) ++
        if rootMatch k (d :: q) ex then [v] else []) := by
  cases k with
  | nil => simp [Trie.insert, insertNode, Node.childs, rootMatch]
  | cons c k =>
    simp only [Trie.insert, insertNode, Node.childs]
    apply flatMap_insertChild_perm
    · intro ch hc
      by_cases hd : d = ch.id
      · have hdc : d = c := by rw [hd, hc]
        simpa [rootStep, insertNode_id, hd, rootMatch, hdc, hc] using
          findNode_insertNode_perm k v ch q ex
      · have hdc : ¬ d = c := by rw [hc]; exact hd
        simp [rootStep, insertNode_id, hd, rootMatch, hdc]
    · have hid : (createNode c : Node V).id = c := rfl
      by_cases hdc : d = c
      · simpa [rootStep, insertNode_id, hid, hdc, rootMatch, findNode_createNode] using
          findNode_insertNode_perm k v (createNode c) q ex
      · simp [rootStep, insertNode_id, hid, hdc, rootMatch]

theorem foldl_insert_perm (kvs : List (Str × V)) (d : Char) (q : Str) (ex : Bool) :
    ∀ t : Trie V,
      ((kvs.foldl (fun t kv => t.insert kv.1 kv.2) t).m_root.childs.flatMap
          (rootStep d q ex)).Perm
        (t.m_root.childs.flatMap (rootStep d q ex) ++
          (kvs.filter (fun kv => rootMatch kv.1 (d :: q) ex)).map Prod.snd) := by
  induction kvs with
  | nil => intro t; simp
  | cons kv rest ih =>
    intro t
    simp only [List.foldl_cons]
    refine (ih (t.insert kv.1 kv.2)).trans ?_
    refine ((find_insert_perm t kv.1 kv.2 d q ex).append_right _).trans ?_
    rw [List.append_assoc]
    apply List.Perm.append_left
    by_cases hm : rootMatch kv.1 (d :: q) ex = true
    · simp [List.filter_cons, hm]
    · simp [List.filter_cons, hm]

theorem mismatches_self (k : Str) : mismatches k k = 0 := by
  induction k with
  | nil => rfl
  | cons c k ih => simp [mismatches, ih]

theorem eq_of_mismatches_zero (k : Str) :
    ∀ q : Str, k.length = q.length → mismatches k q = 0 → k = q := by
  induction k with
  | nil => intro q hl _; cases q with
    | nil => rfl
    | cons d q => simp at hl
  | cons c k ih =>
    intro q hl hm
    cases q with
    | nil => simp at hl
    | cons d q =>
      by_cases h : c = d
      · simp [mismatches, h] at hm
        simp at hl
        rw [h, ih q hl hm]
      · simp [mismatches, h] at hm

theorem keyMatch_true_iff (k : Str) :
    ∀ q : Str, keyMatch k q true = true ↔ k = q := by
  induction k with
  | nil => intro q; cases q <;> simp [keyMatch]
  | cons c k ih =>
    intro q
    cases q with
    | nil => simp [keyMatch]
    | cons d q =>
      by_cases h : d = c
      · simp [keyMatch, h, ih]
      · simp [keyMatch, h]; intro h'; exact absurd h'.symm h

theorem keyMatch_false_iff (k : Str) :
    ∀ q : Str, keyMatch k q false = true ↔ k.length = q.length ∧ mismatches k q ≤ 1 := by
  induction k with
  | nil => intro q; cases q <;> simp [keyMatch, mismatches]
  | cons c k ih =>
    intro q
    cases q with
    | nil => simp [keyMatch]
    | cons d q =>
      by_cases h : d = c
      · have h' : c = d := h.symm
        simp [keyMatch, h, mismatches, ih]
      · have h' : ¬ c = d := fun e => h e.symm
        simp only [keyMatch, if_neg h, mismatches, if_neg h', Bool.not_false, Bool.true_and,
          keyMatch_true_iff, List.length_cons, Nat.add_right_cancel_iff]
        constructor
        · intro e; subst e; exact ⟨rfl, by simp [mismatches_self]⟩
        · rintro ⟨hl, hm⟩
          exact eq_of_mismatches_zero k q hl (by omega)

theorem rootMatch_false_iff (k : Str) (d : Char) (q : Str) :
    rootMatch k (d :: q) false = true ↔
      k.length = (d :: q).length ∧ k.head? = (d :: q).head? ∧ mismatches k (d :: q) ≤ 1 := by
  cases k with
  | nil => simp [rootMatch]
  | cons c k =>
    by_cases h : d = c
    · have h' : c = d := h.symm
      simp [rootMatch, h, keyMatch_false_iff, mismatches]
    · have h' : ¬ c = d := fun e => h e.symm
      simp [rootMatch, h, h']

theorem rootMatch_true_iff (k : Str) (d : Char) (q : Str) :
    rootMatch k (d :: q) true = true ↔ k = d :: q := by
  cases k with
  | nil => simp [rootMatch]
  | cons c k =>
    simp only [rootMatch, Bool.and_eq_true, decide_eq_true_eq, keyMatch_true_iff,
      List.cons.injEq]
    constructor
    · rintro ⟨h1, h2⟩; exact ⟨h1.symm, h2⟩
    · rintro ⟨h1, h2⟩; exact ⟨h1.symm, h2⟩

/-- The values `Trie::find` returns on a non-empty query, for a trie built by inserts. -/
theorem find_ofInserts_perm (kvs : List (Str × V)) (d : Char) (q : Str) (ex : Bool) :
    ∃ l, (Trie.ofInserts kvs).find (d :: q) ex = some l ∧
      l.Perm ((kvs.filter (fun kv => rootMatch kv.1 (d :: q) ex)).map Prod.snd) := by
  refine ⟨_, find_cons _ d q ex, ?_⟩
  have := foldl_insert_perm kvs d q ex (Trie.empty : Trie V)
  simpa [Trie.ofInserts, Trie.empty, Node.childs] using this

theorem insertChild_map_id (c : Char) (walk : Node V → Node V)
    (hw : ∀ ch, (walk ch).id = ch.id) (cs : List (Node V)) :
    (insertChild c walk cs).map Node.id =
      if c ∈ cs.map Node.id then cs.map Node.id else cs.map Node.id ++ [c] := by
  induction cs with
  | nil =>
    have : (walk (createNode c)).id = c := by rw [hw]; rfl
    simp [insertChild, this]
  | cons ch rest ih =>
    by_cases hc : c = ch.id
    · simp [insertChild, hc, hw]
    · rw [insertChild, if_neg hc, List.map_cons, ih, List.map_cons]
      by_cases hm : c ∈ List.map Node.id rest
      · rw [if_pos hm, if_pos (List.mem_cons_of_mem _ hm)]
      · have hm' : c ∉ ch.id :: List.map Node.id rest := by
          intro h
          rcases List.mem_cons.mp h with h | h
          · exact hc h
          · exact hm h
        rw [if_neg hm, if_neg hm', List.cons_append]

theorem insertChild_nodup (c : Char) (walk : Node V → Node V)
    (hw : ∀ ch, (walk ch).id = ch.id) (cs : List (Node V)) (hn : (cs.map Node.id).Nodup) :
    ((insertChild c walk cs).map Node.id).Nodup := by
  rw [insertChild_map_id c walk hw]
  split
  · exact hn
  · rename_i h
    rw [List.nodup_append]
    refine ⟨hn, List.nodup_singleton c, ?_⟩
    intro a ha hb
    simp at hb
    subst hb
    exact h ha

theorem mem_insertChild (c : Char) (walk : Node V → Node V) (cs : List (Node V))
    (x : Node V) (hx : x ∈ insertChild c walk cs) :
    x ∈ cs ∨ (∃ ch ∈ cs, x = walk ch) ∨ x = walk (createNode c) := by
  induction cs with
  | nil => simp [insertChild] at hx; exact Or.inr (Or.inr hx)
  | cons ch rest ih =>
    by_cases hc : c = ch.id
    · simp only [insertChild, if_pos hc, List.mem_cons] at hx
      rcases hx with hx | hx
      · exact Or.inr (Or.inl ⟨ch, by simp, hx⟩)
      · exact Or.inl (by simp [hx])
    · simp only [insertChild, if_neg hc, List.mem_cons] at hx
      rcases hx with hx | hx
      · exact Or.inl (by simp [hx])
      · rcases ih hx with h | ⟨y, hy, h⟩ | h
        · exact Or.inl (by simp [h])
        · exact Or.inr (Or.inl ⟨y, by simp [hy], h⟩)
        · exact Or.inr (Or.inr h)

theorem createNode_WF (c : Char) : (createNode c : Node V).WF :=
  Node.WF.mk c [] [] (by simp) (by simp)

/-- Insertion keeps the ids of the children of every node pairwise distinct. -/
theorem insertNode_WF (k : Str) (v : V) : ∀ n : Node V, n.WF → (insertNode n k v).WF := by
  induction k with
  | nil =>
    intro n hn
    cases hn with
    | mk id vals childs h1 h2 => exact Node.WF.mk _ _ _ h1 h2
  | cons c k ih =>
    intro n hn
    cases hn with
    | mk id vals childs h1 h2 =>
      simp only [insertNode, Node.childs, Node.id, Node.vals]
      refine Node.WF.mk _ _ _ (insertChild_nodup c _ (fun ch => insertNode_id ch k v) _ h1) ?_
      intro x hx
      rcases mem_insertChild c _ _ x hx with h | ⟨y, hy, h⟩ | h
      · exact h2 x h
      · rw [h]; exact ih y (h2 y hy)
      · rw [h]; exact ih _ (createNode_WF c)

theorem flatMap_eq_nil_of_ids (F : Node V → List V) (d : Char)
    (hF : ∀ ch, ¬ d = ch.id → F ch = []) (cs : List (Node V))
    (hd : d ∉ cs.map Node.id) : cs.flatMap F = [] := by
  induction cs with
  | nil => rfl
  | cons ch rest ih =>
    simp only [List.map_cons, List.mem_cons, not_or] at hd
    simp [List.flatMap_cons, hF ch hd.1, ih hd.2]

theorem flatMap_insertChild_eq (c d : Char) (walk : Node V → Node V) (F : Node V → List V)
    (X : List V) (hF : ∀ ch, ¬ d = ch.id → F ch = []) (hX : ¬ d = c → X = [])
    (h2 : F (walk (createNode c)) = X) (cs : List (Node V))
    (h1 : ∀ ch ∈ cs, c = ch.id → F (walk ch) = F ch ++ X)
    (hn : (cs.map Node.id).Nodup) :
    (insertChild c walk cs).flatMap F = cs.flatMap F ++ X := by
  induction cs with
  | nil => simp [insertChild, h2]
  | cons ch rest ih =>
    rw [List.map_cons, List.nodup_cons] at hn
    by_cases hc : c = ch.id
    · simp only [insertChild, if_pos hc, List.flatMap_cons]
      rw [h1 ch (by simp) hc]
      by_cases hdc : d = c
      · have : rest.flatMap F = [] :=
          flatMap_eq_nil_of_ids F d hF rest (by rw [hdc, hc]; exact hn.1)
        simp [this]
      · simp [hX hdc]
    · simp only [insertChild, if_neg hc, List.flatMap_cons, List.append_assoc]
      rw [ih (fun x hx => h1 x (by simp [hx])) hn.2]

/-- In exact mode, on a well-formed node, the inserted value comes last. -/
theorem findNode_insertNode_exact (k : Str) (v : V) :
    ∀ (n : Node V) (q : Str), n.WF →
      findNode (insertNode n k v) q true =
        findNode n q true ++ if keyMatch k q true then [v] else [] := by
  induction k with
  | nil =>
    intro n q _
    cases q with
    | nil => simp [insertNode, findNode, Node.vals, keyMatch]
    | cons d q => simp [insertNode, findNode, Node.childs, keyMatch]
  | cons c k ih =>
    intro n q hn
    cases q with
    | nil => simp [insertNode, findNode, Node.vals, keyMatch]
    | cons d q =>
      cases hn with
      | mk id vals childs hnd hch =>
        simp only [insertNode, findNode, Node.childs]
        apply flatMap_insertChild_eq c d
        · intro ch hd; simp [hd]
        · intro hdc; simp [keyMatch, hdc]
        · rw [insertNode_id]
          have hid : (createNode c : Node V).id = c := rfl
          rw [hid]
          by_cases hdc : d = c
          · simpa [hdc, keyMatch, findNode_createNode] using
              ih (createNode c) q (createNode_WF c)
          · simp [hdc, keyMatch]
        · intro ch hmem hc
          rw [insertNode_id]
          by_cases hd : d = ch.id
          · have hdc : d = c := by rw [hd, hc]
            simpa [hd, keyMatch, hdc, hc] using ih ch q (hch ch hmem)
          · have hdc : ¬ d = c := by rw [hc]; exact hd
            simp [hd, keyMatch, hdc]
        · exact hnd

theorem find_insert_exact (t : Trie V) (ht : t.m_root.WF) (k : Str) (v : V) (d : Char)
    (q : Str) :
    (t.insert k v).m_root.childs.flatMap (rootStep d q true) =
      t.m_root.childs.flatMap (rootStep d q true) ++
        if rootMatch k (d :: q) true then [v] else [] := by
  obtain ⟨root⟩ := t
  cases ht with
  | mk id vals childs hnd hch =>
    cases k with
    | nil => simp [Trie.insert, insertNode, Node.childs, rootMatch]
    | cons c k =>
      simp only [Trie.insert, insertNode, Node.childs]
      apply flatMap_insertChild_eq c d
      · intro ch hd; simp [rootStep, hd]
      · intro hdc; simp [rootMatch, hdc]
      · have hid : (createNode c : Node V).id = c := rfl
        by_cases hdc : d = c
        · simpa [rootStep, insertNode_id, hid, hdc, rootMatch, findNode_createNode] using
            findNode_insertNode_exact k v (createNode c) q (createNode_WF c)
        · simp [rootStep, insertNode_id, hid, hdc, rootMatch]
      · intro ch hmem hc
        by_cases hd : d = ch.id
        · have hdc : d = c := by rw [hd, hc]
          simpa [rootStep, insertNode_id, hd, rootMatch, hdc, hc] using
            findNode_insertNode_exact k v ch q (hch ch hmem)
        · have hdc : ¬ d = c := by rw [hc]; exact hd
          simp [rootStep, insertNode_id, hd, rootMatch, hdc]
      · exact hnd

theorem foldl_insert_exact (kvs : List (Str × V)) (d : Char) (q : Str) :
    ∀ t : Trie V, t.m_root.WF →
      (kvs.foldl (fun t kv => t.insert kv.1 kv.2) t).m_root.childs.flatMap
          (rootStep d q true) =
        t.m_root.childs.flatMap (rootStep d q true) ++
          (kvs.filter (fun kv => rootMatch kv.1 (d :: q) true)).map Prod.snd := by
  induction kvs with
  | nil => intro t _; simp
  | cons kv rest ih =>
    intro t ht
    simp only [List.foldl_cons]
    rw [ih (t.insert kv.1 kv.2) (insertNode_WF kv.1 kv.2 _ ht), find_insert_exact t ht,
      List.append_assoc]
    by_cases hm : rootMatch kv.1 (d :: q) true = true
    · simp [List.filter_cons, hm]
    · simp [List.filter_cons, hm]

theorem empty_WF : (Trie.empty : Trie V).m_root.WF :=
  Node.WF.mk _ [] [] (by simp) (by simp)


/-- C1. Fuzzy lookup is exact as a multiset: on a trie built from the empty trie by a sequence
of inserts, `find q false` on a non-empty query `q` returns a list that is a permutation of
the values inserted under the keys that have the length of `q`, the first character of `q`,
and at most one position where they differ from `q`. -/
theorem trie_find_fuzzy_multiset {V : Type} (kvs : List (Str × V)) (q : Str) (hq : q ≠ []) :
    ∃ l, (Trie.ofInserts kvs).find q false = some l ∧
      l.Perm ((kvs.filter (fun kv => decide (kv.1.length = q.length ∧
        kv.1.head? = q.head? ∧ mismatches kv.1 q ≤ 1))).map Prod.snd) := by
  cases q with
  | nil => exact absurd rfl hq
  | cons d q =>
    obtain ⟨l, hl, hp⟩ := find_ofInserts_perm kvs d q false
    refine ⟨l, hl, ?_⟩
    have hf : (fun kv : Str × V => rootMatch kv.1 (d :: q) false) =
        (fun kv => decide (kv.1.length = (d :: q).length ∧
          kv.1.head? = (d :: q).head? ∧ mismatches kv.1 (d :: q) ≤ 1)) := by
      funext kv
      rw [Bool.eq_iff_iff, rootMatch_false_iff, decide_eq_true_iff]
    rw [hf] at hp
    exact hp

theorem trie_find_fuzzy_multiset_witness :
    ("ACT".toList ≠ []) ∧
    ∃ l, (Trie.ofInserts [("ACG".toList, 1), ("ACT".toList, 2), ("CCT".toList, 3),
        ("ACT".toList, 2), ("AGG".toList, 4), ("AC".toList, 5)]).find "ACT".toList false
          = some l ∧
      l.Perm (([("ACG".toList, 1), ("ACT".toList, 2), ("CCT".toList, 3),
        ("ACT".toList, 2), ("AGG".toList, 4), ("AC".toList, 5)].filter
          (fun kv => decide (kv.1.length = "ACT".toList.length ∧
        kv.1.head? = "ACT".toList.head? ∧ mismatches kv.1 "ACT".toList ≤ 1))).map Prod.snd) :=
  ⟨by decide, trie_find_fuzzy_multiset _ _ (by decide)⟩

/-- C2. Exact lookup returns everything inserted under the key, in insertion order and
without deduplication: on a trie built from the empty trie by inserts, `find q true` on a
non-empty key `q` is the list of the values of the inserts whose key is `q`, in the order of
the inserts (so a pair inserted `n` times occurs `n` times, and no value of another key
occurs). -/
theorem trie_find_exact_insertion_order {V : Type} (kvs : List (Str × V)) (q : Str)
    (hq : q ≠ []) :
    (Trie.ofInserts kvs).find q true =
      some ((kvs.filter (fun kv => decide (kv.1 = q))).map Prod.snd) := by
  cases q with
  | nil => exact absurd rfl hq
  | cons d q =>
    rw [find_cons]
    have := foldl_insert_exact kvs d q (Trie.empty : Trie V) empty_WF
    have hf : (fun kv : Str × V => rootMatch kv.1 (d :: q) true) =
        (fun kv => decide (kv.1 = d :: q)) := by
      funext kv
      rw [Bool.eq_iff_iff, rootMatch_true_iff, decide_eq_true_iff]
    rw [hf] at this
    simpa [Trie.ofInserts, Trie.empty, Node.childs] using this

theorem trie_find_exact_insertion_order_witness :
    ("ACT".toList ≠ []) ∧
    (Trie.ofInserts [("ACG".toList, 1), ("ACT".toList, 2), ("ACT".toList, 7),
        ("ACT".toList, 2), ("AGT".toList, 4)]).find "ACT".toList true = some [2, 7, 2] :=
  ⟨by decide, trie_find_exact_insertion_order _ _ (by decide)⟩

/-- C6. A substitution at index 0 is never found in fuzzy mode: on a trie built by inserts
and a non-empty query `q`, every value `find q false` returns was inserted under a key
whose first character is `q[0]`; so a value inserted only under keys with another first
character (or under no key) is not returned. -/
theorem trie_find_fuzzy_first_char {V : Type} (kvs : List (Str × V)) (q : Str) (hq : q ≠ []) :
    ∃ l, (Trie.ofInserts kvs).find q false = some l ∧
      (∀ v ∈ l, ∃ k, (k, v) ∈ kvs ∧ k.head? = q.head?) ∧
      (∀ v, (∀ k, (k, v) ∈ kvs → k.head? ≠ q.head?) → v ∉ l) := by
  cases q with
  | nil => exact absurd rfl hq
  | cons d q =>
    obtain ⟨l, hl, hp⟩ := find_ofInserts_perm kvs d q false
    have key : ∀ v ∈ l, ∃ k, (k, v) ∈ kvs ∧ k.head? = (d :: q).head? := by
      intro v hv
      have hv' := hp.mem_iff.mp hv
      simp only [List.mem_map, List.mem_filter] at hv'
      obtain ⟨⟨k, v'⟩, ⟨hmem, hm⟩, rfl⟩ := hv'
      exact ⟨k, hmem, ((rootMatch_false_iff k d q).mp hm).2.1⟩
    refine ⟨l, hl, key, ?_⟩
    intro v hv hmem
    obtain ⟨k, hk, hh⟩ := key v hmem
    exact hv k hk hh

theorem trie_find_fuzzy_first_char_witness :
    ("ACT".toList ≠ []) ∧
    ∃ l, (Trie.ofInserts [("CCT".toList, 3), ("ACT".toList, 2)]).find "ACT".toList false
        = some l ∧
      (∀ v ∈ l, ∃ k, (k, v) ∈ [("CCT".toList, 3), ("ACT".toList, 2)] ∧
        k.head? = "ACT".toList.head?) ∧
      (∀ v, (∀ k, (k, v) ∈ [("CCT".toList, 3), ("ACT".toList, 2)] →
        k.head? ≠ "ACT".toList.head?) → v ∉ l) :=
  ⟨by decide, trie_find_fuzzy_first_char _ _ (by decide)⟩

end TrieTheorems

end CS32

namespace CS32

/-! ## Sequence extraction and match extension -/

theorem slice_succ (seq : Str) (i n : Nat) (hi : i < seq.length) :
    slice seq i (n + 1) = seq.getD i (Char.ofNat 0) :: slice seq (i + 1) n := by
  unfold slice
  rw [List.drop_eq_getElem_cons hi, List.take_succ_cons]
  simp [List.getD_eq_getElem?_getD, List.getElem?_eq_getElem hi]

theorem slice_length (seq : Str) (i n : Nat) (h : i + n ≤ seq.length) :
    (slice seq i n).length = n := by
  simp [slice]; omega

theorem take_slice (seq : Str) (i n L : Nat) (h : L ≤ n) :
    (slice seq i n).take L = slice seq i L := by
  simp [slice, List.take_take, Nat.min_eq_left h]

/-- Inside the sequence the loop of `extract` copies the requested window. -/
theorem extractLoop_inside (seq : Str) :
    ∀ (n i : Nat) (temp : Str), i + n ≤ seq.length →
      Genome.extractLoop seq n (i : Int) temp = some (temp ++ slice seq i n) := by
  intro n
  induction n with
  | zero => intro i temp _; simp [Genome.extractLoop, slice]
  | succ n ih =>
    intro i temp h
    have h1 : ¬ ((i : Int) < 0 ∨ (seq.length : Int) ≤ (i : Int)) := by omega
    rw [Genome.extractLoop, if_neg h1]
    have h2 : ((i : Int) + 1) = ((i + 1 : Nat) : Int) := by push_cast; rfl
    rw [h2, ih (i + 1) _ (by omega), slice_succ seq i n (by omega)]
    simp

/-- Outside the sequence the loop of `extract` gives up. -/
theorem extractLoop_outside (seq : Str) :
    ∀ (n i : Nat) (temp : Str), seq.length < i + n → 0 < n →
      Genome.extractLoop seq n (i : Int) temp = none := by
  intro n
  induction n with
  | zero => intro i temp _ h; omega
  | succ n ih =>
    intro i temp h _
    rw [Genome.extractLoop]
    by_cases h1 : ((i : Int) < 0 ∨ (seq.length : Int) ≤ (i : Int))
    · rw [if_pos h1]
    · rw [if_neg h1]
      have h2 : ((i : Int) + 1) = ((i + 1 : Nat) : Int) := by push_cast; rfl
      rw [h2]
      exact ih (i + 1) _ (by omega) (by omega)

/-- The window `extract` writes into an empty string for a position inside the sequence. -/
theorem extract_inside (g : Genome) (i n : Nat) (h : i + n ≤ g.m_sequence.length) :
    (g.extract (i : Int) (n : Int) []).2 = slice g.m_sequence i n := by
  unfold Genome.extract
  by_cases he : g.m_sequence.isEmpty = true
  · rw [if_pos he]
    have : g.m_sequence = [] := by simpa using he
    have hn : n = 0 := by rw [this] at h; simp at h; omega
    simp [slice, hn]
  · rw [if_neg he, Int.toNat_ofNat, extractLoop_inside _ _ _ _ h]
    simp

/-- What `extract` leaves in an empty string: nothing, or the whole requested window. -/
theorem extract_snd_cases (g : Genome) (i n : Nat) :
    (g.extract (i : Int) (n : Int) []).2 = [] ∨
      (i + n ≤ g.m_sequence.length ∧
        (g.extract (i : Int) (n : Int) []).2 = slice g.m_sequence i n) := by
  by_cases h : i + n ≤ g.m_sequence.length
  · exact Or.inr ⟨h, extract_inside g i n h⟩
  · left
    unfold Genome.extract
    by_cases he : g.m_sequence.isEmpty = true
    · rw [if_pos he]
    · rw [if_neg he, Int.toNat_ofNat]
      by_cases hn : n = 0
      · subst hn; simp [Genome.extractLoop]
      · rw [extractLoop_outside _ _ _ _ (by omega) (by omega)]

theorem matchLength_le (f : Str) : ∀ (g : Str) (ex : Bool), matchLength f g ex ≤ g.length := by
  induction f with
  | nil => intro g ex; cases g <;> simp [matchLength]
  | cons a f ih =>
    intro g ex
    cases g with
    | nil => simp [matchLength]
    | cons b g =>
      simp only [matchLength, List.length_cons]
      split
      · have := ih g true; omega
      · split
        · omega
        · have := ih g ex; omega

/-- The loop of `findMatch` stops at a prefix within the budget. -/
theorem matchLength_within (f : Str) :
    ∀ (g : Str) (ex : Bool),
      mismatches (f.take (matchLength f g ex)) (g.take (matchLength f g ex)) ≤ budget ex := by
  induction f with
  | nil => intro g ex; cases g <;> simp [matchLength, mismatches]
  | cons a f ih =>
    intro g ex
    cases g with
    | nil => simp [matchLength, mismatches]
    | cons b g =>
      by_cases hab : a = b
      · have := ih g ex
        simpa [matchLength, hab, mismatches] using this
      · cases ex with
        | true => simp [matchLength, hab, mismatches]
        | false =>
          have := ih g true
          simp only [budget, if_true] at this
          simp [matchLength, hab, mismatches, budget, this]

/-- No longer prefix is within the budget. -/
theorem matchLength_maximal (f : Str) :
    ∀ (g : Str) (ex : Bool) (L : Nat), L ≤ g.length → g.length ≤ f.length →
      mismatches (f.take L) (g.take L) ≤ budget ex → L ≤ matchLength f g ex := by
  induction f with
  | nil =>
    intro g ex L hL hg _
    have : g.length = 0 := by simpa using hg
    omega
  | cons a f ih =>
    intro g ex L hL hg hm
    cases g with
    | nil => simp at hL; omega
    | cons b g =>
      cases L with
      | zero => omega
      | succ L =>
        simp only [List.length_cons, Nat.add_le_add_iff_right] at hL hg
        by_cases hab : a = b
        · simp only [List.take_succ_cons, mismatches, hab, if_true, Nat.zero_add] at hm
          have := ih g ex L hL hg hm
          simp [matchLength, hab, this]
        · simp only [List.take_succ_cons, mismatches, hab, if_false] at hm
          cases ex with
          | true => simp [budget] at hm
          | false =>
            have hm' : mismatches (f.take L) (g.take L) ≤ budget true := by
              simp only [budget] at hm ⊢; simp at hm ⊢; omega
            have := ih g true L hL hg hm'
            simp [matchLength, hab, this]

end CS32

namespace CS32

/-! ## findMatch and the parameter check -/

/-- The result of `findMatch` on an anchor whose index and position are in range. -/
theorem findMatch_eq (m : GenomeMatcherImpl) (fragment : Str) (idx p : Nat) (ex : Bool)
    (g : Genome) (hg : m.m_genomeList[idx]? = some g) (hp : p ≤ g.m_sequence.length) :
    m.findMatch fragment ⟨idx, (p : Int)⟩ ex =
      some ⟨g.name, matchLength fragment
        (slice g.m_sequence p (min fragment.length (g.m_sequence.length - p))) ex, (p : Int)⟩ := by
  have hmin : min (fragment.length : Int) (g.length - (p : Int)) =
      ((min fragment.length (g.m_sequence.length - p) : Nat) : Int) := by
    unfold Genome.length
    omega
  simp only [GenomeMatcherImpl.findMatch, hg]
  rw [hmin, extract_inside g p _ (by omega)]

theorem sizeT_of_nonneg (n : Int) (h0 : 0 ≤ n) (h1 : n ≤ 2147483647) : sizeT n = n.toNat := by
  unfold sizeT
  rw [Int.emod_eq_of_lt h0 (by omega)]

/-- The result of `findMatch` on an anchor in range: name, position, and a length that is
the longest prefix of the overlap within the mismatch budget. -/
theorem findMatch_spec (m : GenomeMatcherImpl) (fragment : Str) (idx p : Nat)
    (ex : Bool) (g : Genome) (hg : m.m_genomeList[idx]? = some g)
    (hp : p ≤ g.m_sequence.length) :
    ∃ r, m.findMatch fragment ⟨idx, (p : Int)⟩ ex = some r ∧
      r.genomeName = g.name ∧ r.position = (p : Int) ∧
      r.length ≤ min fragment.length (g.m_sequence.length - p) ∧
      mismatches (fragment.take r.length) (slice g.m_sequence p r.length) ≤ budget ex ∧
      ∀ L, L ≤ min fragment.length (g.m_sequence.length - p) →
        mismatches (fragment.take L) (slice g.m_sequence p L) ≤ budget ex → L ≤ r.length := by
  refine ⟨_, findMatch_eq m fragment idx p ex g hg hp, rfl, rfl, ?_, ?_, ?_⟩
  · have h := matchLength_le fragment
      (slice g.m_sequence p (min fragment.length (g.m_sequence.length - p))) ex
    rwa [slice_length _ _ _ (by omega)] at h
  · have h := matchLength_within fragment
      (slice g.m_sequence p (min fragment.length (g.m_sequence.length - p))) ex
    have hle := matchLength_le fragment
      (slice g.m_sequence p (min fragment.length (g.m_sequence.length - p))) ex
    rw [slice_length _ _ _ (by omega)] at hle
    rwa [take_slice _ _ _ _ hle] at h
  · intro L hL hm
    apply matchLength_maximal
    · rw [slice_length _ _ _ (by omega)]; exact hL
    · rw [slice_length _ _ _ (by omega)]; omega
    · rwa [take_slice _ _ _ _ hL]

/-- C10. Match extension computes the longest prefix within the mismatch budget: for an anchor
whose index names the sequence `g` and whose position `p` lies in `g`, with
`overlap = min fragment.length (g.length - p)`, `findMatch` returns the name of `g`, the
position `p` and a length `L ≤ overlap` such that `fragment[0:L]` and `g[p:p+L]` differ in at
most `budget` positions (0 in exact mode, 1 otherwise), and no larger `L ≤ overlap` has that
property. -/
theorem findMatch_longest_extension (m : GenomeMatcherImpl) (fragment : Str) (idx p : Nat)
    (ex : Bool) (g : Genome) (hg : m.m_genomeList[idx]? = some g)
    (hp : p ≤ g.m_sequence.length) :
    ∃ r, m.findMatch fragment ⟨idx, (p : Int)⟩ ex = some r ∧
      r.genomeName = g.name ∧ r.position = (p : Int) ∧
      r.length ≤ min fragment.length (g.m_sequence.length - p) ∧
      mismatches (fragment.take r.length) (slice g.m_sequence p r.length) ≤ budget ex ∧
      ∀ L, L ≤ min fragment.length (g.m_sequence.length - p) →
        mismatches (fragment.take L) (slice g.m_sequence p L) ≤ budget ex → L ≤ r.length :=
  findMatch_spec m fragment idx p ex g hg hp

theorem findMatch_longest_extension_witness :
    ((GenomeMatcherImpl.mk 4 [⟨"A".toList, "ACGTACGT".toList⟩] Trie.empty).m_genomeList[0]? =
      some ⟨"A".toList, "ACGTACGT".toList⟩) ∧
    (0 ≤ (Genome.mk "A".toList "ACGTACGT".toList).m_sequence.length) ∧
    ∃ r, (GenomeMatcherImpl.mk 4 [⟨"A".toList, "ACGTACGT".toList⟩] Trie.empty).findMatch
        "ACTTAGGT".toList ⟨0, ((0 : Nat) : Int)⟩ false = some r ∧
      r.genomeName = (Genome.mk "A".toList "ACGTACGT".toList).name ∧
      r.position = ((0 : Nat) : Int) ∧
      r.length ≤ min "ACTTAGGT".toList.length ("ACGTACGT".toList.length - 0) ∧
      mismatches ("ACTTAGGT".toList.take r.length) (slice "ACGTACGT".toList 0 r.length)
        ≤ budget false ∧
      ∀ L, L ≤ min "ACTTAGGT".toList.length ("ACGTACGT".toList.length - 0) →
        mismatches ("ACTTAGGT".toList.take L) (slice "ACGTACGT".toList 0 L) ≤ budget false →
        L ≤ r.length :=
  ⟨rfl, by decide,
    findMatch_longest_extension
      (GenomeMatcherImpl.mk 4 [⟨"A".toList, "ACGTACGT".toList⟩] Trie.empty)
      "ACTTAGGT".toList 0 0 false ⟨"A".toList, "ACGTACGT".toList⟩ rfl (by decide)⟩

/-- C8. A query with `minimumLength < windowSize` or `fragment.length < minimumLength` fails
whatever is stored: for every matcher state (any genome list, any trie) and every
`minimumLength` in the range of `int`, `findGenomesWithThisDNA` returns `false` and the
output collection is what it was. -/
theorem findGenomes_rejects_bad_lengths (m : GenomeMatcherImpl) (fragment : Str)
    (minimumLength : Int) (ex : Bool) (matches_ : List DNAMatch)
    (hint : minimumLength ≤ 2147483647)
    (h : minimumLength < (m.m_minSearchLength : Int) ∨
      (fragment.length : Int) < minimumLength) :
    m.findGenomesWithThisDNA fragment minimumLength ex matches_ = some (false, matches_) := by
  unfold GenomeMatcherImpl.findGenomesWithThisDNA
  rw [if_pos]
  rcases h with h | h
  · exact Or.inr h
  · left
    rw [sizeT_of_nonneg minimumLength (by omega) hint]
    omega

theorem findGenomes_rejects_bad_lengths_witness :
    ((5 : Int) ≤ 2147483647) ∧
    ((5 : Int) < ((4 : Nat) : Int) ∨ (("ACGT".toList.length : Nat) : Int) < 5) ∧
    (GenomeMatcherImpl.mk 4 [⟨"A".toList, "ACGTACGT".toList⟩]
        (Trie.ofInserts [("ACGT".toList, ⟨0, 0⟩)])).findGenomesWithThisDNA
      "ACGT".toList 5 true [⟨"B".toList, 4, 2⟩] = some (false, [⟨"B".toList, 4, 2⟩]) :=
  ⟨by decide, by decide,
    findGenomes_rejects_bad_lengths _ _ _ _ _ (by decide) (by decide)⟩

end CS32

namespace CS32

/-! ## Reconciliation: one result per name, the first longest candidate -/

theorem sameGenome_none (c : DNAMatch) :
    ∀ h : List DNAMatch, sameGenome c h = none → ∀ e ∈ h, ¬ c.genomeName = e.genomeName := by
  intro h
  induction h with
  | nil => intro _ e he; simp at he
  | cons a rest ih =>
    intro hs e he
    by_cases hn : c.genomeName = a.genomeName
    · simp [sameGenome, hn] at hs
    · simp only [sameGenome, if_neg hn, Option.map_eq_none'] at hs
      rcases List.mem_cons.mp he with rfl | he'
      · exact hn
      · exact ih hs e he'

theorem sameGenome_some (c : DNAMatch) :
    ∀ (h : List DNAMatch) (i : Nat), sameGenome c h = some i →
      ∃ pre old post, h = pre ++ old :: post ∧ i = pre.length ∧
        c.genomeName = old.genomeName ∧ ∀ e ∈ pre, ¬ c.genomeName = e.genomeName := by
  intro h
  induction h with
  | nil => intro i hs; simp [sameGenome] at hs
  | cons a rest ih =>
    intro i hs
    by_cases hn : c.genomeName = a.genomeName
    · simp only [sameGenome, if_pos hn, Option.some.injEq] at hs
      exact ⟨[], a, rest, rfl, by simp [← hs], hn, by simp⟩
    · simp only [sameGenome, if_neg hn, Option.map_eq_some'] at hs
      obtain ⟨j, hj, rfl⟩ := hs
      obtain ⟨pre, old, post, rfl, rfl, h1, h2⟩ := ih j hj
      refine ⟨a :: pre, old, post, rfl, rfl, h1, ?_⟩
      intro e he
      rcases List.mem_cons.mp he with rfl | he'
      · exact hn
      · exact h2 e he'

/-- The shape of `reconcile`: replace in place, push at the back, or leave alone. -/
theorem reconcile_cases (minimumLength : Int) (c : DNAMatch) (h : List DNAMatch) :
    (∃ pre old post, h = pre ++ old :: post ∧ c.genomeName = old.genomeName ∧
        (∀ e ∈ pre, ¬ c.genomeName = e.genomeName) ∧
        reconcile minimumLength c h =
          if old.length < c.length then pre ++ c :: post else h) ∨
      ((∀ e ∈ h, ¬ c.genomeName = e.genomeName) ∧
        reconcile minimumLength c h =
          if minimumLength ≤ (c.length : Int) then h ++ [c] else h) := by
  cases hs : sameGenome c h with
  | none =>
    right
    exact ⟨sameGenome_none c h hs, by simp [reconcile, hs]⟩
  | some i =>
    left
    obtain ⟨pre, old, post, rfl, rfl, h1, h2⟩ := sameGenome_some c h i hs
    refine ⟨pre, old, post, rfl, h1, h2, ?_⟩
    have hget : (pre ++ old :: post)[pre.length]? = some old := by
      rw [List.getElem?_append_right (le_refl _)]; simp
    unfold reconcile
    rw [hs]
    simp only [hget]
    split
    · simp
    · rfl

/-- Reconciliation keeps the names pairwise distinct. -/
theorem reconcile_nodup (minimumLength : Int) (c : DNAMatch) (h : List DNAMatch)
    (hn : (h.map DNAMatch.genomeName).Nodup) :
    ((reconcile minimumLength c h).map DNAMatch.genomeName).Nodup := by
  rcases reconcile_cases minimumLength c h with ⟨pre, old, post, rfl, h1, _, hr⟩ | ⟨h1, hr⟩
  · rw [hr]
    split
    · simpa [h1] using hn
    · exact hn
  · rw [hr]
    split
    · rw [List.map_append, List.nodup_append]
      refine ⟨hn, by simp, ?_⟩
      intro a ha hb
      simp only [List.map_cons, List.map_nil, List.mem_singleton] at hb
      obtain ⟨e, he, rfl⟩ := List.mem_map.mp ha
      exact h1 e he hb.symm
    · exact hn

/-- The entry for a name after one step of reconciliation. -/
theorem holderEntry_reconcile (minimumLength : Int) (n : Str) (c : DNAMatch)
    (h : List DNAMatch) :
    holderEntry n (reconcile minimumLength c h) =
      entryStep minimumLength n (holderEntry n h) c := by
  rcases reconcile_cases minimumLength c h with ⟨pre, old, post, rfl, h1, h2, hr⟩ | ⟨h1, hr⟩
  · rw [hr]
    by_cases hcn : c.genomeName = n
    · have hpre : List.find? (fun e => decide (e.genomeName = n)) pre = none := by
        rw [List.find?_eq_none]
        intro e he
        simpa [← hcn] using fun h' => h2 e he h'.symm
      have hold : old.genomeName = n := by rw [← h1, hcn]
      have e1 : holderEntry n (pre ++ old :: post) = some old := by
        simp [holderEntry, List.find?_append, hpre, hold]
      have e2 : holderEntry n (pre ++ c :: post) = some c := by
        simp [holderEntry, List.find?_append, hpre, hcn]
      rw [e1]
      simp only [entryStep, if_pos hcn]
      split
      · exact e2
      · exact e1
    · have hold : ¬ old.genomeName = n := by rw [← h1]; exact hcn
      have e1 : holderEntry n (pre ++ c :: post) = holderEntry n (pre ++ old :: post) := by
        simp [holderEntry, List.find?_append, List.find?_cons, hcn, hold]
      simp only [entryStep, if_neg hcn]
      split
      · exact e1
      · rfl
  · rw [hr]
    by_cases hcn : c.genomeName = n
    · have hnone : holderEntry n h = none := by
        unfold holderEntry
        rw [List.find?_eq_none]
        intro e he
        simpa [← hcn] using fun h' => h1 e he h'.symm
      rw [hnone]
      simp only [entryStep, if_pos hcn]
      split
      · unfold holderEntry at hnone ⊢
        rw [List.find?_append, hnone]
        simp [hcn]
      · exact hnone
    · simp only [entryStep, if_neg hcn]
      split
      · simp [holderEntry, List.find?_append, hcn]
      · rfl

end CS32

namespace CS32

/-! ## The loop of findGenomesWithThisDNA -/

theorem findGenomesLoop_eq (m : GenomeMatcherImpl) (fragment : Str) (minimumLength : Int)
    (ex : Bool) :
    ∀ (temp : List SeqFrag) (holder : List DNAMatch),
      m.findGenomesLoop fragment minimumLength ex temp holder =
        (candidates m fragment ex temp).map
          (fun cands => cands.foldl (fun h c => reconcile minimumLength c h) holder) := by
  intro temp
  induction temp with
  | nil => intro holder; rfl
  | cons sf rest ih =>
    intro holder
    cases hf : m.findMatch fragment sf ex with
    | none => simp [GenomeMatcherImpl.findGenomesLoop, candidates, hf]
    | some c =>
      simp only [GenomeMatcherImpl.findGenomesLoop, candidates, hf, ih]
      cases candidates m fragment ex rest <;> simp

theorem foldl_reconcile_nodup (minimumLength : Int) :
    ∀ (cands : List DNAMatch) (h : List DNAMatch), (h.map DNAMatch.genomeName).Nodup →
      ((cands.foldl (fun h c => reconcile minimumLength c h) h).map
        DNAMatch.genomeName).Nodup := by
  intro cands
  induction cands with
  | nil => intro h hn; exact hn
  | cons c rest ih =>
    intro h hn
    exact ih _ (reconcile_nodup minimumLength c h hn)

theorem holderEntry_foldl (minimumLength : Int) (n : Str) :
    ∀ (cands : List DNAMatch) (h : List DNAMatch),
      holderEntry n (cands.foldl (fun h c => reconcile minimumLength c h) h) =
        cands.foldl (entryStep minimumLength n) (holderEntry n h) := by
  intro cands
  induction cands with
  | nil => intro h; rfl
  | cons c rest ih =>
    intro h
    simp only [List.foldl_cons]
    rw [ih, holderEntry_reconcile]

/-- With pairwise distinct names, the entry for a name is the only element with that name. -/
theorem holderEntry_eq_some_iff (n : Str) (h : List DNAMatch)
    (hn : (h.map DNAMatch.genomeName).Nodup) (r : DNAMatch) :
    holderEntry n h = some r ↔ r ∈ h ∧ r.genomeName = n := by
  induction h with
  | nil => simp [holderEntry]
  | cons a rest ih =>
    rw [List.map_cons, List.nodup_cons] at hn
    by_cases ha : a.genomeName = n
    · have hrest : ∀ e ∈ rest, ¬ e.genomeName = n := by
        intro e he hen
        exact hn.1 (List.mem_map.mpr ⟨e, he, by rw [hen, ha]⟩)
      simp only [holderEntry, List.find?_cons, ha, decide_True, Option.some.injEq,
        List.mem_cons]
      constructor
      · rintro rfl; exact ⟨Or.inl rfl, ha⟩
      · rintro ⟨h1 | h1, h2⟩
        · exact h1.symm
        · exact absurd h2 (hrest r h1)
    · have := ih hn.2
      simp only [holderEntry, List.find?_cons, ha, decide_False, List.mem_cons] at this ⊢
      rw [this]
      constructor
      · rintro ⟨h1, h2⟩; exact ⟨Or.inr h1, h2⟩
      · rintro ⟨h1 | h1, h2⟩
        · rw [h1] at h2; exact absurd h2 ha
        · exact ⟨h1, h2⟩

theorem entryInv_step (minimumLength : Int) (n : Str) (P : List DNAMatch)
    (s : Option DNAMatch) (c : DNAMatch) (hinv : EntryInv minimumLength n P s) :
    EntryInv minimumLength n (P ++ [c]) (entryStep minimumLength n s c) := by
  obtain ⟨h1, h2⟩ := hinv
  by_cases hcn : c.genomeName = n
  · cases s with
    | some old =>
      obtain ⟨o1, o2, o3, o4⟩ := h1 old rfl
      by_cases hlt : old.length < c.length
      · simp only [entryStep, if_pos hcn, if_pos hlt]
        refine ⟨?_, by simp⟩
        intro r hr
        simp only [Option.some.injEq] at hr
        subst hr
        refine ⟨hcn, by omega, ?_, ?_⟩
        · intro x hx hxn
          rcases List.mem_append.mp hx with hx | hx
          · have := o3 x hx hxn; omega
          · simp at hx; subst hx; exact le_refl _
        · rw [List.find?_append]
          have : List.find? (fun x => decide (x.genomeName = n ∧ x.length = c.length)) P
              = none := by
            rw [List.find?_eq_none]
            intro x hx
            simp only [decide_eq_true_eq, not_and]
            intro hxn hxl
            have := o3 x hx hxn
            omega
          rw [this]
          simp [hcn]
      · simp only [entryStep, if_pos hcn, if_neg hlt]
        refine ⟨?_, by simp⟩
        intro r hr
        simp only [Option.some.injEq] at hr
        subst hr
        refine ⟨o1, o2, ?_, ?_⟩
        · intro x hx hxn
          rcases List.mem_append.mp hx with hx | hx
          · exact o3 x hx hxn
          · simp at hx; subst hx; omega
        · rw [List.find?_append, o4]; rfl
    | none =>
      have h2' := h2 rfl
      by_cases hge : minimumLength ≤ (c.length : Int)
      · simp only [entryStep, if_pos hcn, if_pos hge]
        refine ⟨?_, by simp⟩
        intro r hr
        simp only [Option.some.injEq] at hr
        subst hr
        refine ⟨hcn, hge, ?_, ?_⟩
        · intro x hx hxn
          rcases List.mem_append.mp hx with hx | hx
          · have := h2' x hx hxn; omega
          · simp at hx; subst hx; exact le_refl _
        · rw [List.find?_append]
          have : List.find? (fun x => decide (x.genomeName = n ∧ x.length = c.length)) P
              = none := by
            rw [List.find?_eq_none]
            intro x hx
            simp only [decide_eq_true_eq, not_and]
            intro hxn hxl
            have := h2' x hx hxn
            omega
          rw [this]
          simp [hcn]
      · simp only [entryStep, if_pos hcn, if_neg hge]
        refine ⟨by simp, ?_⟩
        intro _ x hx hxn
        rcases List.mem_append.mp hx with hx | hx
        · exact h2' x hx hxn
        · simp at hx; subst hx; exact hge
  · simp only [entryStep, if_neg hcn]
    refine ⟨?_, ?_⟩
    · intro r hr
      obtain ⟨o1, o2, o3, o4⟩ := h1 r hr
      refine ⟨o1, o2, ?_, ?_⟩
      · intro x hx hxn
        rcases List.mem_append.mp hx with hx | hx
        · exact o3 x hx hxn
        · simp at hx; subst hx; exact absurd hxn hcn
      · rw [List.find?_append, o4]; rfl
    · intro hs x hx hxn
      rcases List.mem_append.mp hx with hx | hx
      · exact h2 hs x hx hxn
      · simp at hx; subst hx; exact absurd hxn hcn

theorem entryInv_foldl (minimumLength : Int) (n : Str) :
    ∀ (cands P : List DNAMatch) (s : Option DNAMatch), EntryInv minimumLength n P s →
      EntryInv minimumLength n (P ++ cands) (cands.foldl (entryStep minimumLength n) s) := by
  intro cands
  induction cands with
  | nil => intro P s h; simpa using h
  | cons c rest ih =>
    intro P s h
    have := ih (P ++ [c]) _ (entryInv_step minimumLength n P s c h)
    simpa using this

/-- The final `matchHolder` of the loop run from an empty one on the candidates `cands`:
its names are pairwise distinct, a name has an entry exactly when one of its candidates
reaches `minimumLength`, and the entry is the first of the longest candidates of the name. -/
theorem foldl_reconcile_spec (minimumLength : Int) (cands : List DNAMatch) :
    ((cands.foldl (fun h c => reconcile minimumLength c h) []).map
        DNAMatch.genomeName).Nodup ∧
    ∀ n : Str,
      ((∃ r ∈ cands.foldl (fun h c => reconcile minimumLength c h) [], r.genomeName = n) ↔
        (∃ c ∈ cands, c.genomeName = n ∧ minimumLength ≤ (c.length : Int))) ∧
      ∀ r ∈ cands.foldl (fun h c => reconcile minimumLength c h) [], r.genomeName = n →
        minimumLength ≤ (r.length : Int) ∧
        (∀ c ∈ cands, c.genomeName = n → c.length ≤ r.length) ∧
        cands.find? (fun c => decide (c.genomeName = n ∧ c.length = r.length)) = some r := by
  have hnd := foldl_reconcile_nodup minimumLength cands [] (by simp)
  refine ⟨hnd, ?_⟩
  intro n
  have hinv := entryInv_foldl minimumLength n cands [] none (by simp [EntryInv])
  rw [List.nil_append] at hinv
  have hfold := holderEntry_foldl minimumLength n cands []
  have hnone : holderEntry n [] = none := rfl
  rw [hnone] at hfold
  rw [← hfold] at hinv
  obtain ⟨i1, i2⟩ := hinv
  have hspec : ∀ r ∈ cands.foldl (fun h c => reconcile minimumLength c h) [],
      r.genomeName = n →
        minimumLength ≤ (r.length : Int) ∧
        (∀ c ∈ cands, c.genomeName = n → c.length ≤ r.length) ∧
        cands.find? (fun c => decide (c.genomeName = n ∧ c.length = r.length)) = some r := by
    intro r hr hrn
    have := (holderEntry_eq_some_iff n _ hnd r).mpr ⟨hr, hrn⟩
    exact (i1 r this).2
  refine ⟨⟨?_, ?_⟩, hspec⟩
  · rintro ⟨r, hr, hrn⟩
    obtain ⟨s1, _, s3⟩ := hspec r hr hrn
    exact ⟨r, List.mem_of_find?_eq_some s3, hrn, s1⟩
  · rintro ⟨c, hc, hcn, hcl⟩
    cases hs : holderEntry n (cands.foldl (fun h c => reconcile minimumLength c h) []) with
    | none => exact absurd hcl (i2 hs c hc hcn)
    | some r =>
      have := (holderEntry_eq_some_iff n _ hnd r).mp hs
      exact ⟨r, this.1, this.2⟩

/-- The result of `findGenomesWithThisDNA` on a query that passes the parameter check,
from the anchors the trie returns and their candidate matches. -/
theorem findGenomes_eq (m : GenomeMatcherImpl) (fragment : Str) (minimumLength : Int)
    (ex : Bool) (matches_ : List DNAMatch) (temp : List SeqFrag) (cands : List DNAMatch)
    (hcheck : ¬ (fragment.length < sizeT minimumLength ∨
      minimumLength < (m.m_minSearchLength : Int)))
    (hfind : m.m_seqFragTrie.find (fragment.take m.m_minSearchLength) ex = some temp)
    (hc : candidates m fragment ex temp = some cands) :
    m.findGenomesWithThisDNA fragment minimumLength ex matches_ =
      some (!(cands.foldl (fun h c => reconcile minimumLength c h) []).isEmpty,
        matches_ ++ cands.foldl (fun h c => reconcile minimumLength c h) []) := by
  unfold GenomeMatcherImpl.findGenomesWithThisDNA
  rw [if_neg hcheck, hfind]
  simp only [findGenomesLoop_eq, hc, Option.map_some']

end CS32

namespace CS32

/-! ## The states of the matcher -/

theorem addGenomeLoop_some (g : Genome) (w idx bound : Nat) :
    ∀ (fuel i : Nat) (t t' : Trie SeqFrag),
      GenomeMatcherImpl.addGenomeLoop g w idx bound fuel i t = some t' →
      ∃ es : List (Str × SeqFrag),
        t' = es.foldl (fun t kv => t.insert kv.1 kv.2) t ∧
        (∀ e ∈ es, ∃ j, e = GenomeMatcherImpl.addGenomeEntry g w idx j) ∧
        (∀ j, i ≤ j → j ≤ bound → GenomeMatcherImpl.addGenomeEntry g w idx j ∈ es) := by
  intro fuel
  induction fuel with
  | zero => intro i t t' h; simp [GenomeMatcherImpl.addGenomeLoop] at h
  | succ fuel ih =>
    intro i t t' h
    by_cases hi : i ≤ bound
    · rw [GenomeMatcherImpl.addGenomeLoop, if_pos hi] at h
      obtain ⟨es, h1, h2, h3⟩ := ih _ _ _ h
      refine ⟨GenomeMatcherImpl.addGenomeEntry g w idx i :: es, ?_, ?_, ?_⟩
      · rw [h1]; rfl
      · intro e he
        rcases List.mem_cons.mp he with rfl | he
        · exact ⟨i, rfl⟩
        · exact h2 e he
      · intro j hj hjb
        by_cases hji : j = i
        · subst hji; exact List.mem_cons_self _ _
        · have : (i + 1) % 2 ^ 64 ≤ j := le_trans (Nat.mod_le _ _) (by omega)
          exact List.mem_cons_of_mem _ (h3 j this hjb)
    · rw [GenomeMatcherImpl.addGenomeLoop, if_neg hi] at h
      simp only [Option.some.injEq] at h
      subst h
      exact ⟨[], rfl, by simp, fun j hj hjb => absurd (le_trans hj hjb) hi⟩

theorem sizeT_sub (len w : Nat) (h : w ≤ len) (hlen : len < 2 ^ 64) :
    sizeT ((len : Int) - (w : Int)) = len - w := by
  unfold sizeT
  rw [Int.emod_eq_of_lt (by omega) (by omega)]
  omega

/-- Every state of the matcher has its trie described by a list of entries. -/
theorem reachable_inv (w : Nat) (m : GenomeMatcherImpl) (hm : GenomeMatcherImpl.Reachable w m) :
    ∃ kvs, MatcherInv w m kvs := by
  induction hm with
  | construct =>
    exact ⟨[], rfl, rfl, by simp, by simp [GenomeMatcherImpl.construct]⟩
  | @addGenome m m' g fuel _ hadd ih =>
    obtain ⟨kvs, hinv⟩ := ih
    unfold GenomeMatcherImpl.addGenome at hadd
    simp only at hadd
    split at hadd
    · exact absurd hadd (by simp)
    · rename_i t ht
      simp only [Option.some.injEq] at hadd
      subst hadd
      obtain ⟨es, h1, h2, h3⟩ := addGenomeLoop_some _ _ _ _ _ _ _ _ ht
      have hidx : (m.m_genomeList ++ [g]).length - 1 = m.m_genomeList.length := by simp
      rw [hidx] at h2 h3
      rw [hinv.window] at h2 h3
      refine ⟨kvs ++ es, hinv.window, ?_, ?_, ?_⟩
      · simp only [h1, hinv.trie, Trie.ofInserts, List.foldl_append]
      · intro kv hkv
        rcases List.mem_append.mp hkv with hkv | hkv
        · obtain ⟨g', i, e1, e2, e3⟩ := hinv.valid kv hkv
          refine ⟨g', i, ?_, e2, e3⟩
          have hlt : kv.2.genomeIndex < m.m_genomeList.length := by
            by_contra hge
            rw [List.getElem?_eq_none (by omega)] at e1
            exact absurd e1 (by simp)
          simp only [List.getElem?_append_left hlt]
          exact e1
        · obtain ⟨j, rfl⟩ := h2 kv hkv
          refine ⟨g, j, ?_, rfl, rfl⟩
          simp [GenomeMatcherImpl.addGenomeEntry]
      · intro idx g' hg' hlen i hi
        by_cases hlt : idx < m.m_genomeList.length
        · simp only [List.getElem?_append_left hlt] at hg'
          exact List.mem_append_left _ (hinv.complete idx g' hg' hlen i hi)
        · have hidx' : idx = m.m_genomeList.length := by
            by_contra hne
            have : (m.m_genomeList ++ [g]).length ≤ idx := by simp; omega
            simp only [List.getElem?_eq_none this] at hg'
            exact absurd hg' (by simp)
          subst hidx'
          have hgg : g' = g := by simpa using hg'.symm
          subst hgg
          apply List.mem_append_right
          have hb : i ≤ sizeT (g'.length - (w : Int)) := by
            unfold Genome.length
            rw [sizeT_sub _ _ (by omega) hlen]
            omega
          have := h3 i (Nat.zero_le _) hb
          simpa [GenomeMatcherImpl.addGenomeEntry, extract_inside g' i w hi] using this

end CS32

namespace CS32

/-! ## Queries on the states of the matcher -/

theorem findLoop_nil {V : Type} (ex : Bool) :
    ∀ (cs : List (Node V)) (l : List V), findLoop [] ex cs = some l → l = [] := by
  intro cs
  induction cs with
  | nil => intro l h; simpa [findLoop] using h.symm
  | cons ch rest ih =>
    intro l h
    by_cases hk : keyFront [] = ch.id
    · simp [findLoop, hk, substr1] at h
    · rw [findLoop, if_neg hk] at h
      exact ih l h

/-- The anchors `find` returns from a trie built by inserts: the values of the inserts whose
key matches the query. -/
theorem find_ofInserts_mem {V : Type} (kvs : List (Str × V)) (key : Str) (ex : Bool)
    (temp : List V) (h : (Trie.ofInserts kvs).find key ex = some temp) (v : V) :
    v ∈ temp ↔ ∃ kv ∈ kvs, kv.2 = v ∧ rootMatch kv.1 key ex = true := by
  cases key with
  | nil =>
    have hnil : temp = [] := findLoop_nil ex _ _ h
    rw [hnil]
    constructor
    · intro hv; exact absurd hv (List.not_mem_nil v)
    · rintro ⟨kv, _, _, hm⟩
      cases hk : kv.1 <;> simp [hk, rootMatch] at hm
  | cons d q =>
    obtain ⟨l, hl, hp⟩ := find_ofInserts_perm kvs d q ex
    rw [hl] at h
    simp only [Option.some.injEq] at h
    subst h
    rw [hp.mem_iff]
    simp only [List.mem_map, List.mem_filter]
    constructor
    · rintro ⟨kv, ⟨h1, h2⟩, h3⟩; exact ⟨kv, h1, h3, h2⟩
    · rintro ⟨kv, h1, h3, h2⟩; exact ⟨kv, ⟨h1, h2⟩, h3⟩

theorem candidates_mem (m : GenomeMatcherImpl) (fragment : Str) (ex : Bool) :
    ∀ (temp : List SeqFrag) (cands : List DNAMatch),
      candidates m fragment ex temp = some cands →
      ∀ c, c ∈ cands ↔ ∃ sf ∈ temp, m.findMatch fragment sf ex = some c := by
  intro temp
  induction temp with
  | nil =>
    intro cands h c
    simp only [candidates, Option.some.injEq] at h
    subst h
    simp
  | cons sf rest ih =>
    intro cands h c
    cases hf : m.findMatch fragment sf ex with
    | none => simp [candidates, hf] at h
    | some c0 =>
      simp only [candidates, hf, Option.map_eq_some'] at h
      obtain ⟨cs, hcs, rfl⟩ := h
      simp only [List.mem_cons, ih cs hcs c]
      constructor
      · rintro (rfl | ⟨sf', h1, h2⟩)
        · exact ⟨sf, Or.inl rfl, hf⟩
        · exact ⟨sf', Or.inr h1, h2⟩
      · rintro ⟨sf', h1 | h1, h2⟩
        · subst h1; rw [hf] at h2; exact Or.inl (Option.some.inj h2).symm
        · exact Or.inr ⟨sf', h1, h2⟩

theorem candidates_total (m : GenomeMatcherImpl) (fragment : Str) (ex : Bool) :
    ∀ temp : List SeqFrag,
      (∀ sf ∈ temp, ∃ g, m.m_genomeList[sf.genomeIndex]? = some g) →
      ∃ cands, candidates m fragment ex temp = some cands := by
  intro temp
  induction temp with
  | nil => intro _; exact ⟨[], rfl⟩
  | cons sf rest ih =>
    intro h
    obtain ⟨g, hg⟩ := h sf (List.mem_cons_self _ _)
    obtain ⟨cs, hcs⟩ := ih (fun x hx => h x (List.mem_cons_of_mem _ hx))
    have hf : ∃ c, m.findMatch fragment sf ex = some c := by
      simp [GenomeMatcherImpl.findMatch, hg]
    obtain ⟨c, hc⟩ := hf
    exact ⟨c :: cs, by simp [candidates, hc, hcs]⟩

theorem rootMatch_key_ne_nil (k q : Str) (ex : Bool) (h : rootMatch k q ex = true) :
    k ≠ [] := by
  cases k with
  | nil => simp [rootMatch] at h
  | cons c k => simp

/-- An anchor returned by the trie of a matcher state names a stored genome and a window
inside it. -/
theorem anchor_in_range (w : Nat) (m : GenomeMatcherImpl) (kvs : List (Str × SeqFrag))
    (hinv : MatcherInv w m kvs) (key : Str) (ex : Bool) (temp : List SeqFrag)
    (hfind : m.m_seqFragTrie.find key ex = some temp) (sf : SeqFrag) (hsf : sf ∈ temp) :
    ∃ (g : Genome) (i : Nat), m.m_genomeList[sf.genomeIndex]? = some g ∧
      sf = ⟨sf.genomeIndex, (i : Int)⟩ ∧ i + w ≤ g.m_sequence.length ∧
      rootMatch (slice g.m_sequence i w) key ex = true := by
  rw [hinv.trie] at hfind
  obtain ⟨kv, hkv, rfl, hmatch⟩ := (find_ofInserts_mem kvs key ex temp hfind sf).mp hsf
  obtain ⟨g, i, h1, h2, h3⟩ := hinv.valid kv hkv
  have hne := rootMatch_key_ne_nil _ _ _ hmatch
  rcases extract_snd_cases g i w with h4 | ⟨h4, h5⟩
  · rw [h3] at hne; exact absurd h4 hne
  · refine ⟨g, i, h1, ?_, h4, ?_⟩
    · cases hk : kv.2 with
      | mk a b => rw [hk] at h2; simp at h2; simp [h2]
    · rw [← h5, ← h3]; exact hmatch

end CS32

namespace CS32

/-! ## The results of findGenomesWithThisDNA -/

theorem addGenomes_reachable (w fuel : Nat) :
    ∀ (gs : List Genome) (m m' : GenomeMatcherImpl), GenomeMatcherImpl.Reachable w m →
      addGenomes fuel m gs = some m' → GenomeMatcherImpl.Reachable w m' := by
  intro gs
  induction gs with
  | nil => intro m m' hm h; simp only [addGenomes, Option.some.injEq] at h; rw [← h]; exact hm
  | cons g rest ih =>
    intro m m' hm h
    cases hadd : m.addGenome g fuel with
    | none => simp [addGenomes, hadd] at h
    | some m1 =>
      simp only [addGenomes, hadd] at h
      exact ih m1 m' (GenomeMatcherImpl.Reachable.addGenome g fuel hm hadd) h

theorem exampleMatcher_reachable : GenomeMatcherImpl.Reachable 4 exampleMatcher :=
  addGenomes_reachable 4 10 exampleGenomes (GenomeMatcherImpl.construct 4) exampleMatcher
    GenomeMatcherImpl.Reachable.construct rfl

theorem sizeT_natCast_le (n : Nat) : sizeT (n : Int) ≤ n := by
  unfold sizeT
  have : ((n : Int) % 2 ^ 64) = ((n % 2 ^ 64 : Nat) : Int) := by push_cast; rfl
  rw [this, Int.toNat_ofNat]
  exact Nat.mod_le _ _

theorem mismatches_comm (a : Str) : ∀ b : Str, mismatches a b = mismatches b a := by
  induction a with
  | nil => intro b; cases b <;> rfl
  | cons x a ih =>
    intro b
    cases b with
    | nil => rfl
    | cons y b =>
      simp only [mismatches, ih b]
      by_cases h : x = y
      · simp [h]
      · have h' : ¬ y = x := fun e => h e.symm
        simp [h, h']

/-- Two strings of the same length that agree away from one position differ in at most one
position. -/
theorem mismatches_le_one (a : Str) :
    ∀ (b : Str) (i : Nat), a.length = b.length → (∀ j : Nat, j ≠ i → a[j]? = b[j]?) →
      mismatches a b ≤ 1 := by
  induction a with
  | nil => intro b i _ _; cases b <;> simp [mismatches]
  | cons x a ih =>
    intro b i hl hs
    cases b with
    | nil => simp at hl
    | cons y b =>
      simp only [List.length_cons, Nat.add_right_cancel_iff] at hl
      cases i with
      | zero =>
        have hab : a = b := by
          apply List.ext_getElem?
          intro j
          have := hs (j + 1) (by omega)
          simpa using this
        subst hab
        simp only [mismatches, mismatches_self]
        split <;> omega
      | succ i =>
        have hxy : x = y := by
          have := hs 0 (by omega)
          simpa using this
        have := ih b i hl (fun j hj => by
          have := hs (j + 1) (by omega)
          simpa using this)
        simp only [mismatches, hxy, if_true]
        omega

theorem matchLength_full (f g : Str) (ex : Bool) (hl : g.length = f.length)
    (hm : mismatches f g ≤ budget ex) : f.length ≤ matchLength f g ex := by
  apply matchLength_maximal f g ex f.length (by omega) (by omega)
  rw [List.take_of_length_le (le_refl _), List.take_of_length_le (by omega)]
  exact hm

/-- A window of a stored genome whose key the query's key matches, and whose extension reaches
`minimumLength`, makes the query succeed with a result for the genome's name at least as
long as that extension. -/
theorem findGenomes_finds_anchor (w : Nat) (m : GenomeMatcherImpl)
    (hm : GenomeMatcherImpl.Reachable w m) (S : Genome) (hS : S ∈ m.m_genomeList)
    (hlen : S.m_sequence.length < 2 ^ 64) (p : Nat) (hp : p + w ≤ S.m_sequence.length)
    (fragment : Str) (minimumLength : Int) (ex : Bool) (matches_ : List DNAMatch)
    (hcheck : ¬ (fragment.length < sizeT minimumLength ∨ minimumLength < (w : Int)))
    (hkey : rootMatch (slice S.m_sequence p w) (fragment.take w) ex = true)
    (hext : minimumLength ≤ ((matchLength fragment (slice S.m_sequence p
      (min fragment.length (S.m_sequence.length - p))) ex : Nat) : Int)) :
    ∃ holder, m.findGenomesWithThisDNA fragment minimumLength ex matches_ =
        some (true, matches_ ++ holder) ∧
      ∃ r ∈ holder, r.genomeName = S.name ∧ minimumLength ≤ (r.length : Int) ∧
        matchLength fragment (slice S.m_sequence p
          (min fragment.length (S.m_sequence.length - p))) ex ≤ r.length := by
  obtain ⟨kvs, hinv⟩ := reachable_inv w m hm
  obtain ⟨idx, hidx⟩ := List.getElem?_of_mem hS
  have hw := hinv.window
  -- the trie lookup returns
  have hfind : ∃ temp, m.m_seqFragTrie.find (fragment.take w) ex = some temp := by
    cases hk : fragment.take w with
    | nil => rw [hk] at hkey; cases hs : slice S.m_sequence p w <;> simp [hs, rootMatch] at hkey
    | cons d q => exact ⟨_, find_cons _ d q ex⟩
  obtain ⟨temp, hfind⟩ := hfind
  -- every anchor is in range, so every candidate is computed
  obtain ⟨cands, hcands⟩ := candidates_total m fragment ex temp (fun sf hsf => by
    obtain ⟨g, i, h1, _⟩ := anchor_in_range w m kvs hinv _ ex temp hfind sf hsf
    exact ⟨g, h1⟩)
  -- the window's anchor is among them
  have hanchor : (⟨idx, (p : Int)⟩ : SeqFrag) ∈ temp := by
    have hf := hfind
    rw [hinv.trie] at hf
    exact (find_ofInserts_mem kvs _ ex temp hf _).mpr
      ⟨_, hinv.complete idx S hidx hlen p hp, rfl, hkey⟩
  have hc := (candidates_mem m fragment ex temp cands hcands _).mpr
    ⟨_, hanchor, findMatch_eq m fragment idx p ex S hidx (by omega)⟩
  obtain ⟨_, hspec⟩ := foldl_reconcile_spec minimumLength cands
  obtain ⟨hiff, hbest⟩ := hspec S.name
  obtain ⟨r, hr, hrn⟩ := hiff.mpr ⟨_, hc, rfl, hext⟩
  obtain ⟨b1, b2, _⟩ := hbest r hr hrn
  have hres := findGenomes_eq m fragment minimumLength ex matches_ temp cands
    (by rw [hw]; exact hcheck) (by rw [hw]; exact hfind) hcands
  refine ⟨_, ?_, r, hr, hrn, b1, b2 _ hc rfl⟩
  rw [hres]
  have hne : (cands.foldl (fun h c => reconcile minimumLength c h) []) ≠ [] :=
    List.ne_nil_of_mem hr
  simp [hne]

end CS32

namespace CS32

/-- The holder a run of `findGenomesWithThisDNA` appends: empty when the parameter check
fails, and otherwise the reconciliation of the candidates of the anchors the trie returns. -/
theorem findGenomes_some (m : GenomeMatcherImpl) (fragment : Str) (minimumLength : Int)
    (ex : Bool) (matches_ : List DNAMatch) (r : Bool × List DNAMatch)
    (h : m.findGenomesWithThisDNA fragment minimumLength ex matches_ = some r) :
    r = (false, matches_ ++ []) ∨
      ∃ temp cands, m.m_seqFragTrie.find (fragment.take m.m_minSearchLength) ex = some temp ∧
        candidates m fragment ex temp = some cands ∧
        r = (!(cands.foldl (fun h c => reconcile minimumLength c h) []).isEmpty,
          matches_ ++ cands.foldl (fun h c => reconcile minimumLength c h) []) := by
  unfold GenomeMatcherImpl.findGenomesWithThisDNA at h
  by_cases hcheck : fragment.length < sizeT minimumLength ∨
      minimumLength < (m.m_minSearchLength : Int)
  · rw [if_pos hcheck] at h
    left
    simpa using h.symm
  · rw [if_neg hcheck] at h
    right
    cases hfind : m.m_seqFragTrie.find (fragment.take m.m_minSearchLength) ex with
    | none => simp [hfind] at h
    | some temp =>
      simp only [hfind, findGenomesLoop_eq] at h
      cases hc : candidates m fragment ex temp with
      | none => simp [hc] at h
      | some cands =>
        simp only [hc, Option.map_some', Option.some.injEq] at h
        exact ⟨temp, cands, rfl, hc, h.symm⟩

/-- On a state reached with a window size `w ≥ 1`, `findGenomesWithThisDNA` returns, for
every `minimumLength` an `int` holds. -/
theorem findGenomes_returns (w : Nat) (hw : 1 ≤ w) (m : GenomeMatcherImpl)
    (hm : GenomeMatcherImpl.Reachable w m) (fragment : Str) (minimumLength : Int)
    (hint : minimumLength ≤ 2147483647) (ex : Bool) (matches_ : List DNAMatch) :
    ∃ r, m.findGenomesWithThisDNA fragment minimumLength ex matches_ = some r := by
  obtain ⟨kvs, hinv⟩ := reachable_inv w m hm
  have hwin := hinv.window
  by_cases hcheck : fragment.length < sizeT minimumLength ∨
      minimumLength < (m.m_minSearchLength : Int)
  · exact ⟨_, by unfold GenomeMatcherImpl.findGenomesWithThisDNA; rw [if_pos hcheck]⟩
  · have h1 : ¬ minimumLength < (w : Int) := by rw [← hwin]; exact fun h => hcheck (Or.inr h)
    have h2 : ¬ fragment.length < sizeT minimumLength := fun h => hcheck (Or.inl h)
    rw [sizeT_of_nonneg minimumLength (by omega) hint] at h2
    have hfl : 1 ≤ fragment.length := by omega
    have hfind : ∃ temp, m.m_seqFragTrie.find (fragment.take m.m_minSearchLength) ex
        = some temp := by
      cases hk : fragment.take m.m_minSearchLength with
      | nil =>
        have := congrArg List.length hk
        rw [List.length_take, List.length_nil] at this
        omega
      | cons d q => exact ⟨_, find_cons _ d q ex⟩
    obtain ⟨temp, hfind⟩ := hfind
    obtain ⟨cands, hcands⟩ := candidates_total m fragment ex temp (fun sf hsf => by
      obtain ⟨g, i, h1, _⟩ := anchor_in_range w m kvs hinv _ ex temp hfind sf hsf
      exact ⟨g, h1⟩)
    exact ⟨_, findGenomes_eq m fragment minimumLength ex matches_ temp cands hcheck hfind
      hcands⟩

/-- C7. `findGenomesWithThisDNA` never returns two results with the same sequence name: for
every matcher state (any genome list, any trie), fragment, `minimumLength` and exactness
flag, a call that returns leaves in the output the previous content followed by entries
whose names are pairwise distinct; and on the states reached with a window size `w ≥ 1`
the call does return, for every `minimumLength` an `int` holds. -/
theorem findGenomes_distinct_names (m : GenomeMatcherImpl) (fragment : Str)
    (minimumLength : Int) (ex : Bool) (matches_ : List DNAMatch) :
    (∀ r, m.findGenomesWithThisDNA fragment minimumLength ex matches_ = some r →
      ∃ holder, r.2 = matches_ ++ holder ∧ (holder.map DNAMatch.genomeName).Nodup) ∧
    (∀ w, 1 ≤ w → GenomeMatcherImpl.Reachable w m → minimumLength ≤ 2147483647 →
      ∃ r, m.findGenomesWithThisDNA fragment minimumLength ex matches_ = some r) := by
  refine ⟨?_, fun w hw hm hint => findGenomes_returns w hw m hm fragment minimumLength hint
    ex matches_⟩
  intro r h
  rcases findGenomes_some m fragment minimumLength ex matches_ r h with
    rfl | ⟨temp, cands, _, _, rfl⟩
  · exact ⟨[], rfl, by simp⟩
  · exact ⟨_, rfl, (foldl_reconcile_spec minimumLength cands).1⟩

theorem findGenomes_distinct_names_witness :
    (exampleMatcher.findGenomesWithThisDNA "ACGTAC".toList 4 false [⟨"A".toList, 9, 9⟩] =
      some (true, [⟨"A".toList, 9, 9⟩, ⟨"A".toList, 6, 0⟩, ⟨"B".toList, 5, 2⟩])) ∧
    ∃ holder, (true, [(⟨"A".toList, 9, 9⟩ : DNAMatch), ⟨"A".toList, 6, 0⟩,
        ⟨"B".toList, 5, 2⟩]).2 = [⟨"A".toList, 9, 9⟩] ++ holder ∧
      (holder.map DNAMatch.genomeName).Nodup :=
  ⟨by decide, (findGenomes_distinct_names exampleMatcher "ACGTAC".toList 4 false
    [⟨"A".toList, 9, 9⟩]).1 _ (by decide)⟩

/-- C9. Reconciliation keeps the longest candidate per name: for a query that passes the
parameter check, with `cands` the candidate matches of the anchors the trie returned (in
lookup order), the call returns the previous output followed by a holder in which, for every
name `n`, there is a result for `n` iff some candidate named `n` has length at least
`minimumLength`, and a result for `n` is at least as long as every candidate named `n` and is
the first candidate named `n` of that length (so it has that candidate's position). -/
theorem findGenomes_keeps_first_longest (m : GenomeMatcherImpl) (fragment : Str)
    (minimumLength : Int) (ex : Bool) (matches_ : List DNAMatch) (temp : List SeqFrag)
    (cands : List DNAMatch)
    (hcheck : ¬ (fragment.length < sizeT minimumLength ∨
      minimumLength < (m.m_minSearchLength : Int)))
    (hfind : m.m_seqFragTrie.find (fragment.take m.m_minSearchLength) ex = some temp)
    (hc : candidates m fragment ex temp = some cands) :
    ∃ holder, m.findGenomesWithThisDNA fragment minimumLength ex matches_ =
        some (!holder.isEmpty, matches_ ++ holder) ∧
      ∀ n : Str,
        ((∃ r ∈ holder, r.genomeName = n) ↔
          (∃ c ∈ cands, c.genomeName = n ∧ minimumLength ≤ (c.length : Int))) ∧
        ∀ r ∈ holder, r.genomeName = n →
          (∀ c ∈ cands, c.genomeName = n → c.length ≤ r.length) ∧
          cands.find? (fun c => decide (c.genomeName = n ∧ c.length = r.length)) = some r := by
  refine ⟨_, findGenomes_eq m fragment minimumLength ex matches_ temp cands hcheck hfind hc, ?_⟩
  intro n
  obtain ⟨h1, h2⟩ := (foldl_reconcile_spec minimumLength cands).2 n
  exact ⟨h1, fun r hr hrn => (h2 r hr hrn).2⟩

theorem findGenomes_keeps_first_longest_witness :
    (¬ ("ACGTAC".toList.length < sizeT 5 ∨
      (5 : Int) < (exampleMatcher.m_minSearchLength : Int))) ∧
    (exampleMatcher.m_seqFragTrie.find ("ACGTAC".toList.take exampleMatcher.m_minSearchLength)
      false = some [⟨0, 0⟩, ⟨0, 4⟩, ⟨1, 2⟩, ⟨2, 2⟩]) ∧
    (candidates exampleMatcher "ACGTAC".toList false [⟨0, 0⟩, ⟨0, 4⟩, ⟨1, 2⟩, ⟨2, 2⟩] =
      some [⟨"A".toList, 6, 0⟩, ⟨"A".toList, 4, 4⟩, ⟨"B".toList, 5, 2⟩,
        ⟨"A".toList, 6, 2⟩]) ∧
    ∃ holder, exampleMatcher.findGenomesWithThisDNA "ACGTAC".toList 5 false [] =
        some (!holder.isEmpty, [] ++ holder) ∧
      ∀ n : Str,
        ((∃ r ∈ holder, r.genomeName = n) ↔
          (∃ c ∈ ([⟨"A".toList, 6, 0⟩, ⟨"A".toList, 4, 4⟩, ⟨"B".toList, 5, 2⟩,
            ⟨"A".toList, 6, 2⟩] : List DNAMatch),
              c.genomeName = n ∧ (5 : Int) ≤ (c.length : Int))) ∧
        ∀ r ∈ holder, r.genomeName = n →
          (∀ c ∈ ([⟨"A".toList, 6, 0⟩, ⟨"A".toList, 4, 4⟩, ⟨"B".toList, 5, 2⟩,
            ⟨"A".toList, 6, 2⟩] : List DNAMatch), c.genomeName = n → c.length ≤ r.length) ∧
          ([⟨"A".toList, 6, 0⟩, ⟨"A".toList, 4, 4⟩, ⟨"B".toList, 5, 2⟩,
            ⟨"A".toList, 6, 2⟩] : List DNAMatch).find?
              (fun c => decide (c.genomeName = n ∧ c.length = r.length)) = some r :=
  ⟨by decide, by decide, by decide,
    findGenomes_keeps_first_longest exampleMatcher "ACGTAC".toList 5 false []
      [⟨0, 0⟩, ⟨0, 4⟩, ⟨1, 2⟩, ⟨2, 2⟩] _ (by decide) (by decide) (by decide)⟩

end CS32

namespace CS32

/-- C3. Every match returned by `findGenomesWithThisDNA` is a real match: on a state the
matcher reaches with a window size `w ≥ 1` by `addGenome` calls (those made with sequences of
length at least `w` among them) and for a `minimumLength` an `int` holds, the call returns,
and its output is the previous content followed by results each of which names a stored
sequence `S` with `minimumLength ≤ length ≤ fragment.length`,
`position + length ≤ S.length`, and `fragment[0:length]` differing from
`S[position:position+length]` in no position in exact mode and in at most one otherwise. -/
theorem findGenomes_results_are_matches (w : Nat) (hw : 1 ≤ w) (m : GenomeMatcherImpl)
    (hm : GenomeMatcherImpl.Reachable w m) (fragment : Str) (minimumLength : Int)
    (hint : minimumLength ≤ 2147483647) (ex : Bool) (matches_ : List DNAMatch) :
    ∃ ok holder, m.findGenomesWithThisDNA fragment minimumLength ex matches_ =
        some (ok, matches_ ++ holder) ∧
      ∀ x ∈ holder, ∃ S ∈ m.m_genomeList, ∃ p : Nat,
        S.name = x.genomeName ∧ x.position = (p : Int) ∧
        minimumLength ≤ (x.length : Int) ∧ x.length ≤ fragment.length ∧
        p + x.length ≤ S.m_sequence.length ∧
        mismatches (fragment.take x.length) (slice S.m_sequence p x.length) ≤ budget ex := by
  obtain ⟨kvs, hinv⟩ := reachable_inv w m hm
  obtain ⟨r, h⟩ := findGenomes_returns w hw m hm fragment minimumLength hint ex matches_
  rcases findGenomes_some m fragment minimumLength ex matches_ r h with
    rfl | ⟨temp, cands, hfind, hc, rfl⟩
  · exact ⟨false, [], h, by simp⟩
  · refine ⟨_, _, h, ?_⟩
    intro x hx
    obtain ⟨s1, _, s3⟩ := ((foldl_reconcile_spec minimumLength cands).2 x.genomeName).2 x hx rfl
    have hxc : x ∈ cands := List.mem_of_find?_eq_some s3
    obtain ⟨sf, hsf, hfm⟩ := (candidates_mem m fragment ex temp cands hc x).mp hxc
    obtain ⟨g, i, h1, h2, h3, _⟩ := anchor_in_range w m kvs hinv _ ex temp hfind sf hsf
    obtain ⟨x', e1, e2, e3, e4, e5, _⟩ :=
      findMatch_spec m fragment sf.genomeIndex i ex g h1 (by omega)
    rw [← h2, hfm] at e1
    simp only [Option.some.injEq] at e1
    subst e1
    exact ⟨g, List.getElem?_mem h1, i, e2.symm, e3, s1, by omega, by omega, e5⟩

theorem findGenomes_results_are_matches_witness :
    (1 ≤ 4) ∧ ((4 : Int) ≤ 2147483647) ∧
    ∃ ok holder, exampleMatcher.findGenomesWithThisDNA "ACGTAC".toList 4 false
        [⟨"A".toList, 9, 9⟩] = some (ok, [⟨"A".toList, 9, 9⟩] ++ holder) ∧
      ∀ x ∈ holder, ∃ S ∈ exampleMatcher.m_genomeList, ∃ p : Nat,
        S.name = x.genomeName ∧ x.position = (p : Int) ∧
        (4 : Int) ≤ (x.length : Int) ∧ x.length ≤ "ACGTAC".toList.length ∧
        p + x.length ≤ S.m_sequence.length ∧
        mismatches ("ACGTAC".toList.take x.length) (slice S.m_sequence p x.length)
          ≤ budget false :=
  ⟨by decide, by decide,
    findGenomes_results_are_matches 4 (by decide) exampleMatcher exampleMatcher_reachable
      "ACGTAC".toList 4 (by decide) false [⟨"A".toList, 9, 9⟩]⟩

theorem rootMatch_self (k : Str) (hk : k ≠ []) : rootMatch k k true = true := by
  cases k with
  | nil => exact absurd rfl hk
  | cons d q => exact (rootMatch_true_iff _ d q).mpr rfl

/-- C4. Any exact `windowSize`-length substring of an added sequence, queried in exact mode
with `minimumLength = windowSize`, yields success and a match of length at least `windowSize`
whose name is that sequence's name: for every state reached with a window size `w ≥ 1`, every
stored sequence `S` (of a length an `int` holds) and every offset `p` with
`p + w ≤ S.length`, the call on `S[p:p+w]` returns `true` and appends a holder that has a
result named as `S`, of length at least `w`. -/
theorem findGenomes_exact_window_found (w : Nat) (hw : 1 ≤ w) (m : GenomeMatcherImpl)
    (hm : GenomeMatcherImpl.Reachable w m) (S : Genome) (hS : S ∈ m.m_genomeList)
    (hlen : S.m_sequence.length ≤ 2147483647) (p : Nat) (hp : p + w ≤ S.m_sequence.length)
    (matches_ : List DNAMatch) :
    ∃ holder, m.findGenomesWithThisDNA (slice S.m_sequence p w) (w : Int) true matches_ =
        some (true, matches_ ++ holder) ∧
      ∃ r ∈ holder, r.genomeName = S.name ∧ w ≤ r.length := by
  have hsl : (slice S.m_sequence p w).length = w := slice_length _ _ _ hp
  have hne : slice S.m_sequence p w ≠ [] := by
    intro h0; rw [h0] at hsl; simp at hsl; omega
  have hmin : min (slice S.m_sequence p w).length (S.m_sequence.length - p) = w := by
    rw [hsl]; omega
  obtain ⟨holder, h1, r, hr, hrn, hrl, _⟩ :=
    findGenomes_finds_anchor w m hm S hS (by omega) p hp (slice S.m_sequence p w) (w : Int)
      true matches_
      (by
        rw [hsl]
        have := sizeT_natCast_le w
        omega)
      (by
        rw [List.take_of_length_le (by omega)]
        exact rootMatch_self _ hne)
      (by
        rw [hmin]
        have := matchLength_full (slice S.m_sequence p w) (slice S.m_sequence p w) true rfl
          (by rw [mismatches_self]; exact Nat.zero_le _)
        rw [hsl] at this
        exact_mod_cast this)
  exact ⟨holder, h1, r, hr, hrn, by exact_mod_cast hrl⟩

theorem findGenomes_exact_window_found_witness :
    (1 ≤ 4) ∧ ((⟨"B".toList, "TTACGTTA".toList⟩ : Genome) ∈ exampleMatcher.m_genomeList) ∧
    ((⟨"B".toList, "TTACGTTA".toList⟩ : Genome).m_sequence.length ≤ 2147483647) ∧
    (3 + 4 ≤ (⟨"B".toList, "TTACGTTA".toList⟩ : Genome).m_sequence.length) ∧
    ∃ holder, exampleMatcher.findGenomesWithThisDNA
        (slice (⟨"B".toList, "TTACGTTA".toList⟩ : Genome).m_sequence 3 4) ((4 : Nat) : Int)
        true [] = some (true, [] ++ holder) ∧
      ∃ r ∈ holder, r.genomeName = (⟨"B".toList, "TTACGTTA".toList⟩ : Genome).name ∧
        4 ≤ r.length :=
  ⟨by decide, by decide, by decide, by decide,
    findGenomes_exact_window_found 4 (by decide) exampleMatcher exampleMatcher_reachable
      ⟨"B".toList, "TTACGTTA".toList⟩ (by decide) (by decide) 3 (by decide) []⟩

/-- C5. A single substitution away from index 0 is still found in fuzzy mode: for every state
reached with window size `w`, every stored sequence `S` (of a length an `int` holds), every
window `S[p:p+w]` and every fragment `f` of length `w` that agrees with the window at every
position other than one position `i ≥ 1`, the call on `f` with `minimumLength = w` in fuzzy
mode returns `true` and appends a holder that has a result named as `S`. -/
theorem findGenomes_fuzzy_substitution_found (w : Nat) (m : GenomeMatcherImpl)
    (hm : GenomeMatcherImpl.Reachable w m) (S : Genome) (hS : S ∈ m.m_genomeList)
    (hlen : S.m_sequence.length ≤ 2147483647) (p : Nat) (hp : p + w ≤ S.m_sequence.length)
    (f : Str) (hf : f.length = w) (i : Nat) (hi : 1 ≤ i) (hiw : i < w)
    (hsame : ∀ j : Nat, j ≠ i → f[j]? = (slice S.m_sequence p w)[j]?)
    (matches_ : List DNAMatch) :
    ∃ holder, m.findGenomesWithThisDNA f (w : Int) false matches_ =
        some (true, matches_ ++ holder) ∧
      ∃ r ∈ holder, r.genomeName = S.name := by
  have hsl : (slice S.m_sequence p w).length = w := slice_length _ _ _ hp
  have hmm : mismatches f (slice S.m_sequence p w) ≤ 1 :=
    mismatches_le_one f _ i (by omega) hsame
  have hmin : min f.length (S.m_sequence.length - p) = w := by rw [hf]; omega
  have hhead : (slice S.m_sequence p w).head? = f.head? := by
    rw [List.head?_eq_getElem?, List.head?_eq_getElem?]
    exact (hsame 0 (by omega)).symm
  obtain ⟨holder, h1, r, hr, hrn, _⟩ :=
    findGenomes_finds_anchor w m hm S hS (by omega) p hp f (w : Int) false matches_
      (by
        rw [hf]
        have := sizeT_natCast_le w
        omega)
      (by
        rw [List.take_of_length_le (by omega)]
        cases hfc : f with
        | nil => rw [hfc] at hf; simp at hf; omega
        | cons d q =>
          rw [hfc] at hf hmm hhead
          rw [rootMatch_false_iff]
          refine ⟨by rw [hsl, hf], hhead, ?_⟩
          rw [mismatches_comm]
          exact hmm)
      (by
        rw [hmin]
        have := matchLength_full f (slice S.m_sequence p w) false (by omega)
          (by simpa [budget] using hmm)
        rw [hf] at this
        exact_mod_cast this)
  exact ⟨holder, h1, r, hr, hrn⟩

theorem findGenomes_fuzzy_substitution_found_witness :
    ((⟨"B".toList, "TTACGTTA".toList⟩ : Genome) ∈ exampleMatcher.m_genomeList) ∧
    ((⟨"B".toList, "TTACGTTA".toList⟩ : Genome).m_sequence.length ≤ 2147483647) ∧
    (3 + 4 ≤ (⟨"B".toList, "TTACGTTA".toList⟩ : Genome).m_sequence.length) ∧
    ("CGGT".toList.length = 4) ∧ (1 ≤ 2) ∧ (2 < 4) ∧
    (∀ j : Nat, j ≠ 2 → "CGGT".toList[j]? =
      (slice (⟨"B".toList, "TTACGTTA".toList⟩ : Genome).m_sequence 3 4)[j]?) ∧
    ∃ holder, exampleMatcher.findGenomesWithThisDNA "CGGT".toList ((4 : Nat) : Int) false [] =
        some (true, [] ++ holder) ∧
      ∃ r ∈ holder, r.genomeName = (⟨"B".toList, "TTACGTTA".toList⟩ : Genome).name :=
  have hsame : ∀ j : Nat, j ≠ 2 → "CGGT".toList[j]? =
      (slice (⟨"B".toList, "TTACGTTA".toList⟩ : Genome).m_sequence 3 4)[j]? := by
    intro j hj
    match j with
    | 0 => rfl
    | 1 => rfl
    | 2 => exact absurd rfl hj
    | 3 => rfl
    | (n + 4) => rfl
  ⟨by decide, by decide, by decide, by decide, by decide, by decide, hsame,
    findGenomes_fuzzy_substitution_found 4 exampleMatcher exampleMatcher_reachable
      ⟨"B".toList, "TTACGTTA".toList⟩ (by decide) (by decide) 3 (by decide) "CGGT".toList
      (by decide) 2 (by decide) (by decide) hsame []⟩

end CS32

namespace CS32

/-! ## The output collection of findGenomesWithThisDNA -/

/-- The previous content of the output has no part in a call: the call gives what it gives
on an empty output, put behind the previous content. -/
theorem findGenomes_frame (m : GenomeMatcherImpl) (fragment : Str) (minimumLength : Int)
    (ex : Bool) (matches_ : List DNAMatch) :
    m.findGenomesWithThisDNA fragment minimumLength ex matches_ =
      (m.findGenomesWithThisDNA fragment minimumLength ex []).map
        (fun r => (r.1, matches_ ++ r.2)) := by
  unfold GenomeMatcherImpl.findGenomesWithThisDNA
  by_cases hcheck : fragment.length < sizeT minimumLength ∨
      minimumLength < (m.m_minSearchLength : Int)
  · simp [if_pos hcheck]
  · simp only [if_neg hcheck]
    cases m.m_seqFragTrie.find (fragment.take m.m_minSearchLength) ex with
    | none => rfl
    | some temp =>
      simp only
      cases m.findGenomesLoop fragment minimumLength ex temp [] with
      | none => rfl
      | some holder => simp

/-- The flag of a call on an empty output tells whether something was appended. -/
theorem findGenomes_flag (m : GenomeMatcherImpl) (fragment : Str) (minimumLength : Int)
    (ex : Bool) (r : Bool × List DNAMatch)
    (h : m.findGenomesWithThisDNA fragment minimumLength ex [] = some r) :
    (r.1 = true ↔ r.2 ≠ []) := by
  rcases findGenomes_some m fragment minimumLength ex [] r h with rfl | ⟨_, cands, _, _, rfl⟩
  · simp
  · simp

/-- C11. `findGenomesWithThisDNA` appends and never overwrites: for every matcher state (any
genome list, any trie), a call that returns leaves in the output the previous content
followed by the matches of this call (the ones the same call appends to an empty output),
and it returns success iff that list of appended matches is not empty; on the states
reached with a window size `w ≥ 1` the call does return, for every `minimumLength` an
`int` holds. -/
theorem findGenomes_appends (m : GenomeMatcherImpl) (fragment : Str) (minimumLength : Int)
    (ex : Bool) (matches_ : List DNAMatch) :
    (∀ r, m.findGenomesWithThisDNA fragment minimumLength ex matches_ = some r →
      ∃ holder, m.findGenomesWithThisDNA fragment minimumLength ex [] = some (r.1, holder) ∧
        r.2 = matches_ ++ holder ∧ (r.1 = true ↔ holder ≠ [])) ∧
    (∀ w, 1 ≤ w → GenomeMatcherImpl.Reachable w m → minimumLength ≤ 2147483647 →
      ∃ r, m.findGenomesWithThisDNA fragment minimumLength ex matches_ = some r) := by
  refine ⟨?_, fun w hw hm hint => findGenomes_returns w hw m hm fragment minimumLength hint
    ex matches_⟩
  intro r h
  rw [findGenomes_frame] at h
  cases h0 : m.findGenomesWithThisDNA fragment minimumLength ex [] with
  | none => simp [h0] at h
  | some r0 =>
    simp only [h0, Option.map_some', Option.some.injEq] at h
    subst h
    exact ⟨r0.2, rfl, rfl, findGenomes_flag m fragment minimumLength ex r0 h0⟩

theorem findGenomes_appends_witness :
    (exampleMatcher.findGenomesWithThisDNA "ACGTAC".toList 4 false [⟨"A".toList, 9, 9⟩] =
      some (true, [⟨"A".toList, 9, 9⟩, ⟨"A".toList, 6, 0⟩, ⟨"B".toList, 5, 2⟩])) ∧
    ∃ holder, exampleMatcher.findGenomesWithThisDNA "ACGTAC".toList 4 false [] =
        some ((true, [(⟨"A".toList, 9, 9⟩ : DNAMatch), ⟨"A".toList, 6, 0⟩,
          ⟨"B".toList, 5, 2⟩]).1, holder) ∧
      (true, [(⟨"A".toList, 9, 9⟩ : DNAMatch), ⟨"A".toList, 6, 0⟩, ⟨"B".toList, 5, 2⟩]).2 =
        [⟨"A".toList, 9, 9⟩] ++ holder ∧
      ((true, [(⟨"A".toList, 9, 9⟩ : DNAMatch), ⟨"A".toList, 6, 0⟩,
          ⟨"B".toList, 5, 2⟩]).1 = true ↔ holder ≠ []) :=
  ⟨by decide, (findGenomes_appends exampleMatcher "ACGTAC".toList 4 false
    [⟨"A".toList, 9, 9⟩]).1 _ (by decide)⟩

/-- C18. `findRelatedGenomes` fails if `fragmentMatchLength < windowSize`: for every matcher
state (any genome list, any trie), query, exactness flag and threshold it then returns
`false` and the results collection is what it was. -/
theorem findRelatedGenomes_rejects_short_length (m : GenomeMatcherImpl) (query : Genome)
    (fragmentMatchLength : Int) (ex : Bool) (threshold : Dbl) (results : List GenomeMatch)
    (h : fragmentMatchLength < (m.m_minSearchLength : Int)) :
    m.findRelatedGenomes query fragmentMatchLength ex threshold results =
      some (false, results) := by
  unfold GenomeMatcherImpl.findRelatedGenomes
  rw [if_pos h]

theorem findRelatedGenomes_rejects_short_length_witness :
    ((3 : Int) < (exampleMatcher.m_minSearchLength : Int)) ∧
    exampleMatcher.findRelatedGenomes ⟨"Q".toList, "ACGTACGT".toList⟩ 3 false (Dbl.val 0)
      [⟨"Z".toList, Dbl.val 70⟩] = some (false, [⟨"Z".toList, Dbl.val 70⟩]) :=
  ⟨by decide, findRelatedGenomes_rejects_short_length _ _ _ _ _ _ (by decide)⟩

end CS32

namespace CS32

/-! ## The range of extract -/

/-- The whole result of `extract` for a window inside a non-empty sequence. -/
theorem extract_eq_inside (g : Genome) (i n : Nat) (fragment : Str)
    (hne : g.m_sequence ≠ []) (h : i + n ≤ g.m_sequence.length) :
    g.extract (i : Int) (n : Int) fragment = (true, slice g.m_sequence i n) := by
  unfold Genome.extract
  have he : ¬ g.m_sequence.isEmpty = true := by simpa using hne
  rw [if_neg he, Int.toNat_ofNat, extractLoop_inside _ _ _ _ h]
  simp

theorem slice_getElem? (seq : Str) (i n j : Nat) (hj : j < n) :
    (slice seq i n)[j]? = seq[i + j]? := by
  unfold slice
  rw [List.getElem?_take_of_lt hj, List.getElem?_drop]

/-- C15. For every non-empty sequence and every `position ≥ 0` and `length ≥ 0` with
`position + length ≤ length()`, `extract` succeeds and its output, whatever the output string
held before, is the window `bases[position : position + length]`: it has `length`
characters and its `j`-th character is `bases[position + j]`. -/
theorem extract_returns_window (g : Genome) (position length : Int) (fragment : Str)
    (hne : g.m_sequence ≠ []) (hp : 0 ≤ position) (hl : 0 ≤ length)
    (h : position + length ≤ g.length) :
    g.extract position length fragment =
        (true, slice g.m_sequence position.toNat length.toNat) ∧
      (slice g.m_sequence position.toNat length.toNat).length = length.toNat ∧
      ∀ j : Nat, j < length.toNat →
        (slice g.m_sequence position.toNat length.toNat)[j]? =
          g.m_sequence[position.toNat + j]? := by
  have hb : position.toNat + length.toNat ≤ g.m_sequence.length := by
    unfold Genome.length at h
    omega
  refine ⟨?_, slice_length _ _ _ hb, fun j hj => slice_getElem? _ _ _ _ hj⟩
  have := extract_eq_inside g position.toNat length.toNat fragment hne hb
  rwa [Int.toNat_of_nonneg hp, Int.toNat_of_nonneg hl] at this

theorem extract_returns_window_witness :
    ((Genome.mk "G".toList "ACGTTGCA".toList).m_sequence ≠ []) ∧ ((0 : Int) ≤ 2) ∧
    ((0 : Int) ≤ 3) ∧ ((2 : Int) + 3 ≤ (Genome.mk "G".toList "ACGTTGCA".toList).length) ∧
    ((Genome.mk "G".toList "ACGTTGCA".toList).extract 2 3 "XY".toList =
        (true, slice (Genome.mk "G".toList "ACGTTGCA".toList).m_sequence
          (2 : Int).toNat (3 : Int).toNat) ∧
      (slice (Genome.mk "G".toList "ACGTTGCA".toList).m_sequence
        (2 : Int).toNat (3 : Int).toNat).length = (3 : Int).toNat ∧
      ∀ j : Nat, j < (3 : Int).toNat →
        (slice (Genome.mk "G".toList "ACGTTGCA".toList).m_sequence
          (2 : Int).toNat (3 : Int).toNat)[j]? =
          (Genome.mk "G".toList "ACGTTGCA".toList).m_sequence[(2 : Int).toNat + j]?) :=
  ⟨by decide, by decide, by decide, by decide,
    extract_returns_window _ 2 3 _ (by decide) (by decide) (by decide) (by decide)⟩

end CS32

namespace CS32

/-! ## The loop of addGenome -/

/-- With a bound below `SIZE_MAX` and enough fuel, the loop of `addGenome` makes one insert
per value of the loop variable from `i` to the bound, in order. -/
theorem addGenomeLoop_exact (g : Genome) (w idx bound : Nat) (hb : bound < 2 ^ 64 - 1) :
    ∀ (k i fuel : Nat) (t : Trie SeqFrag), i + k = bound + 1 → k + 1 ≤ fuel →
      GenomeMatcherImpl.addGenomeLoop g w idx bound fuel i t =
        some (((List.range' i k).map (GenomeMatcherImpl.addGenomeEntry g w idx)).foldl
          (fun t kv => t.insert kv.1 kv.2) t) := by
  intro k
  induction k with
  | zero =>
    intro i fuel t hi hf
    cases fuel with
    | zero => omega
    | succ fuel =>
      rw [GenomeMatcherImpl.addGenomeLoop, if_neg (by omega)]
      rfl
  | succ k ih =>
    intro i fuel t hi hf
    cases fuel with
    | zero => omega
    | succ fuel =>
      rw [GenomeMatcherImpl.addGenomeLoop, if_pos (by omega)]
      have hmod : (i + 1) % 2 ^ 64 = i + 1 := Nat.mod_eq_of_lt (by omega)
      rw [hmod, ih (i + 1) fuel _ (by omega) (by omega)]
      rfl

/-- With the bound `SIZE_MAX` the loop test of `addGenome` never fails: no fuel is enough. -/
theorem addGenomeLoop_diverges (g : Genome) (w idx : Nat) :
    ∀ (fuel i : Nat) (t : Trie SeqFrag), i < 2 ^ 64 →
      GenomeMatcherImpl.addGenomeLoop g w idx (2 ^ 64 - 1) fuel i t = none := by
  intro fuel
  induction fuel with
  | zero => intro i t _; rfl
  | succ fuel ih =>
    intro i t hi
    rw [GenomeMatcherImpl.addGenomeLoop, if_pos (by omega)]
    exact ih _ _ (Nat.mod_lt _ (by norm_num))

/-- The loop of `addGenome` returns only after more loop tests than there are values from
`i` to the bound. -/
theorem addGenomeLoop_needs_fuel (g : Genome) (w idx bound : Nat) :
    ∀ (fuel i : Nat) (t t' : Trie SeqFrag), i ≤ bound + 1 →
      GenomeMatcherImpl.addGenomeLoop g w idx bound fuel i t = some t' →
      bound + 1 - i < fuel := by
  intro fuel
  induction fuel with
  | zero => intro i t t' _ h; simp [GenomeMatcherImpl.addGenomeLoop] at h
  | succ fuel ih =>
    intro i t t' hi h
    by_cases hle : i ≤ bound
    · rw [GenomeMatcherImpl.addGenomeLoop, if_pos hle] at h
      have hmod : (i + 1) % 2 ^ 64 ≤ i + 1 := Nat.mod_le _ _
      have := ih _ _ _ (by omega) h
      omega
    · omega

theorem sizeT_neg (d : Int) (h0 : d < 0) (h1 : -2147483648 ≤ d) :
    sizeT d = (2 ^ 64 + d).toNat := by
  unfold sizeT
  have h2 : d % 2 ^ 64 = 2 ^ 64 + d := by
    have h64 : (2 : Int) ^ 64 = 18446744073709551616 := by norm_num
    rw [h64]
    omega
  rw [h2]

/-- A sequence one character shorter than the window size: `addGenome` does not return. -/
theorem addGenome_diverges (m : GenomeMatcherImpl) (g : Genome)
    (h : g.m_sequence.length + 1 = m.m_minSearchLength) (fuel : Nat) :
    m.addGenome g fuel = none := by
  unfold GenomeMatcherImpl.addGenome
  have hb : sizeT (g.length - (m.m_minSearchLength : Int)) = 2 ^ 64 - 1 := by
    have : g.length - (m.m_minSearchLength : Int) = -1 := by
      unfold Genome.length; omega
    rw [this]
    decide
  simp only [hb, addGenomeLoop_diverges g _ _ fuel 0 _ (by norm_num)]

/-- A sequence shorter than the window size: `addGenome` does not return within `2 ^ 63`
loop tests. -/
theorem addGenome_short_needs_fuel (m : GenomeMatcherImpl) (g : Genome)
    (h : g.m_sequence.length < m.m_minSearchLength) (hw : m.m_minSearchLength ≤ 2147483647)
    (fuel : Nat) (hfuel : fuel ≤ 2 ^ 63) :
    m.addGenome g fuel = none := by
  unfold GenomeMatcherImpl.addGenome
  have hb : 2 ^ 63 ≤ sizeT (g.length - (m.m_minSearchLength : Int)) := by
    rw [sizeT_neg _ (by unfold Genome.length; omega) (by unfold Genome.length; omega)]
    unfold Genome.length
    have h64 : (2 : Int) ^ 64 = 18446744073709551616 := by norm_num
    have h63 : (2 : Nat) ^ 63 = 9223372036854775808 := by norm_num
    rw [h64, h63]
    omega
  cases hl : GenomeMatcherImpl.addGenomeLoop g m.m_minSearchLength
      ((m.m_genomeList ++ [g]).length - 1)
      (sizeT (g.length - (m.m_minSearchLength : Int))) fuel 0 m.m_seqFragTrie with
  | none => simp only [hl]
  | some t =>
    have := addGenomeLoop_needs_fuel _ _ _ _ _ _ _ _ (Nat.zero_le _) hl
    omega

/-- C13, the code at a failing input: with window size 2, `addGenome` of the one-character
sequence `A` has no result, whatever the fuel: the loop bound `1 - 2` becomes `SIZE_MAX`, so
the loop test `i <= bound` never fails. -/
theorem addGenome_short_sequence_never_returns :
    ∀ fuel : Nat,
      (GenomeMatcherImpl.construct 2).addGenome ⟨"G".toList, "A".toList⟩ fuel = none :=
  fun fuel => addGenome_diverges _ _ rfl fuel

/-- The values found at the root's children do not lose a value by further inserts, and
have the value of every insert whose key matches. -/
theorem mem_find_foldl_insert {V : Type} (es : List (Str × V)) (t : Trie V) (d : Char)
    (q : Str) (ex : Bool) (kv : Str × V) (hkv : kv ∈ es)
    (hm : rootMatch kv.1 (d :: q) ex = true) :
    ∃ l, (es.foldl (fun t kv => t.insert kv.1 kv.2) t).find (d :: q) ex = some l ∧
      kv.2 ∈ l := by
  refine ⟨_, find_cons _ d q ex, ?_⟩
  rw [(foldl_insert_perm es d q ex t).mem_iff]
  apply List.mem_append_right
  exact List.mem_map.mpr ⟨kv, List.mem_filter.mpr ⟨hkv, hm⟩, rfl⟩

/-- C12. `addGenome` indexes every window: for a matcher with window size `w ≥ 1` (any genome
list of size `n`, any trie) and a sequence `S` with `w ≤ S.length` (a length an `int`
holds), `addGenome` with fuel for `S.length - w + 2` loop tests returns; the new state has
the same window size, `S` appended at index `n`, and the trie obtained from the old one by
exactly the `S.length - w + 1` inserts of the key `S[i:i+w]` with payload `{n, i}`, for
`i = 0, …, S.length - w` in order; and the exact lookup of each `S[i:i+w]` in the new trie
contains `{n, i}`. -/
theorem addGenome_indexes_every_window (m : GenomeMatcherImpl) (S : Genome)
    (hw : 1 ≤ m.m_minSearchLength) (hlen : m.m_minSearchLength ≤ S.m_sequence.length)
    (hint : S.m_sequence.length ≤ 2147483647) (fuel : Nat)
    (hfuel : S.m_sequence.length - m.m_minSearchLength + 2 ≤ fuel) :
    ∃ m', m.addGenome S fuel = some m' ∧
      m'.m_minSearchLength = m.m_minSearchLength ∧
      m'.m_genomeList = m.m_genomeList ++ [S] ∧
      m'.m_genomeList[m.m_genomeList.length]? = some S ∧
      m'.m_seqFragTrie =
        ((List.range (S.m_sequence.length - m.m_minSearchLength + 1)).map
          (fun i => (slice S.m_sequence i m.m_minSearchLength,
            (⟨m.m_genomeList.length, (i : Int)⟩ : SeqFrag)))).foldl
          (fun t kv => t.insert kv.1 kv.2) m.m_seqFragTrie ∧
      ∀ i, i ≤ S.m_sequence.length - m.m_minSearchLength →
        ∃ l, m'.m_seqFragTrie.find (slice S.m_sequence i m.m_minSearchLength) true = some l ∧
          (⟨m.m_genomeList.length, (i : Int)⟩ : SeqFrag) ∈ l := by
  have hbound : sizeT (S.length - (m.m_minSearchLength : Int)) =
      S.m_sequence.length - m.m_minSearchLength := by
    unfold Genome.length
    exact sizeT_sub _ _ hlen (by omega)
  have hidx : (m.m_genomeList ++ [S]).length - 1 = m.m_genomeList.length := by simp
  have hloop := addGenomeLoop_exact S m.m_minSearchLength m.m_genomeList.length
    (S.m_sequence.length - m.m_minSearchLength) (by omega)
    (S.m_sequence.length - m.m_minSearchLength + 1) 0 fuel m.m_seqFragTrie (by omega)
    (by omega)
  have hmap : (List.range' 0 (S.m_sequence.length - m.m_minSearchLength + 1)).map
      (GenomeMatcherImpl.addGenomeEntry S m.m_minSearchLength m.m_genomeList.length) =
      (List.range (S.m_sequence.length - m.m_minSearchLength + 1)).map
        (fun i => (slice S.m_sequence i m.m_minSearchLength,
          (⟨m.m_genomeList.length, (i : Int)⟩ : SeqFrag))) := by
    rw [← List.range_eq_range']
    apply List.map_congr_left
    intro i hi
    have hi' : i + m.m_minSearchLength ≤ S.m_sequence.length := by
      have := List.mem_range.mp hi
      omega
    simp only [GenomeMatcherImpl.addGenomeEntry, extract_inside S i _ hi']
  rw [hmap] at hloop
  refine ⟨⟨m.m_minSearchLength, m.m_genomeList ++ [S],
      ((List.range (S.m_sequence.length - m.m_minSearchLength + 1)).map
        (fun i => (slice S.m_sequence i m.m_minSearchLength,
          (⟨m.m_genomeList.length, (i : Int)⟩ : SeqFrag)))).foldl
        (fun t kv => t.insert kv.1 kv.2) m.m_seqFragTrie⟩,
    by unfold GenomeMatcherImpl.addGenome; simp only [hbound, hidx, hloop],
    rfl, rfl, by simp, rfl, ?_⟩
  intro i hi
  have hsl : (slice S.m_sequence i m.m_minSearchLength).length = m.m_minSearchLength :=
    slice_length _ _ _ (by omega)
  cases hk : slice S.m_sequence i m.m_minSearchLength with
  | nil => rw [hk] at hsl; simp at hsl; omega
  | cons d q =>
    have := mem_find_foldl_insert
      ((List.range (S.m_sequence.length - m.m_minSearchLength + 1)).map
        (fun i => (slice S.m_sequence i m.m_minSearchLength,
          (⟨m.m_genomeList.length, (i : Int)⟩ : SeqFrag))))
      m.m_seqFragTrie d q true
      (slice S.m_sequence i m.m_minSearchLength, ⟨m.m_genomeList.length, (i : Int)⟩)
      (List.mem_map.mpr ⟨i, List.mem_range.mpr (by omega), rfl⟩)
      (by rw [hk]; exact (rootMatch_true_iff _ d q).mpr rfl)
    simpa using this

theorem addGenome_indexes_every_window_witness :
    (1 ≤ (GenomeMatcherImpl.construct 4).m_minSearchLength) ∧
    ((GenomeMatcherImpl.construct 4).m_minSearchLength ≤
      (Genome.mk "A".toList "ACGTAC".toList).m_sequence.length) ∧
    ((Genome.mk "A".toList "ACGTAC".toList).m_sequence.length ≤ 2147483647) ∧
    ((Genome.mk "A".toList "ACGTAC".toList).m_sequence.length -
      (GenomeMatcherImpl.construct 4).m_minSearchLength + 2 ≤ 4) ∧
    ∃ m', (GenomeMatcherImpl.construct 4).addGenome ⟨"A".toList, "ACGTAC".toList⟩ 4 =
        some m' ∧
      m'.m_minSearchLength = (GenomeMatcherImpl.construct 4).m_minSearchLength ∧
      m'.m_genomeList = (GenomeMatcherImpl.construct 4).m_genomeList ++
        [⟨"A".toList, "ACGTAC".toList⟩] ∧
      m'.m_genomeList[(GenomeMatcherImpl.construct 4).m_genomeList.length]? =
        some ⟨"A".toList, "ACGTAC".toList⟩ ∧
      m'.m_seqFragTrie =
        ((List.range ((Genome.mk "A".toList "ACGTAC".toList).m_sequence.length -
            (GenomeMatcherImpl.construct 4).m_minSearchLength + 1)).map
          (fun i => (slice (Genome.mk "A".toList "ACGTAC".toList).m_sequence i
              (GenomeMatcherImpl.construct 4).m_minSearchLength,
            (⟨(GenomeMatcherImpl.construct 4).m_genomeList.length, (i : Int)⟩ :
              SeqFrag)))).foldl
          (fun t kv => t.insert kv.1 kv.2) (GenomeMatcherImpl.construct 4).m_seqFragTrie ∧
      ∀ i, i ≤ (Genome.mk "A".toList "ACGTAC".toList).m_sequence.length -
          (GenomeMatcherImpl.construct 4).m_minSearchLength →
        ∃ l, m'.m_seqFragTrie.find
            (slice (Genome.mk "A".toList "ACGTAC".toList).m_sequence i
              (GenomeMatcherImpl.construct 4).m_minSearchLength) true = some l ∧
          (⟨(GenomeMatcherImpl.construct 4).m_genomeList.length, (i : Int)⟩ : SeqFrag) ∈ l :=
  ⟨by decide, by decide, by decide, by decide,
    addGenome_indexes_every_window (GenomeMatcherImpl.construct 4)
      ⟨"A".toList, "ACGTAC".toList⟩ (by decide) (by decide) (by decide) 4 (by decide)⟩

end CS32

namespace CS32

/-! ## The order of the results of findRelatedGenomes -/

theorem strLt_irrefl (a : Str) : strLt a a = false := by
  induction a with
  | nil => rfl
  | cons x a ih => simp [strLt, ih]

theorem strLt_asymm (a : Str) : ∀ b : Str, strLt a b = true → strLt b a = false := by
  induction a with
  | nil => intro b h; cases b <;> simp [strLt] at h ⊢
  | cons x a ih =>
    intro b h
    cases b with
    | nil => simp [strLt] at h
    | cons y b =>
      simp only [strLt] at h ⊢
      by_cases hxy : x < y
      · have hyx : ¬ y < x := lt_asymm hxy
        simp [hxy, hyx]
      · by_cases hyx : y < x
        · simp [hxy, hyx] at h
        · simp only [hxy, hyx, if_false] at h ⊢
          exact ih b h

theorem strLt_total (a : Str) :
    ∀ b : Str, strLt a b = false → strLt b a = false → a = b := by
  induction a with
  | nil => intro b h1 _; cases b with
    | nil => rfl
    | cons y b => simp [strLt] at h1
  | cons x a ih =>
    intro b h1 h2
    cases b with
    | nil => simp [strLt] at h2
    | cons y b =>
      simp only [strLt] at h1 h2
      by_cases hxy : x < y
      · simp [hxy] at h1
      · by_cases hyx : y < x
        · simp [hyx] at h2
        · simp only [hxy, hyx, if_false] at h1 h2
          have hxy' : x = y := le_antisymm (not_lt.mp hyx) (not_lt.mp hxy)
          rw [hxy', ih b h1 h2]

theorem strLt_trans (a : Str) :
    ∀ b c : Str, strLt a b = true → strLt b c = true → strLt a c = true := by
  induction a with
  | nil =>
    intro b c h1 h2
    cases b with
    | nil => simp [strLt] at h1
    | cons y b =>
      cases c with
      | nil => simp [strLt] at h2
      | cons z c => simp [strLt]
  | cons x a ih =>
    intro b c h1 h2
    cases b with
    | nil => simp [strLt] at h1
    | cons y b =>
      cases c with
      | nil => simp [strLt] at h2
      | cons z c =>
        simp only [strLt] at h1 h2 ⊢
        by_cases hxy : x < y
        · by_cases hyz : y < z
          · simp [lt_trans hxy hyz]
          · by_cases hzy : z < y
            · simp [hyz, hzy] at h2
            · have hyz' : y = z := le_antisymm (not_lt.mp hzy) (not_lt.mp hyz)
              subst hyz'
              simp [hxy]
        · by_cases hyx : y < x
          · simp [hxy, hyx] at h1
          · have hxy' : x = y := le_antisymm (not_lt.mp hyx) (not_lt.mp hxy)
            subst hxy'
            simp only [hxy, if_false] at h1
            by_cases hxz : x < z
            · simp [hxz]
            · by_cases hzx : z < x
              · simp [hxz, hzx] at h2
              · simp only [hxz, hzx, if_false] at h2 ⊢
                exact ih b c h1 h2

/-- The order "not after" on names is transitive. -/
theorem strLe_trans (a b c : Str) (h1 : strLt b a = false) (h2 : strLt c b = false) :
    strLt c a = false := by
  by_contra h
  have hca : strLt c a = true := by simpa using h
  by_cases hab : strLt a b = true
  · have := strLt_trans c a b hca hab
    rw [this] at h2
    exact absurd h2 (by simp)
  · have hab' : strLt a b = false := by simpa using hab
    have := strLt_total a b hab' h1
    subst this
    rw [hca] at h2
    exact absurd h2 (by simp)

theorem Dbl.gt_ne_nan (a b : Dbl) (h : Dbl.gt a b = true) : a ≠ Dbl.nan ∧ b ≠ Dbl.nan := by
  cases a <;> cases b <;> simp [Dbl.gt] at h ⊢

theorem Dbl.trichotomy (a b : Dbl) (ha : a ≠ Dbl.nan) (hb : b ≠ Dbl.nan) :
    Dbl.gt a b = true ∨ Dbl.eq a b = true ∨ Dbl.gt b a = true := by
  cases a <;> cases b <;> simp [Dbl.gt, Dbl.eq] at ha hb ⊢
  rename_i x y
  rcases lt_trichotomy x y with h | h | h
  · exact Or.inr (Or.inr h)
  · exact Or.inr (Or.inl h)
  · exact Or.inl h

theorem Dbl.gt_trans (a b c : Dbl) (h1 : Dbl.gt a b = true) (h2 : Dbl.gt b c = true) :
    Dbl.gt a c = true := by
  cases a <;> cases b <;> cases c <;> simp [Dbl.gt] at h1 h2 ⊢
  exact lt_trans h2 h1

theorem Dbl.gt_of_gt_of_eq (a b c : Dbl) (h1 : Dbl.gt a b = true) (h2 : Dbl.eq b c = true) :
    Dbl.gt a c = true := by
  cases a <;> cases b <;> cases c <;> simp [Dbl.gt, Dbl.eq] at h1 h2 ⊢
  rw [← h2]; exact h1

theorem Dbl.gt_of_eq_of_gt (a b c : Dbl) (h1 : Dbl.eq a b = true) (h2 : Dbl.gt b c = true) :
    Dbl.gt a c = true := by
  cases a <;> cases b <;> cases c <;> simp [Dbl.gt, Dbl.eq] at h1 h2 ⊢
  rw [h1]; exact h2

theorem Dbl.eq_trans (a b c : Dbl) (h1 : Dbl.eq a b = true) (h2 : Dbl.eq b c = true) :
    Dbl.eq a c = true := by
  cases a <;> cases b <;> cases c <;> simp [Dbl.eq] at h1 h2 ⊢
  rw [h1, h2]

theorem Dbl.eq_symm (a b : Dbl) (h : Dbl.eq a b = true) : Dbl.eq b a = true := by
  cases a <;> cases b <;> simp [Dbl.eq] at h ⊢
  exact h.symm

theorem before_trans (a b c : GenomeMatch) (h1 : a.before b) (h2 : b.before c) :
    a.before c := by
  rcases h1 with h1 | ⟨h1, n1⟩
  · rcases h2 with h2 | ⟨h2, _⟩
    · exact Or.inl (Dbl.gt_trans _ _ _ h1 h2)
    · exact Or.inl (Dbl.gt_of_gt_of_eq _ _ _ h1 h2)
  · rcases h2 with h2 | ⟨h2, n2⟩
    · exact Or.inl (Dbl.gt_of_eq_of_gt _ _ _ h1 h2)
    · exact Or.inr ⟨Dbl.eq_trans _ _ _ h1 h2, strLe_trans _ _ _ n1 n2⟩

theorem before_of_insertBefore (mt it : GenomeMatch) (h : insertBefore mt it = true) :
    mt.before it := by
  simp only [insertBefore, Bool.or_eq_true, Bool.and_eq_true] at h
  rcases h with h | ⟨h1, h2⟩
  · exact Or.inl h
  · exact Or.inr ⟨h1, strLt_asymm _ _ h2⟩

theorem before_of_not_insertBefore (mt it : GenomeMatch) (h : insertBefore mt it = false)
    (hm : mt.percentMatch ≠ Dbl.nan) (hi : it.percentMatch ≠ Dbl.nan) : it.before mt := by
  simp only [insertBefore, Bool.or_eq_false_iff, Bool.and_eq_false_iff] at h
  obtain ⟨h1, h2⟩ := h
  rcases Dbl.trichotomy mt.percentMatch it.percentMatch hm hi with t | t | t
  · rw [t] at h1; exact absurd h1 (by simp)
  · rcases h2 with h2 | h2
    · rw [t] at h2; exact absurd h2 (by simp)
    · exact Or.inr ⟨Dbl.eq_symm _ _ t, h2⟩
  · exact Or.inl t

theorem insertMatch_perm (mt : GenomeMatch) :
    ∀ l : List GenomeMatch, (insertMatch mt l).Perm (mt :: l) := by
  intro l
  induction l with
  | nil => exact List.Perm.refl _
  | cons it rest ih =>
    by_cases h : insertBefore mt it = true
    · rw [insertMatch, if_pos h]
    · rw [insertMatch, if_neg h]
      exact (List.Perm.cons it ih).trans (List.Perm.swap mt it rest)

/-- The function `insertMatch` keeps a sorted list sorted. -/
theorem insertMatch_sorted (mt : GenomeMatch) (hm : mt.percentMatch ≠ Dbl.nan) :
    ∀ l : List GenomeMatch, l.Pairwise GenomeMatch.before →
      (∀ e ∈ l, e.percentMatch ≠ Dbl.nan) →
      (insertMatch mt l).Pairwise GenomeMatch.before := by
  intro l
  induction l with
  | nil => intro _ _; simp [insertMatch]
  | cons it rest ih =>
    intro hs hn
    rw [List.pairwise_cons] at hs
    by_cases h : insertBefore mt it = true
    · rw [insertMatch, if_pos h, List.pairwise_cons]
      refine ⟨?_, List.pairwise_cons.mpr hs⟩
      intro x hx
      have hb := before_of_insertBefore mt it h
      rcases List.mem_cons.mp hx with rfl | hx
      · exact hb
      · exact before_trans _ _ _ hb (hs.1 x hx)
    · have h' : insertBefore mt it = false := by simpa using h
      rw [insertMatch, if_neg h, List.pairwise_cons]
      refine ⟨?_, ih hs.2 (fun e he => hn e (List.mem_cons_of_mem _ he))⟩
      intro x hx
      rcases List.mem_cons.mp ((insertMatch_perm mt rest).mem_iff.mp hx) with rfl | hx
      · exact before_of_not_insertBefore _ it h' hm (hn it (List.mem_cons_self _ _))
      · exact hs.1 x hx

/-- The second loop of `findRelatedGenomes` keeps `matchHolder` sorted and free of
not-a-number percentages. -/
theorem scoreLoop_sorted (matches_ : List DNAMatch) (numFrags : Int) (thr : Dbl) :
    ∀ (gs : List Genome) (holder : List GenomeMatch), holder.Pairwise GenomeMatch.before →
      (∀ e ∈ holder, e.percentMatch ≠ Dbl.nan) →
      (GenomeMatcherImpl.scoreLoop matches_ numFrags thr gs holder).Pairwise
        GenomeMatch.before := by
  intro gs
  induction gs with
  | nil => intro holder hs _; exact hs
  | cons g rest ih =>
    intro holder hs hn
    by_cases hgt : Dbl.gt (percentage (numMatches matches_ g.name) numFrags) thr = true
    · rw [GenomeMatcherImpl.scoreLoop, if_pos hgt]
      have hne := (Dbl.gt_ne_nan _ _ hgt).1
      apply ih
      · exact insertMatch_sorted _ hne holder hs hn
      · intro e he
        rcases List.mem_cons.mp ((insertMatch_perm _ holder).mem_iff.mp he) with rfl | he
        · exact hne
        · exact hn e he
    · rw [GenomeMatcherImpl.scoreLoop, if_neg hgt]
      exact ih holder hs hn

/-- The shape of a result of `findRelatedGenomes`. -/
theorem findRelatedGenomes_some (m : GenomeMatcherImpl) (query : Genome) (fml : Int)
    (ex : Bool) (thr : Dbl) (results : List GenomeMatch) (r : Bool × List GenomeMatch)
    (h : m.findRelatedGenomes query fml ex thr results = some r) :
    r = (false, results ++ []) ∨
      ((m.m_minSearchLength : Int) ≤ fml ∧ fml ≠ 0 ∧
        ∃ pooled, m.poolLoop query fml ex (List.range (Int.tdiv query.length fml).toNat) []
            = some pooled ∧
          r = (!(GenomeMatcherImpl.scoreLoop pooled (Int.tdiv query.length fml) thr
                  m.m_genomeList []).isEmpty,
            results ++ GenomeMatcherImpl.scoreLoop pooled (Int.tdiv query.length fml) thr
                  m.m_genomeList [])) := by
  unfold GenomeMatcherImpl.findRelatedGenomes at h
  by_cases h1 : fml < (m.m_minSearchLength : Int)
  · rw [if_pos h1] at h
    left
    simpa using h.symm
  · rw [if_neg h1] at h
    by_cases h2 : fml = 0
    · rw [if_pos h2] at h
      exact absurd h (by simp)
    · rw [if_neg h2] at h
      right
      refine ⟨by omega, h2, ?_⟩
      cases hp : m.poolLoop query fml ex (List.range (Int.tdiv query.length fml).toNat) [] with
      | none => simp [hp] at h
      | some pooled =>
        simp only [hp, Option.some.injEq] at h
        exact ⟨pooled, rfl, h.symm⟩

end CS32
namespace CS32

/-! ## Rounding to binary64 -/

theorem bitLength_zero (fuel : Nat) : bitLength fuel 0 = 0 := by
  cases fuel <;> simp [bitLength]

theorem bitLength_spec :
    ∀ fuel n : Nat, n ≤ fuel →
      n < 2 ^ bitLength fuel n ∧ (n ≠ 0 → 2 ^ (bitLength fuel n - 1) ≤ n) := by
  intro fuel
  induction fuel with
  | zero =>
    intro n hn
    have : n = 0 := by omega
    subst this
    simp [bitLength]
  | succ fuel ih =>
    intro n hn
    by_cases h0 : n = 0
    · subst h0
      simp [bitLength]
    · rw [bitLength, if_neg h0]
      obtain ⟨h1, h2⟩ := ih (n / 2) (by omega)
      constructor
      · rw [pow_succ]
        omega
      · intro _
        rw [Nat.add_sub_cancel]
        by_cases hh : n / 2 = 0
        · rw [hh, bitLength_zero]
          simp
          omega
        · have h3 := h2 hh
          have hL : 1 ≤ bitLength fuel (n / 2) := by
            by_contra hc
            have : bitLength fuel (n / 2) = 0 := by omega
            rw [this] at h1
            simp at h1
            exact hh h1
          obtain ⟨L, hLe⟩ : ∃ L, bitLength fuel (n / 2) = L + 1 :=
            ⟨bitLength fuel (n / 2) - 1, by omega⟩
          rw [hLe] at h3 ⊢
          rw [Nat.add_sub_cancel] at h3
          rw [pow_succ]
          omega

theorem reachesPower_le (a b : Nat) (hb : 0 < b) (k : Int)
    (h : reachesPower a b k = true) : (2 : ℚ) ^ k ≤ (a : ℚ) / (b : ℚ) := by
  have hbq : (0 : ℚ) < (b : ℚ) := by exact_mod_cast hb
  unfold reachesPower at h
  split at h
  · rename_i hk
    obtain ⟨n, rfl⟩ : ∃ n : Nat, k = (n : Int) := ⟨k.toNat, (Int.toNat_of_nonneg hk).symm⟩
    rw [Int.toNat_ofNat, decide_eq_true_eq] at h
    rw [zpow_natCast, le_div_iff₀ hbq]
    exact_mod_cast h
  · rename_i hk
    obtain ⟨n, hn⟩ : ∃ n : Nat, -k = (n : Int) :=
      ⟨(-k).toNat, (Int.toNat_of_nonneg (by omega)).symm⟩
    rw [hn, Int.toNat_ofNat, decide_eq_true_eq] at h
    have hk3 : k = -(n : Int) := by omega
    rw [hk3, zpow_neg, zpow_natCast, le_div_iff₀ hbq, inv_mul_le_iff₀ (by positivity)]
    exact_mod_cast h

/-- The exponent is not above the binary logarithm. -/
theorem binaryExponent_le (a b : Nat) (ha : 0 < a) (hb : 0 < b) :
    (2 : ℚ) ^ binaryExponent a b ≤ (a : ℚ) / (b : ℚ) := by
  have hbq : (0 : ℚ) < (b : ℚ) := by exact_mod_cast hb
  have haq : (0 : ℚ) < (a : ℚ) := by exact_mod_cast ha
  unfold binaryExponent
  split
  · rename_i htest
    exact reachesPower_le a b hb _ htest
  · obtain ⟨ha1, ha2⟩ := bitLength_spec a a (le_refl _)
    obtain ⟨hb1, _⟩ := bitLength_spec b b (le_refl _)
    have ha3 := ha2 (by omega)
    have hla : 1 ≤ bitLength a a := by
      by_contra hc
      have h0 : bitLength a a = 0 := by omega
      rw [h0] at ha1
      simp at ha1
      omega
    generalize bitLength a a = la at *
    generalize bitLength b b = lb at *
    have e1 : (la : Int) - (lb : Int) - 1 = ((la - 1 : Nat) : Int) - (lb : Int) := by omega
    rw [e1, zpow_sub₀ (by norm_num : (2 : ℚ) ≠ 0), zpow_natCast, zpow_natCast]
    have h1 : ((2 : ℚ) ^ (la - 1)) ≤ (a : ℚ) := by exact_mod_cast ha3
    have h2 : (b : ℚ) ≤ (2 : ℚ) ^ lb := by exact_mod_cast hb1.le
    exact div_le_div₀ haq.le h1 hbq h2


theorem roundHalfEven_le (num den bound : Nat) (hd : 0 < den) (h : num ≤ bound * den) :
    roundHalfEven num den ≤ bound := by
  have hq : num / den ≤ bound := by
    calc num / den ≤ bound * den / den := Nat.div_le_div_right h
      _ = bound := Nat.mul_div_cancel _ hd
  have hdm := Nat.div_add_mod num den
  by_cases hr : num % den = 0
  · unfold roundHalfEven
    rw [hr, if_pos (by omega)]
    exact hq
  · have hlt : num / den < bound := by
      by_contra hc
      have hge : bound ≤ num / den := by omega
      have : bound * den ≤ den * (num / den) := by
        rw [Nat.mul_comm bound den]
        exact Nat.mul_le_mul_left den hge
      omega
    unfold roundHalfEven
    split
    · omega
    · split
      · omega
      · split <;> omega

/-- The rounding of a positive rational that is not above a natural number below `2 ^ 53`
is the rounded magnitude, which is between the same bounds. -/
theorem Dbl.round_eq_magnitude (q : ℚ) (bound : Nat) (hpos : 0 < q) (hq : q ≤ (bound : ℚ))
    (hb : bound < 2 ^ 53) :
    Dbl.round q = Dbl.val (roundMagnitude q.num.natAbs q.den) ∧
      0 ≤ roundMagnitude q.num.natAbs q.den ∧
      roundMagnitude q.num.natAbs q.den ≤ (bound : ℚ) := by
  have hz : ¬ q = 0 := hpos.ne'
  have hnum : 0 < q.num := Rat.num_pos.mpr hpos
  have hden : 0 < q.den := q.den_pos
  have ha : 0 < q.num.natAbs := Int.natAbs_pos.mpr (by omega)
  have hqd : ((q.num.natAbs : ℚ)) / (q.den : ℚ) = q := by
    have h2 : ((q.num.natAbs : ℚ)) = (q.num : ℚ) := by
      rw [← Int.cast_natCast, Int.natAbs_of_nonneg hnum.le]
    rw [h2]
    exact Rat.num_div_den q
  have hb53 : ((bound : ℚ)) < (2 : ℚ) ^ (53 : Int) := by
    rw [show ((53 : Int)) = ((53 : Nat) : Int) from rfl, zpow_natCast]
    exact_mod_cast hb
  have he := binaryExponent_le q.num.natAbs q.den ha hden
  rw [hqd] at he
  have he52 : binaryExponent q.num.natAbs q.den ≤ 52 := by
    by_contra hc
    have hge : (53 : Int) ≤ binaryExponent q.num.natAbs q.den := by omega
    have := zpow_le_zpow_right₀ (by norm_num : (1 : ℚ) ≤ 2) hge
    linarith
  have hs : 0 ≤ 52 - max (binaryExponent q.num.natAbs q.den) (-1022) := by omega
  have hr : roundMagnitude q.num.natAbs q.den =
      (roundHalfEven (q.num.natAbs * 2 ^ (52 - max (binaryExponent q.num.natAbs q.den)
        (-1022)).toNat) q.den : ℚ) /
      (2 ^ (52 - max (binaryExponent q.num.natAbs q.den) (-1022)).toNat : Nat) := by
    rw [roundMagnitude, if_pos hs]
  generalize (52 - max (binaryExponent q.num.natAbs q.den) (-1022)).toNat = t at hr
  have hpow : (0 : ℚ) < ((2 ^ t : Nat) : ℚ) := by positivity
  have hab : q.num.natAbs ≤ bound * q.den := by
    have hdq : (0 : ℚ) < (q.den : ℚ) := by exact_mod_cast hden
    have : (q.num.natAbs : ℚ) ≤ (bound : ℚ) * (q.den : ℚ) := by
      rw [← div_le_iff₀ hdq, hqd]; exact hq
    exact_mod_cast this
  have hn : roundHalfEven (q.num.natAbs * 2 ^ t) q.den ≤ bound * 2 ^ t := by
    apply roundHalfEven_le _ _ _ hden
    calc q.num.natAbs * 2 ^ t ≤ bound * q.den * 2 ^ t := Nat.mul_le_mul_right _ hab
      _ = bound * 2 ^ t * q.den := by ring
  have hrle : roundMagnitude q.num.natAbs q.den ≤ (bound : ℚ) := by
    rw [hr, div_le_iff₀ hpow]
    exact_mod_cast hn
  have hr0 : 0 ≤ roundMagnitude q.num.natAbs q.den := by
    rw [hr]; positivity
  have hno : ¬ 1024 ≤ binaryExponent (roundMagnitude q.num.natAbs q.den).num.natAbs
      (roundMagnitude q.num.natAbs q.den).den := by
    generalize roundMagnitude q.num.natAbs q.den = r at hrle hr0
    intro hge
    by_cases hrz : r = 0
    · rw [hrz] at hge
      revert hge
      decide
    · have hrpos : 0 < r := lt_of_le_of_ne hr0 (Ne.symm hrz)
      have hrn : 0 < r.num := Rat.num_pos.mpr hrpos
      have h1 := binaryExponent_le r.num.natAbs r.den (Int.natAbs_pos.mpr (by omega)) r.den_pos
      have h2 : ((r.num.natAbs : ℚ)) / (r.den : ℚ) = r := by
        have h4 : ((r.num.natAbs : ℚ)) = (r.num : ℚ) := by
          rw [← Int.cast_natCast, Int.natAbs_of_nonneg hrn.le]
        rw [h4]
        exact Rat.num_div_den r
      rw [h2] at h1
      have := zpow_le_zpow_right₀ (by norm_num : (1 : ℚ) ≤ 2)
        (show (53 : Int) ≤ binaryExponent r.num.natAbs r.den by omega)
      linarith
  refine ⟨?_, hr0, hrle⟩
  rw [Dbl.round, if_neg hz, if_neg hno, if_pos hpos]

/-- The rounding of a rational between 0 and a natural number below `2 ^ 53` is finite and
between the same bounds. -/
theorem Dbl.round_le (q : ℚ) (bound : Nat) (h0 : 0 ≤ q) (hq : q ≤ (bound : ℚ))
    (hb : bound < 2 ^ 53) :
    ∃ r : ℚ, Dbl.round q = Dbl.val r ∧ 0 ≤ r ∧ r ≤ (bound : ℚ) := by
  by_cases hz : q = 0
  · exact ⟨0, by rw [Dbl.round, if_pos hz], le_refl _, by exact_mod_cast Nat.zero_le _⟩
  · exact ⟨_, Dbl.round_eq_magnitude q bound (lt_of_le_of_ne h0 (Ne.symm hz)) hq hb⟩

/-- The rounded magnitude when the shift `52 - e` is a natural number `t`. -/
theorem roundMagnitude_of_shift (a b : Nat) (t : Nat)
    (ht : 52 - max (binaryExponent a b) (-1022) = (t : Int)) :
    roundMagnitude a b = (roundHalfEven (a * 2 ^ t) b : ℚ) / ((2 ^ t : Nat) : ℚ) := by
  unfold roundMagnitude
  rw [ht, if_pos (Int.ofNat_nonneg t), Int.toNat_ofNat]



/-- The expression `(double)count / numFrags * 100` for a count that is not above a positive
`numFrags`: a finite value between 0 and 100, also after the two roundings. -/
theorem percentage_le_100 (count N : Nat) (hN : 1 ≤ N) (hc : count ≤ N) :
    ∃ p : ℚ, percentage count (N : Int) = Dbl.val p ∧ 0 ≤ p ∧ p ≤ 100 := by
  have hNq : (0 : ℚ) < (N : ℚ) := by exact_mod_cast hN
  have hne : ((N : Int) : ℚ) ≠ 0 := by
    rw [Int.cast_natCast]; exact hNq.ne'
  have hq0 : (0 : ℚ) ≤ ((count : Int) : ℚ) / ((N : Int) : ℚ) := by
    rw [Int.cast_natCast, Int.cast_natCast]; positivity
  have hq1 : ((count : Int) : ℚ) / ((N : Int) : ℚ) ≤ ((1 : Nat) : ℚ) := by
    rw [Int.cast_natCast, Int.cast_natCast, div_le_iff₀ hNq]
    have : (count : ℚ) ≤ (N : ℚ) := by exact_mod_cast hc
    simpa using this
  obtain ⟨r1, h1, h10, h11⟩ := Dbl.round_le _ 1 hq0 hq1 (by norm_num)
  have hm0 : 0 ≤ r1 * ((100 : Int) : ℚ) := by
    have : (0 : ℚ) ≤ ((100 : Int) : ℚ) := by norm_num
    positivity
  have hm1 : r1 * ((100 : Int) : ℚ) ≤ ((100 : Nat) : ℚ) := by
    have : r1 ≤ 1 := by simpa using h11
    have h100 : ((100 : Int) : ℚ) = 100 := by norm_num
    rw [h100]
    push_cast
    linarith
  obtain ⟨r2, h2, h20, h21⟩ := Dbl.round_le _ 100 hm0 hm1 (by norm_num)
  refine ⟨r2, ?_, h20, by simpa using h21⟩
  simp only [percentage, Dbl.ofInt, Dbl.div, if_neg hne, h1, Dbl.mul, h2]

/-- The nearest integer is within one half of the quotient. -/
theorem roundHalfEven_near (num den : Nat) (hd : 0 < den) :
    2 * (roundHalfEven num den * den) ≤ 2 * num + den ∧
      2 * num ≤ 2 * (roundHalfEven num den * den) + den := by
  have hdm := Nat.div_add_mod num den
  have hlt := Nat.mod_lt num hd
  have e1 : (num / den + 1) * den = den * (num / den) + den := by ring
  have e0 : num / den * den = den * (num / den) := Nat.mul_comm _ _
  unfold roundHalfEven
  split
  · rw [e0]; omega
  · split
    · rw [e1]; omega
    · split
      · rw [e0]; omega
      · rw [e1]; omega

/-- The rounded magnitude of a positive rational below `2 ^ (k + 1)`, `k ≤ 52`, is within
`2 ^ (k - 53)` of it. -/
theorem roundMagnitude_near (q : ℚ) (k : Nat) (hpos : 0 < q) (hk : k ≤ 52)
    (hq : q < (2 : ℚ) ^ (k + 1)) :
    |roundMagnitude q.num.natAbs q.den - q| ≤ 1 / 2 ^ (53 - k) := by
  have hnum : 0 < q.num := Rat.num_pos.mpr hpos
  have hden : 0 < q.den := q.den_pos
  have ha : 0 < q.num.natAbs := Int.natAbs_pos.mpr (by omega)
  have hqd : ((q.num.natAbs : ℚ)) / (q.den : ℚ) = q := by
    have h2 : ((q.num.natAbs : ℚ)) = (q.num : ℚ) := by
      rw [← Int.cast_natCast, Int.natAbs_of_nonneg hnum.le]
    rw [h2]
    exact Rat.num_div_den q
  have he := binaryExponent_le q.num.natAbs q.den ha hden
  rw [hqd] at he
  have hek : binaryExponent q.num.natAbs q.den ≤ (k : Int) := by
    by_contra hc
    have hge : ((k + 1 : Nat) : Int) ≤ binaryExponent q.num.natAbs q.den := by omega
    have := zpow_le_zpow_right₀ (by norm_num : (1 : ℚ) ≤ 2) hge
    rw [zpow_natCast] at this
    linarith
  obtain ⟨t, ht⟩ : ∃ t : Nat, 52 - max (binaryExponent q.num.natAbs q.den) (-1022) = (t : Int) :=
    ⟨(52 - max (binaryExponent q.num.natAbs q.den) (-1022)).toNat,
      (Int.toNat_of_nonneg (by omega)).symm⟩
  have htk : 53 - k ≤ t + 1 := by omega
  rw [roundMagnitude_of_shift _ _ t ht]
  obtain ⟨n1, n2⟩ := roundHalfEven_near (q.num.natAbs * 2 ^ t) q.den hden
  generalize roundHalfEven (q.num.natAbs * 2 ^ t) q.den = n at n1 n2
  have hbq : (0 : ℚ) < (q.den : ℚ) := by exact_mod_cast hden
  have hpt : (0 : ℚ) < ((2 ^ t : Nat) : ℚ) := by positivity
  have m1 : (2 : ℚ) * ((n : ℚ) * (q.den : ℚ)) ≤
      2 * ((q.num.natAbs : ℚ) * ((2 ^ t : Nat) : ℚ)) + (q.den : ℚ) := by exact_mod_cast n1
  have m2 : (2 : ℚ) * ((q.num.natAbs : ℚ) * ((2 ^ t : Nat) : ℚ)) ≤
      2 * ((n : ℚ) * (q.den : ℚ)) + (q.den : ℚ) := by exact_mod_cast n2
  have hqa : (q.num.natAbs : ℚ) = q * (q.den : ℚ) := (div_eq_iff hbq.ne').mp hqd
  rw [hqa] at m1 m2
  generalize hP : ((2 ^ t : Nat) : ℚ) = P at hpt m1 m2 ⊢
  generalize (q.den : ℚ) = D at hbq m1 m2
  have a1 : 2 * (n : ℚ) ≤ 2 * q * P + 1 := by
    have : D * (2 * (n : ℚ)) ≤ D * (2 * q * P + 1) := by linarith
    exact le_of_mul_le_mul_left this hbq
  have a2 : 2 * q * P ≤ 2 * (n : ℚ) + 1 := by
    have : D * (2 * q * P) ≤ D * (2 * (n : ℚ) + 1) := by linarith
    exact le_of_mul_le_mul_left this hbq
  have hbound : |(n : ℚ) / P - q| ≤ 1 / (2 * P) := by
    have h1 : (n : ℚ) / P - q = (2 * (n : ℚ) - 2 * q * P) / (2 * P) := by
      field_simp
      ring
    rw [h1, abs_le]
    constructor
    · rw [le_div_iff₀ (by positivity)]
      have : -(1 / (2 * P)) * (2 * P) = -1 := by field_simp
      rw [this]
      linarith
    · rw [div_le_div_iff_of_pos_right (by positivity)]
      linarith
  refine le_trans hbound ?_
  have hcast : (2 : ℚ) * P = (2 : ℚ) ^ (t + 1) := by
    rw [← hP]; push_cast; ring
  rw [hcast]
  apply one_div_le_one_div_of_le (by positivity)
  exact pow_le_pow_right₀ (by norm_num) htk


/-- The expression `(double)count / numFrags * 100` for a count that is not above a positive
`numFrags`: a finite value between 0 and 100 that is within `2 ^ (-45)` of the exact
`100 * count / numFrags`. -/
theorem percentage_near (count N : Nat) (hN : 1 ≤ N) (hc : count ≤ N) :
    ∃ p : ℚ, percentage count (N : Int) = Dbl.val p ∧ 0 ≤ p ∧ p ≤ 100 ∧
      |p - 100 * (count : ℚ) / (N : ℚ)| ≤ 1 / 2 ^ 45 := by
  have hNq : (0 : ℚ) < (N : ℚ) := by exact_mod_cast hN
  have hne : ((N : Int) : ℚ) ≠ 0 := by
    rw [Int.cast_natCast]; exact hNq.ne'
  have hcN : (count : ℚ) ≤ (N : ℚ) := by exact_mod_cast hc
  have hq0 : (0 : ℚ) ≤ (count : ℚ) / (N : ℚ) := by positivity
  have hq1 : (count : ℚ) / (N : ℚ) ≤ 1 := by
    rw [div_le_iff₀ hNq]; linarith
  have hpct : percentage count (N : Int) =
      Dbl.mul (Dbl.round ((count : ℚ) / (N : ℚ))) (Dbl.val 100) := by
    have hN0 : ¬ N = 0 := by omega
    simp only [percentage, Dbl.ofInt, Dbl.div, Int.cast_natCast, Nat.cast_eq_zero,
      if_neg hN0]
    norm_num
  have hexact : 100 * (count : ℚ) / (N : ℚ) = 100 * ((count : ℚ) / (N : ℚ)) := by ring
  rw [hpct, hexact]
  generalize (count : ℚ) / (N : ℚ) = q at hq0 hq1
  have hround0 : Dbl.round 0 = Dbl.val 0 := by rw [Dbl.round, if_pos rfl]
  by_cases hz : q = 0
  · subst hz
    refine ⟨0, ?_, le_refl _, by norm_num, by norm_num⟩
    rw [hround0]
    simp only [Dbl.mul, zero_mul, hround0]
  have hqpos : 0 < q := lt_of_le_of_ne hq0 (Ne.symm hz)
  obtain ⟨h1, h10, h11⟩ := Dbl.round_eq_magnitude q 1 hqpos (by simpa using hq1)
    (by norm_num)
  have h12 := roundMagnitude_near q 0 hqpos (by norm_num) (by norm_num; linarith)
  rw [h1]
  generalize roundMagnitude q.num.natAbs q.den = r1 at h10 h11 h12
  have h11' : r1 ≤ 1 := by simpa using h11
  have h12' : |r1 - q| ≤ 1 / 2 ^ 53 := by simpa using h12
  obtain ⟨l1, u1⟩ := abs_le.mp h12'
  simp only [Dbl.mul]
  by_cases hy : r1 * 100 = 0
  · rw [hy, hround0]
    have hr1 : r1 = 0 := by linarith
    refine ⟨0, rfl, le_refl _, by norm_num, ?_⟩
    rw [hr1] at l1 u1
    rw [abs_le]
    constructor <;> norm_num at l1 u1 ⊢ <;> linarith
  have hypos : 0 < r1 * 100 := lt_of_le_of_ne (by positivity) (Ne.symm hy)
  obtain ⟨h2, h20, h21⟩ := Dbl.round_eq_magnitude (r1 * 100) 100 hypos
    (by push_cast; linarith) (by norm_num)
  have h22 := roundMagnitude_near (r1 * 100) 6 hypos (by norm_num) (by norm_num; linarith)
  rw [h2]
  generalize roundMagnitude (r1 * 100).num.natAbs (r1 * 100).den = r2 at h20 h21 h22
  have h22' : |r2 - r1 * 100| ≤ 1 / 2 ^ 47 := by simpa using h22
  obtain ⟨l2, u2⟩ := abs_le.mp h22'
  refine ⟨r2, rfl, h20, by simpa using h21, ?_⟩
  rw [abs_le]
  constructor <;> norm_num at l1 u1 l2 u2 ⊢ <;> linarith

end CS32

namespace CS32

/-! ## The two loops of findRelatedGenomes -/

theorem numMatches_append (a b : List DNAMatch) (n : Str) :
    numMatches (a ++ b) n = numMatches a n + numMatches b n := by
  induction a with
  | nil => simp [numMatches]
  | cons e rest ih =>
    rw [List.cons_append, numMatches, numMatches, ih]
    omega

/-- In a list with pairwise distinct names a name is counted once or not at all. -/
theorem numMatches_of_nodup (l : List DNAMatch) (n : Str)
    (hn : (l.map DNAMatch.genomeName).Nodup) :
    numMatches l n = if l.any (fun x => decide (x.genomeName = n)) = true then 1 else 0 := by
  induction l with
  | nil => rfl
  | cons e rest ih =>
    rw [List.map_cons, List.nodup_cons] at hn
    have ih' := ih hn.2
    by_cases he : e.genomeName = n
    · have hrest : rest.any (fun x => decide (x.genomeName = n)) = false := by
        rw [List.any_eq_false]
        intro x hx
        simp only [decide_eq_true_eq]
        intro hxn
        exact hn.1 (List.mem_map.mpr ⟨x, hx, by rw [hxn, he]⟩)
      rw [hrest] at ih'
      simp [numMatches, he, ih']
    · simp only [numMatches, he, if_false, Nat.zero_add, List.any_cons, decide_False,
        Bool.false_or]
      exact ih'

/-- The names of what a call of `findGenomesWithThisDNA` appends to an empty output are
pairwise distinct. -/
theorem findGenomes_nodup (m : GenomeMatcherImpl) (fragment : Str) (minimumLength : Int)
    (ex : Bool) (r : Bool × List DNAMatch)
    (h : m.findGenomesWithThisDNA fragment minimumLength ex [] = some r) :
    (r.2.map DNAMatch.genomeName).Nodup := by
  rcases findGenomes_some m fragment minimumLength ex [] r h with rfl | ⟨_, cands, _, _, rfl⟩
  · simp
  · simpa using (foldl_reconcile_spec minimumLength cands).1

/-- The first loop counts a name once for every window with a match of that name. -/
theorem poolLoop_numMatches (m : GenomeMatcherImpl) (query : Genome) (fml : Int) (ex : Bool)
    (n : Str) :
    ∀ (idxs : List Nat) (matches_ pooled : List DNAMatch),
      m.poolLoop query fml ex idxs matches_ = some pooled →
      numMatches pooled n =
        numMatches matches_ n + (idxs.filter (poolHit m query fml ex n)).length := by
  intro idxs
  induction idxs with
  | nil =>
    intro matches_ pooled h
    simp only [GenomeMatcherImpl.poolLoop, Option.some.injEq] at h
    simp [h]
  | cons i rest ih =>
    intro matches_ pooled h
    rw [GenomeMatcherImpl.poolLoop, findGenomes_frame] at h
    cases h0 : m.findGenomesWithThisDNA (query.extract ((i : Int) * fml) fml []).2 fml ex []
      with
    | none => simp [h0] at h
    | some r0 =>
      simp only [h0, Option.map_some'] at h
      rw [ih _ _ h, numMatches_append,
        numMatches_of_nodup r0.2 n (findGenomes_nodup m _ fml ex r0 h0)]
      have hhit : poolHit m query fml ex n i =
          r0.2.any (fun x => decide (x.genomeName = n)) := by
        simp only [poolHit, h0]
      rw [List.filter_cons, hhit]
      by_cases ha : r0.2.any (fun x => decide (x.genomeName = n)) = true
      · rw [if_pos ha, if_pos ha, List.length_cons]; omega
      · rw [if_neg ha, if_neg ha]; omega

theorem poolLoop_total (m : GenomeMatcherImpl) (query : Genome) (fml : Int) (ex : Bool)
    (htot : ∀ fragment matches_, ∃ r, m.findGenomesWithThisDNA fragment fml ex matches_
      = some r) :
    ∀ (idxs : List Nat) (matches_ : List DNAMatch),
      ∃ pooled, m.poolLoop query fml ex idxs matches_ = some pooled := by
  intro idxs
  induction idxs with
  | nil => intro matches_; exact ⟨matches_, rfl⟩
  | cons i rest ih =>
    intro matches_
    obtain ⟨r, hr⟩ := htot (query.extract ((i : Int) * fml) fml []).2 matches_
    obtain ⟨pooled, hp⟩ := ih r.2
    exact ⟨pooled, by rw [GenomeMatcherImpl.poolLoop, hr]; exact hp⟩

/-- The first loop only looks at the windows of the query. -/
theorem poolLoop_congr (m : GenomeMatcherImpl) (q q' : Genome) (fml : Int) (ex : Bool) :
    ∀ (idxs : List Nat) (matches_ : List DNAMatch),
      (∀ i ∈ idxs, (q.extract ((i : Int) * fml) fml []).2 =
        (q'.extract ((i : Int) * fml) fml []).2) →
      m.poolLoop q fml ex idxs matches_ = m.poolLoop q' fml ex idxs matches_ := by
  intro idxs
  induction idxs with
  | nil => intro _ _; rfl
  | cons i rest ih =>
    intro matches_ h
    rw [GenomeMatcherImpl.poolLoop, GenomeMatcherImpl.poolLoop, h i (List.mem_cons_self _ _)]
    cases m.findGenomesWithThisDNA (q'.extract ((i : Int) * fml) fml []).2 fml ex matches_
      with
    | none => rfl
    | some r => exact ih r.2 (fun j hj => h j (List.mem_cons_of_mem _ hj))

/-- The second loop adds one entry for every genome whose percentage is over the
threshold. -/
theorem scoreLoop_perm (matches_ : List DNAMatch) (numFrags : Int) (thr : Dbl) :
    ∀ (gs : List Genome) (holder : List GenomeMatch),
      (GenomeMatcherImpl.scoreLoop matches_ numFrags thr gs holder).Perm
        (holder ++ (gs.filter (fun g =>
            Dbl.gt (percentage (numMatches matches_ g.name) numFrags) thr)).map
          (fun g => ⟨g.name, percentage (numMatches matches_ g.name) numFrags⟩)) := by
  intro gs
  induction gs with
  | nil => intro holder; simp [GenomeMatcherImpl.scoreLoop]
  | cons g rest ih =>
    intro holder
    by_cases hgt : Dbl.gt (percentage (numMatches matches_ g.name) numFrags) thr = true
    · rw [GenomeMatcherImpl.scoreLoop, if_pos hgt, List.filter_cons, if_pos hgt,
        List.map_cons]
      refine (ih _).trans ?_
      refine ((insertMatch_perm _ holder).append_right _).trans ?_
      exact List.perm_middle.symm
    · rw [GenomeMatcherImpl.scoreLoop, if_neg hgt, List.filter_cons, if_neg hgt]
      exact ih holder

/-- A window of the query lies inside the query. -/
theorem window_in_range (len f i : Nat) (hi : i < len / f) : i * f + f ≤ len := by
  have h1 : (i + 1) * f ≤ (len / f) * f := Nat.mul_le_mul_right f hi
  have h2 : (len / f) * f ≤ len := Nat.div_mul_le_self len f
  have h3 : (i + 1) * f = i * f + f := by ring
  omega

/-- The window the first loop extracts, for a non-negative length. -/
theorem pool_window (query : Genome) (f i : Nat) (hi : i < query.m_sequence.length / f) :
    (query.extract ((i : Int) * (f : Int)) (f : Int) []).2 =
      slice query.m_sequence (i * f) f := by
  have := extract_inside query (i * f) f (window_in_range _ _ _ hi)
  rwa [Nat.cast_mul] at this

theorem tdiv_length (query : Genome) (f : Nat) :
    (Int.tdiv query.length (f : Int)).toNat = query.m_sequence.length / f := by
  unfold Genome.length
  rw [← Int.ofNat_tdiv, Int.toNat_ofNat]

/-- The counter of the first loop is the number of windows with a match of the name. -/
theorem poolHits_eq_windowHits (m : GenomeMatcherImpl) (query : Genome) (f : Nat) (ex : Bool)
    (n : Str) :
    ((List.range (Int.tdiv query.length (f : Int)).toNat).filter
      (poolHit m query (f : Int) ex n)).length = windowHits m query (f : Int) ex n := by
  unfold windowHits
  congr 1
  apply List.filter_congr
  intro i hi
  rw [tdiv_length] at hi
  have hi' := List.mem_range.mp hi
  simp only [poolHit, pool_window query f i hi', Int.toNat_ofNat]

theorem percentage_zero_zero : percentage 0 0 = Dbl.nan := by
  simp [percentage, Dbl.ofInt, Dbl.div, Dbl.mul]

end CS32

namespace CS32

/-! ## The results of findRelatedGenomes -/

/-- On a state reached with a window size `w ≥ 1`, `findRelatedGenomes` returns, for every
`fragmentMatchLength` an `int` holds. -/
theorem findRelatedGenomes_returns (w : Nat) (hw : 1 ≤ w) (m : GenomeMatcherImpl)
    (hm : GenomeMatcherImpl.Reachable w m) (query : Genome) (fml : Int)
    (hint : fml ≤ 2147483647) (ex : Bool) (thr : Dbl) (results : List GenomeMatch) :
    ∃ r, m.findRelatedGenomes query fml ex thr results = some r := by
  obtain ⟨kvs, hinv⟩ := reachable_inv w m hm
  have hwin := hinv.window
  unfold GenomeMatcherImpl.findRelatedGenomes
  by_cases h1 : fml < (m.m_minSearchLength : Int)
  · exact ⟨_, by rw [if_pos h1]⟩
  · have h2 : ¬ fml = 0 := by omega
    rw [if_neg h1, if_neg h2]
    obtain ⟨pooled, hp⟩ := poolLoop_total m query fml ex
      (fun fragment matches_ => findGenomes_returns w hw m hm fragment fml hint ex matches_)
      (List.range (Int.tdiv query.length fml).toNat) []
    rw [hp]
    exact ⟨_, rfl⟩

/-- C17. The results of `findRelatedGenomes` are sorted: for every matcher state (any genome
list, any trie) and query, a call that returns leaves in the results the previous content
followed by entries in which every entry stands before every later one in the order
"greater `percentMatch`, or equal `percentMatch` and a name that is not after"; on the
states reached with a window size `w ≥ 1` the call does return, for every
`fragmentMatchLength` an `int` holds. -/
theorem findRelatedGenomes_sorted (m : GenomeMatcherImpl) (query : Genome) (fml : Int)
    (ex : Bool) (thr : Dbl) (results : List GenomeMatch) :
    (∀ r, m.findRelatedGenomes query fml ex thr results = some r →
      ∃ holder, r.2 = results ++ holder ∧ holder.Pairwise GenomeMatch.before) ∧
    (∀ w, 1 ≤ w → GenomeMatcherImpl.Reachable w m → fml ≤ 2147483647 →
      ∃ r, m.findRelatedGenomes query fml ex thr results = some r) := by
  refine ⟨?_, fun w hw hm hint => findRelatedGenomes_returns w hw m hm query fml hint ex thr
    results⟩
  intro r h
  rcases findRelatedGenomes_some m query fml ex thr results r h with
    rfl | ⟨_, _, pooled, _, rfl⟩
  · exact ⟨[], rfl, List.Pairwise.nil⟩
  · exact ⟨_, rfl, scoreLoop_sorted pooled _ thr m.m_genomeList [] List.Pairwise.nil
      (by simp)⟩

theorem findRelatedGenomes_sorted_witness :
    (exampleMatcher.findRelatedGenomes ⟨"Q".toList, "ACGTACGTTTACGTTAGG".toList⟩ 4 false
        (Dbl.val 10) [⟨"Z".toList, Dbl.val 1⟩] =
      some (true, [⟨"Z".toList, Dbl.val 1⟩, ⟨"B".toList, Dbl.val 100⟩,
        ⟨"A".toList, Dbl.val 50⟩, ⟨"A".toList, Dbl.val 50⟩])) ∧
    ∃ holder, (true, [(⟨"Z".toList, Dbl.val 1⟩ : GenomeMatch), ⟨"B".toList, Dbl.val 100⟩,
        ⟨"A".toList, Dbl.val 50⟩, ⟨"A".toList, Dbl.val 50⟩]).2 =
        [⟨"Z".toList, Dbl.val 1⟩] ++ holder ∧ holder.Pairwise GenomeMatch.before :=
  ⟨by with_unfolding_all decide,
    (findRelatedGenomes_sorted exampleMatcher ⟨"Q".toList, "ACGTACGTTTACGTTAGG".toList⟩ 4
      false (Dbl.val 10) [⟨"Z".toList, Dbl.val 1⟩]).1 _ (by with_unfolding_all decide)⟩

theorem slice_take (s : Str) (L p k : Nat) (h : p + k ≤ L) :
    slice (s.take L) p k = slice s p k := by
  unfold slice
  rw [List.drop_take, List.take_take, Nat.min_eq_left (by omega)]

theorem truncateQuery_length (query : Genome) (f : Nat) :
    (truncateQuery query (f : Int)).m_sequence.length = query.m_sequence.length / f * f := by
  unfold truncateQuery Genome.length
  rw [← Int.ofNat_tdiv]
  have : ((query.m_sequence.length / f : Nat) : Int) * (f : Int) =
      ((query.m_sequence.length / f * f : Nat) : Int) := by push_cast; rfl
  rw [this, Int.toNat_ofNat, List.length_take]
  have := Nat.div_mul_le_self query.m_sequence.length f
  omega

/-- The result of `findRelatedGenomes` on the query cut after its last whole window. -/
theorem findRelatedGenomes_truncate (m : GenomeMatcherImpl) (query : Genome) (fml : Int)
    (ex : Bool) (thr : Dbl) (results : List GenomeMatch) :
    m.findRelatedGenomes query fml ex thr results =
      m.findRelatedGenomes (truncateQuery query fml) fml ex thr results := by
  unfold GenomeMatcherImpl.findRelatedGenomes
  by_cases h1 : fml < (m.m_minSearchLength : Int)
  · rw [if_pos h1, if_pos h1]
  · by_cases h2 : fml = 0
    · rw [if_neg h1, if_pos h2, if_neg h1, if_pos h2]
    · rw [if_neg h1, if_neg h2, if_neg h1, if_neg h2]
      obtain ⟨f, rfl⟩ : ∃ f : Nat, fml = (f : Int) := ⟨fml.toNat, by omega⟩
      have hf : 0 < f := by omega
      have hlen := truncateQuery_length query f
      have hN : Int.tdiv (truncateQuery query (f : Int)).length (f : Int) =
          Int.tdiv query.length (f : Int) := by
        unfold Genome.length
        rw [hlen, ← Int.ofNat_tdiv, ← Int.ofNat_tdiv, Nat.mul_div_cancel _ hf]
      rw [hN]
      have hpool : m.poolLoop query (f : Int) ex
          (List.range (Int.tdiv query.length (f : Int)).toNat) [] =
          m.poolLoop (truncateQuery query (f : Int)) (f : Int) ex
            (List.range (Int.tdiv query.length (f : Int)).toNat) [] := by
        apply poolLoop_congr
        intro i hi
        rw [tdiv_length] at hi
        have hi' := List.mem_range.mp hi
        have hi2 : i < (truncateQuery query (f : Int)).m_sequence.length / f := by
          rw [hlen, Nat.mul_div_cancel _ hf]; exact hi'
        rw [pool_window query f i hi', pool_window _ f i hi2]
        have hin := window_in_range _ _ _ hi2
        rw [hlen] at hin
        have htr : (truncateQuery query (f : Int)).m_sequence =
            query.m_sequence.take (query.m_sequence.length / f * f) := by
          have := hlen
          unfold truncateQuery Genome.length at this ⊢
          simp only
          rw [← Int.ofNat_tdiv]
          have hc : ((query.m_sequence.length / f : Nat) : Int) * (f : Int) =
              ((query.m_sequence.length / f * f : Nat) : Int) := by push_cast; rfl
          rw [hc, Int.toNat_ofNat]
        rw [htr, slice_take _ _ _ _ hin]
      rw [hpool]

/-- C19. The query's short tail is discarded: for every matcher state (any genome list, any
trie), `fragmentMatchLength`, exactness flag, threshold and previous results,
`findRelatedGenomes` on a query gives the same outcome (the same flag and the same results
collection, or no return on either) as on the query cut to its first
`floor(length / fragmentMatchLength) * fragmentMatchLength` characters; on the states
reached with a window size `w ≥ 1` both calls return, for every `fragmentMatchLength` an
`int` holds. -/
theorem findRelatedGenomes_discards_tail (m : GenomeMatcherImpl) (query : Genome) (fml : Int)
    (ex : Bool) (thr : Dbl) (results : List GenomeMatch) :
    m.findRelatedGenomes query fml ex thr results =
        m.findRelatedGenomes
          ⟨query.m_name, query.m_sequence.take (Int.tdiv query.length fml * fml).toNat⟩
          fml ex thr results ∧
    (∀ w, 1 ≤ w → GenomeMatcherImpl.Reachable w m → fml ≤ 2147483647 →
      ∃ r, m.findRelatedGenomes query fml ex thr results = some r) :=
  ⟨findRelatedGenomes_truncate m query fml ex thr results,
    fun w hw hm hint => findRelatedGenomes_returns w hw m hm query fml hint ex thr results⟩

end CS32

namespace CS32

/-- The first loop pools at most one match of a name per window. -/
theorem poolLoop_count_le (m : GenomeMatcherImpl) (query : Genome) (fml : Int) (ex : Bool)
    (idxs : List Nat) (pooled : List DNAMatch)
    (h : m.poolLoop query fml ex idxs [] = some pooled) (n : Str) :
    numMatches pooled n ≤ idxs.length := by
  rw [poolLoop_numMatches m query fml ex n idxs [] pooled h]
  have := List.length_filter_le (poolHit m query fml ex n) idxs
  simp only [numMatches, Nat.zero_add]
  exact this

/-- The entries of the holder of `findRelatedGenomes` come from the genome list. -/
theorem scoreLoop_mem (matches_ : List DNAMatch) (numFrags : Int) (thr : Dbl)
    (gs : List Genome) (e : GenomeMatch)
    (he : e ∈ GenomeMatcherImpl.scoreLoop matches_ numFrags thr gs []) :
    ∃ g ∈ gs, Dbl.gt (percentage (numMatches matches_ g.name) numFrags) thr = true ∧
      e = ⟨g.name, percentage (numMatches matches_ g.name) numFrags⟩ := by
  have := (scoreLoop_perm matches_ numFrags thr gs []).mem_iff.mp he
  simp only [List.nil_append, List.mem_map, List.mem_filter] at this
  obtain ⟨g, ⟨hg, hgt⟩, rfl⟩ := this
  exact ⟨g, hg, hgt, rfl⟩

/-- C20. A sequence contributes at most one pooled match per window: for every matcher state
(any genome list, any trie, so also with several sequences of one name), when the first
loop of `findRelatedGenomes` returns the pooled matches, every name occurs in them at most
`windowCount = floor(query.length / fragmentMatchLength)` times; and when
`findRelatedGenomes` returns, every entry it appended has a finite `percentMatch` of at most
100. -/
theorem findRelatedGenomes_percent_le_100 (m : GenomeMatcherImpl) (query : Genome)
    (fml : Int) (ex : Bool) :
    (∀ pooled, m.poolLoop query fml ex (List.range (Int.tdiv query.length fml).toNat) []
        = some pooled →
      ∀ n, numMatches pooled n ≤ (Int.tdiv query.length fml).toNat) ∧
    (∀ thr results r, m.findRelatedGenomes query fml ex thr results = some r →
      ∃ holder, r.2 = results ++ holder ∧
        ∀ e ∈ holder, ∃ p : ℚ, e.percentMatch = Dbl.val p ∧ p ≤ 100) := by
  have hcount : ∀ pooled, m.poolLoop query fml ex
      (List.range (Int.tdiv query.length fml).toNat) [] = some pooled →
      ∀ n, numMatches pooled n ≤ (Int.tdiv query.length fml).toNat := by
    intro pooled h n
    have := poolLoop_count_le m query fml ex _ pooled h n
    rwa [List.length_range] at this
  refine ⟨hcount, ?_⟩
  intro thr results r h
  rcases findRelatedGenomes_some m query fml ex thr results r h with
    rfl | ⟨hge, hne, pooled, hp, rfl⟩
  · exact ⟨[], rfl, by simp⟩
  · refine ⟨_, rfl, ?_⟩
    intro e he
    obtain ⟨g, _, hgt, rfl⟩ := scoreLoop_mem pooled _ thr m.m_genomeList e he
    have hc := hcount pooled hp g.name
    obtain ⟨f, rfl⟩ : ∃ f : Nat, fml = (f : Int) := ⟨fml.toNat, by omega⟩
    rw [tdiv_length] at hc
    have hN : Int.tdiv query.length (f : Int) = ((query.m_sequence.length / f : Nat) : Int) := by
      unfold Genome.length
      rw [← Int.ofNat_tdiv]
    rw [hN] at hgt ⊢
    by_cases h0 : query.m_sequence.length / f = 0
    · rw [h0] at hc hgt
      have hz : numMatches pooled g.name = 0 := by omega
      rw [hz] at hgt
      simp only [Nat.cast_zero] at hgt
      rw [percentage_zero_zero] at hgt
      simp [Dbl.gt] at hgt
    · have hpos : 1 ≤ query.m_sequence.length / f := by omega
      obtain ⟨p, hp1, _, hp2⟩ := percentage_le_100 _ _ hpos hc
      exact ⟨p, hp1, hp2⟩

theorem findRelatedGenomes_percent_le_100_witness :
    (exampleMatcher.findRelatedGenomes ⟨"Q".toList, "ACGTACGTTTACGTTAGG".toList⟩ 4 false
        (Dbl.val 10) [⟨"Z".toList, Dbl.val 1⟩] =
      some (true, [⟨"Z".toList, Dbl.val 1⟩, ⟨"B".toList, Dbl.val 100⟩,
        ⟨"A".toList, Dbl.val 50⟩, ⟨"A".toList, Dbl.val 50⟩])) ∧
    ∃ holder, (true, [(⟨"Z".toList, Dbl.val 1⟩ : GenomeMatch), ⟨"B".toList, Dbl.val 100⟩,
        ⟨"A".toList, Dbl.val 50⟩, ⟨"A".toList, Dbl.val 50⟩]).2 =
        [⟨"Z".toList, Dbl.val 1⟩] ++ holder ∧
      ∀ e ∈ holder, ∃ p : ℚ, e.percentMatch = Dbl.val p ∧ p ≤ 100 :=
  ⟨by with_unfolding_all decide,
    (findRelatedGenomes_percent_le_100 exampleMatcher
      ⟨"Q".toList, "ACGTACGTTTACGTTAGG".toList⟩ 4 false).2 (Dbl.val 10)
      [⟨"Z".toList, Dbl.val 1⟩] _ (by with_unfolding_all decide)⟩

end CS32

namespace CS32

/-! ## The examples of the specification -/

/-- The state `addGenome` returns for a sequence at least as long as the window, with
fuel for all its loop tests. -/
theorem addGenome_eq_of_fuel (m : GenomeMatcherImpl) (S : Genome)
    (hlen : m.m_minSearchLength ≤ S.m_sequence.length)
    (hint : S.m_sequence.length ≤ 2147483647) (fuel : Nat)
    (hfuel : S.m_sequence.length - m.m_minSearchLength + 2 ≤ fuel) :
    m.addGenome S fuel = some ⟨m.m_minSearchLength, m.m_genomeList ++ [S],
      ((List.range (S.m_sequence.length - m.m_minSearchLength + 1)).map
        (fun i => (slice S.m_sequence i m.m_minSearchLength,
          (⟨m.m_genomeList.length, (i : Int)⟩ : SeqFrag)))).foldl
        (fun t kv => t.insert kv.1 kv.2) m.m_seqFragTrie⟩ := by
  have hbound : sizeT (S.length - (m.m_minSearchLength : Int)) =
      S.m_sequence.length - m.m_minSearchLength := by
    unfold Genome.length
    exact sizeT_sub _ _ hlen (by omega)
  have hidx : (m.m_genomeList ++ [S]).length - 1 = m.m_genomeList.length := by simp
  have hloop := addGenomeLoop_exact S m.m_minSearchLength m.m_genomeList.length
    (S.m_sequence.length - m.m_minSearchLength) (by omega)
    (S.m_sequence.length - m.m_minSearchLength + 1) 0 fuel m.m_seqFragTrie (by omega)
    (by omega)
  have hmap : (List.range' 0 (S.m_sequence.length - m.m_minSearchLength + 1)).map
      (GenomeMatcherImpl.addGenomeEntry S m.m_minSearchLength m.m_genomeList.length) =
      (List.range (S.m_sequence.length - m.m_minSearchLength + 1)).map
        (fun i => (slice S.m_sequence i m.m_minSearchLength,
          (⟨m.m_genomeList.length, (i : Int)⟩ : SeqFrag))) := by
    rw [← List.range_eq_range']
    apply List.map_congr_left
    intro i hi
    have hi' : i + m.m_minSearchLength ≤ S.m_sequence.length := by
      have := List.mem_range.mp hi
      omega
    simp only [GenomeMatcherImpl.addGenomeEntry, extract_inside S i _ hi']
  rw [hmap] at hloop
  unfold GenomeMatcherImpl.addGenome
  simp only [hbound, hidx, hloop]

/-- The matcher of the examples is the state after `construct(4)` and `addGenome(A)`,
whatever the fuel from 6 loop tests on. -/
theorem specExampleMatcher_eq (fuel : Nat) :
    (GenomeMatcherImpl.construct 4).addGenome ⟨"A".toList, "ACGTACGT".toList⟩ (fuel + 6) =
      some specExampleMatcher :=
  addGenome_eq_of_fuel (GenomeMatcherImpl.construct 4) ⟨"A".toList, "ACGTACGT".toList⟩
    (by decide) (by decide) (fuel + 6) (by
      have : (Genome.mk "A".toList "ACGTACGT".toList).m_sequence.length = 8 := by decide
      have h4 : (GenomeMatcherImpl.construct 4).m_minSearchLength = 4 := rfl
      rw [this, h4]
      omega)

/-- C21. Spec example (exact mode): with `windowSize = 4` and the single added sequence
`A = ACGTACGT` (the state `addGenome` returns from the constructed matcher, for every fuel
from 6 loop tests on), `findGenomesWithThisDNA("ACGTTTTT", 4, true)` on an empty output
returns `true` and exactly the one match `{A, position 0, length 4}`. -/
theorem spec_example_exact_mode :
    (∀ fuel : Nat,
      (GenomeMatcherImpl.construct 4).addGenome ⟨"A".toList, "ACGTACGT".toList⟩ (fuel + 6) =
        some specExampleMatcher) ∧
    specExampleMatcher.findGenomesWithThisDNA "ACGTTTTT".toList 4 true [] =
      some (true, [⟨"A".toList, 4, 0⟩]) :=
  ⟨specExampleMatcher_eq, by decide⟩

/-- C22. Spec example (fuzzy mode): with `windowSize = 4` and the single added sequence
`A = ACGTACGT` (the state `addGenome` returns from the constructed matcher, for every fuel
from 6 loop tests on), `findGenomesWithThisDNA("ACTTACGT", 4, false)` on an empty output
returns `true` and exactly the one match for `A` at position 0 with length 8. -/
theorem spec_example_fuzzy_mode :
    (∀ fuel : Nat,
      (GenomeMatcherImpl.construct 4).addGenome ⟨"A".toList, "ACGTACGT".toList⟩ (fuel + 6) =
        some specExampleMatcher) ∧
    specExampleMatcher.findGenomesWithThisDNA "ACTTACGT".toList 4 false [] =
      some (true, [⟨"A".toList, 8, 0⟩]) :=
  ⟨specExampleMatcher_eq, by decide⟩

end CS32

namespace CS32

/-- The result of `findRelatedGenomes` past its first test, with at least one window: the
second loop run on counters that are the numbers of windows with a match of the name. -/
theorem findRelatedGenomes_eq_scoreLoop (m : GenomeMatcherImpl) (query : Genome) (fml : Int)
    (ex : Bool) (thr : Dbl) (results : List GenomeMatch) (r : Bool × List GenomeMatch)
    (hfml : (m.m_minSearchLength : Int) ≤ fml) (hN : 1 ≤ Int.tdiv query.length fml)
    (h : m.findRelatedGenomes query fml ex thr results = some r) :
    ∃ pooled, (∀ n, numMatches pooled n = windowHits m query fml ex n) ∧
      r = (!(GenomeMatcherImpl.scoreLoop pooled (Int.tdiv query.length fml) thr
              m.m_genomeList []).isEmpty,
        results ++ GenomeMatcherImpl.scoreLoop pooled (Int.tdiv query.length fml) thr
              m.m_genomeList []) := by
  have h2 : ¬ fml = 0 := by
    intro h0
    rw [h0, Int.tdiv_zero] at hN
    omega
  unfold GenomeMatcherImpl.findRelatedGenomes at h
  rw [if_neg (by omega), if_neg h2] at h
  cases hp : m.poolLoop query fml ex (List.range (Int.tdiv query.length fml).toNat) [] with
  | none => simp [hp] at h
  | some pooled =>
    simp only [hp, Option.some.injEq] at h
    refine ⟨pooled, ?_, h.symm⟩
    obtain ⟨f, rfl⟩ : ∃ f : Nat, fml = (f : Int) := ⟨fml.toNat, by omega⟩
    intro n
    rw [poolLoop_numMatches m query (f : Int) ex n _ [] pooled hp, poolHits_eq_windowHits]
    simp [numMatches]

theorem percentage_two_two : percentage 2 2 = Dbl.val 100 := by
  with_unfolding_all decide

theorem percentage_one_two : percentage 1 2 = Dbl.val 50 := by
  with_unfolding_all decide

/-- C23. Spec example (ranking): for every matcher state whose stored sequences are `X` and
`Y`, in either insertion order, and every query that splits into exactly 2 windows
(`fragmentMatchLength ≥ windowSize`) of which `X` matches both and `Y` exactly one, a call
of `findRelatedGenomes` with threshold 40 that returns gives `true` and the previous
results followed by exactly `[{X, 100}, {Y, 50}]`, in that order; on the states reached with
a window size `w ≥ 1` the call does return, for every `fragmentMatchLength` an `int`
holds. -/
theorem spec_example_ranking (m : GenomeMatcherImpl) (query : Genome) (fml : Int) (ex : Bool)
    (results : List GenomeMatch) (gX gY : Genome)
    (hlist : m.m_genomeList = [gX, gY] ∨ m.m_genomeList = [gY, gX])
    (hfml : (m.m_minSearchLength : Int) ≤ fml) (hN : Int.tdiv query.length fml = 2)
    (hX : windowHits m query fml ex gX.name = 2)
    (hY : windowHits m query fml ex gY.name = 1) :
    (∀ r, m.findRelatedGenomes query fml ex (Dbl.val 40) results = some r →
      r = (true, results ++ [⟨gX.name, Dbl.val 100⟩, ⟨gY.name, Dbl.val 50⟩])) ∧
    (∀ w, 1 ≤ w → GenomeMatcherImpl.Reachable w m → fml ≤ 2147483647 →
      ∃ r, m.findRelatedGenomes query fml ex (Dbl.val 40) results = some r) := by
  refine ⟨?_, fun w hw hm hint => findRelatedGenomes_returns w hw m hm query fml hint ex _
    results⟩
  intro r h
  obtain ⟨pooled, hcount, rfl⟩ := findRelatedGenomes_eq_scoreLoop m query fml ex _ results r
    hfml (by omega) h
  have hpX : percentage (numMatches pooled gX.name) 2 = Dbl.val 100 := by
    rw [hcount, hX]; exact percentage_two_two
  have hpY : percentage (numMatches pooled gY.name) 2 = Dbl.val 50 := by
    rw [hcount, hY]; exact percentage_one_two
  have hg1 : Dbl.gt (Dbl.val 100) (Dbl.val 40) = true := by
    simp only [Dbl.gt, decide_eq_true_eq]; norm_num
  have hg2 : Dbl.gt (Dbl.val 50) (Dbl.val 40) = true := by
    simp only [Dbl.gt, decide_eq_true_eq]; norm_num
  have hb1 : insertBefore ⟨gY.name, Dbl.val 50⟩ ⟨gX.name, Dbl.val 100⟩ = false := by
    simp only [insertBefore, Dbl.gt, Dbl.eq, Bool.or_eq_false_iff, Bool.and_eq_false_iff,
      decide_eq_false_iff_not]
    constructor
    · norm_num
    · left; norm_num
  have hb2 : insertBefore ⟨gX.name, Dbl.val 100⟩ ⟨gY.name, Dbl.val 50⟩ = true := by
    simp only [insertBefore, Dbl.gt, Bool.or_eq_true, decide_eq_true_eq]
    left; norm_num
  rw [hN]
  rcases hlist with hl | hl
  · rw [hl]
    simp only [GenomeMatcherImpl.scoreLoop, hpX, hpY, hg1, hg2, if_true, insertMatch, hb1]
    simp
  · rw [hl]
    simp only [GenomeMatcherImpl.scoreLoop, hpX, hpY, hg1, hg2, if_true, insertMatch, hb2]
    simp

theorem spec_example_ranking_witness :
    (rankingExampleMatcher.m_genomeList =
        [⟨"X".toList, "ACGTGGGG".toList⟩, ⟨"Y".toList, "CCACGTCC".toList⟩] ∨
      rankingExampleMatcher.m_genomeList =
        [⟨"Y".toList, "CCACGTCC".toList⟩, ⟨"X".toList, "ACGTGGGG".toList⟩]) ∧
    ((rankingExampleMatcher.m_minSearchLength : Int) ≤ 4) ∧
    (Int.tdiv (Genome.mk "Q".toList "ACGTGGGGT".toList).length 4 = 2) ∧
    (windowHits rankingExampleMatcher ⟨"Q".toList, "ACGTGGGGT".toList⟩ 4 true
      (Genome.mk "X".toList "ACGTGGGG".toList).name = 2) ∧
    (windowHits rankingExampleMatcher ⟨"Q".toList, "ACGTGGGGT".toList⟩ 4 true
      (Genome.mk "Y".toList "CCACGTCC".toList).name = 1) ∧
    (rankingExampleMatcher.findRelatedGenomes ⟨"Q".toList, "ACGTGGGGT".toList⟩ 4 true
        (Dbl.val 40) [] =
      some (true, [⟨"X".toList, Dbl.val 100⟩, ⟨"Y".toList, Dbl.val 50⟩])) ∧
    ((true, [(⟨"X".toList, Dbl.val 100⟩ : GenomeMatch), ⟨"Y".toList, Dbl.val 50⟩]) =
      (true, [] ++ [⟨(Genome.mk "X".toList "ACGTGGGG".toList).name, Dbl.val 100⟩,
        ⟨(Genome.mk "Y".toList "CCACGTCC".toList).name, Dbl.val 50⟩])) :=
  ⟨by decide, by decide, by decide, by decide, by decide, by with_unfolding_all decide,
    (spec_example_ranking rankingExampleMatcher ⟨"Q".toList, "ACGTGGGGT".toList⟩ 4 true []
      ⟨"X".toList, "ACGTGGGG".toList⟩ ⟨"Y".toList, "CCACGTCC".toList⟩ (by decide) (by decide)
      (by decide) (by decide) (by decide)).1 _ (by with_unfolding_all decide)⟩

end CS32
namespace CS32

/-! ## Coverage percentages in double precision -/

theorem windowHits_le (m : GenomeMatcherImpl) (query : Genome) (fml : Int) (ex : Bool)
    (n : Str) : windowHits m query fml ex n ≤ (Int.tdiv query.length fml).toNat := by
  unfold windowHits
  have := List.length_filter_le (fun i =>
    match m.findGenomesWithThisDNA
        (slice query.m_sequence (i * fml.toNat) fml.toNat) fml ex [] with
    | some r => r.2.any (fun x => decide (x.genomeName = n))
    | none => false) (List.range (Int.tdiv query.length fml).toNat)
  rwa [List.length_range] at this

/-- C16 (as amended). `findRelatedGenomes` scores by window coverage, with the percentage
the source computes in `double`: for every matcher state (any genome list, any trie), when
`fragmentMatchLength ≥ windowSize` and
`windowCount = floor(query.length / fragmentMatchLength) ≥ 1`, a call that returns gives the
flag "the holder is not empty" and the previous results followed by a holder that is, up to
order, one entry for every stored sequence `g` with `p(g.name) > threshold`, the entry
having the name of `g` and `percentMatch = p(g.name)`.  Here
`p(n) = (double)c(n) / windowCount * 100` as the source evaluates it, each of the two
operations rounded to the nearest `double`, and `c(n) = windowHits … n` is the number of
windows on which `findGenomesWithThisDNA(window, fragmentMatchLength, exactMatchOnly)`
returns a match named `n`.  For every name, `p(n)` is finite, between 0 and 100, and within
`2 ^ (-45)` of the exact `100 * c(n) / windowCount`.  On the states reached with a window
size `w ≥ 1` the call does return, for every `fragmentMatchLength` an `int` holds. -/
theorem findRelatedGenomes_scores_rounded_coverage (m : GenomeMatcherImpl) (query : Genome)
    (fml : Int) (ex : Bool) (thr : Dbl) (results : List GenomeMatch)
    (hfml : (m.m_minSearchLength : Int) ≤ fml) (hN : 1 ≤ Int.tdiv query.length fml) :
    (∀ r, m.findRelatedGenomes query fml ex thr results = some r →
      ∃ holder, r = (!holder.isEmpty, results ++ holder) ∧
        holder.Perm ((m.m_genomeList.filter (fun g =>
            Dbl.gt (percentage (windowHits m query fml ex g.name)
              (Int.tdiv query.length fml)) thr)).map
          (fun g => ⟨g.name, percentage (windowHits m query fml ex g.name)
              (Int.tdiv query.length fml)⟩))) ∧
    (∀ n : Str, ∃ p : ℚ, percentage (windowHits m query fml ex n)
        (Int.tdiv query.length fml) = Dbl.val p ∧ 0 ≤ p ∧ p ≤ 100 ∧
      |p - 100 * (windowHits m query fml ex n : ℚ) /
        ((Int.tdiv query.length fml : Int) : ℚ)| ≤ 1 / 2 ^ 45) ∧
    (∀ w, 1 ≤ w → GenomeMatcherImpl.Reachable w m → fml ≤ 2147483647 →
      ∃ r, m.findRelatedGenomes query fml ex thr results = some r) := by
  refine ⟨?_, ?_, fun w hw hm hint => findRelatedGenomes_returns w hw m hm query fml hint ex
    thr results⟩
  · intro r h
    obtain ⟨pooled, hcount, hr⟩ :=
      findRelatedGenomes_eq_scoreLoop m query fml ex thr results r hfml hN h
    refine ⟨_, hr, ?_⟩
    have := scoreLoop_perm pooled (Int.tdiv query.length fml) thr m.m_genomeList []
    simp only [List.nil_append, hcount] at this
    exact this
  · intro n
    have hle := windowHits_le m query fml ex n
    obtain ⟨N, hNe⟩ : ∃ N : Nat, Int.tdiv query.length fml = (N : Int) :=
      ⟨(Int.tdiv query.length fml).toNat, (Int.toNat_of_nonneg (by omega)).symm⟩
    rw [hNe] at hle hN ⊢
    rw [Int.toNat_ofNat] at hle
    rw [Int.cast_natCast]
    exact percentage_near _ N (by omega) hle

theorem findRelatedGenomes_scores_rounded_coverage_witness :
    ((exampleMatcher.m_minSearchLength : Int) ≤ 4) ∧
    (1 ≤ Int.tdiv (Genome.mk "Q".toList "ACGTACGTTTACGTTAGG".toList).length 4) ∧
    (exampleMatcher.findRelatedGenomes ⟨"Q".toList, "ACGTACGTTTACGTTAGG".toList⟩ 4 false
        (Dbl.val 10) [⟨"Z".toList, Dbl.val 1⟩] =
      some (true, [⟨"Z".toList, Dbl.val 1⟩, ⟨"B".toList, Dbl.val 100⟩,
        ⟨"A".toList, Dbl.val 50⟩, ⟨"A".toList, Dbl.val 50⟩])) ∧
    ∃ holder, (true, [(⟨"Z".toList, Dbl.val 1⟩ : GenomeMatch), ⟨"B".toList, Dbl.val 100⟩,
        ⟨"A".toList, Dbl.val 50⟩, ⟨"A".toList, Dbl.val 50⟩]) =
        (!holder.isEmpty, [⟨"Z".toList, Dbl.val 1⟩] ++ holder) ∧
      holder.Perm ((exampleMatcher.m_genomeList.filter (fun g =>
          Dbl.gt (percentage (windowHits exampleMatcher
            ⟨"Q".toList, "ACGTACGTTTACGTTAGG".toList⟩ 4 false g.name)
            (Int.tdiv (Genome.mk "Q".toList "ACGTACGTTTACGTTAGG".toList).length 4))
            (Dbl.val 10))).map
        (fun g => ⟨g.name, percentage (windowHits exampleMatcher
            ⟨"Q".toList, "ACGTACGTTTACGTTAGG".toList⟩ 4 false g.name)
            (Int.tdiv (Genome.mk "Q".toList "ACGTACGTTTACGTTAGG".toList).length 4)⟩)) :=
  ⟨by decide, by decide, by with_unfolding_all decide,
    (findRelatedGenomes_scores_rounded_coverage exampleMatcher
      ⟨"Q".toList, "ACGTACGTTTACGTTAGG".toList⟩ 4 false (Dbl.val 10)
      [⟨"Z".toList, Dbl.val 1⟩] (by decide) (by decide)).1 _ (by with_unfolding_all decide)⟩

/-- The first rounding of the example: `11 / 20` in binary64. -/
theorem round_11_20 :
    Dbl.round ((11 : ℚ) / 20) = Dbl.val (2476979795053773 / 4503599627370496) := by
  have h := (Dbl.round_eq_magnitude ((11 : ℚ) / 20) 1 (by norm_num) (by norm_num)
    (by norm_num)).1
  have hn : ((11 : ℚ) / 20).num.natAbs = 11 := by norm_num
  have hd : ((11 : ℚ) / 20).den = 20 := by norm_num
  rw [h, hn, hd, roundMagnitude_of_shift 11 20 53 (by decide)]
  have hr : roundHalfEven (11 * 2 ^ 53) 20 = 4953959590107546 := by decide
  rw [hr]
  norm_num

/-- The second rounding of the example: the product with 100 in binary64. -/
theorem round_11_20_100 :
    Dbl.round ((2476979795053773 : ℚ) / 4503599627370496 * 100) =
      Dbl.val (55 + 1 / 2 ^ 47) := by
  have hq : (2476979795053773 : ℚ) / 4503599627370496 * 100 =
      61924494876344325 / 1125899906842624 := by norm_num
  rw [hq]
  have h := (Dbl.round_eq_magnitude ((61924494876344325 : ℚ) / 1125899906842624) 100
    (by norm_num) (by norm_num) (by norm_num)).1
  have hn : ((61924494876344325 : ℚ) / 1125899906842624).num.natAbs = 61924494876344325 := by
    norm_num
  have hd : ((61924494876344325 : ℚ) / 1125899906842624).den = 1125899906842624 := by
    norm_num
  rw [h, hn, hd, roundMagnitude_of_shift 61924494876344325 1125899906842624 47 (by decide)]
  have hr : roundHalfEven (61924494876344325 * 2 ^ 47) 1125899906842624 =
      7740561859543041 := by decide
  rw [hr]
  norm_num

/-- The percentage of 11 windows out of 20, as the source computes it. -/
theorem percentage_11_20 : percentage 11 20 = Dbl.val (55 + 1 / 2 ^ 47) := by
  have hne : ¬ (((20 : Int) : ℚ) = 0) := by norm_num
  simp only [percentage, Dbl.ofInt, Dbl.div, if_neg hne]
  have e1 : (((11 : Nat) : Int) : ℚ) / ((20 : Int) : ℚ) = (11 : ℚ) / 20 := by norm_num
  rw [e1, round_11_20]
  simp only [Dbl.mul]
  have e2 : (2476979795053773 : ℚ) / 4503599627370496 * ((100 : Int) : ℚ) =
      (2476979795053773 : ℚ) / 4503599627370496 * 100 := by norm_num
  rw [e2, round_11_20_100]

theorem roundingExampleMatcher_reachable :
    GenomeMatcherImpl.Reachable 1 roundingExampleMatcher :=
  addGenomes_reachable 1 10 [⟨"X".toList, "A".toList⟩] (GenomeMatcherImpl.construct 1)
    roundingExampleMatcher GenomeMatcherImpl.Reachable.construct rfl

/-- C16 (as stated) fails: on the matcher of window size 1 that holds the one sequence
`X = A`, the query of 20 windows of length 1 of which 11 are `A` has `c(X) = 11` and
`windowCount = 20`, so that `100 * c / windowCount` is 55, which is not above the threshold
55; yet the call appends an entry for `X`, and its `percentMatch` is not 55 but
`55 + 2 ^ (-47)`, the value of `(double)11 / 20 * 100` after its two roundings. -/
theorem findRelatedGenomes_scores_coverage_counterexample :
    GenomeMatcherImpl.Reachable 1 roundingExampleMatcher ∧
    roundingExampleMatcher.m_genomeList = [⟨"X".toList, "A".toList⟩] ∧
    Int.tdiv roundingExampleQuery.length 1 = 20 ∧
    windowHits roundingExampleMatcher roundingExampleQuery 1 true "X".toList = 11 ∧
    ¬ ((55 : ℚ) < 100 * 11 / 20) ∧
    roundingExampleMatcher.findRelatedGenomes roundingExampleQuery 1 true (Dbl.val 55) [] =
      some (true, [⟨"X".toList, Dbl.val (55 + 1 / 2 ^ 47)⟩]) := by
  have hhits : windowHits roundingExampleMatcher roundingExampleQuery 1 true "X".toList = 11 := by
    decide
  refine ⟨roundingExampleMatcher_reachable, by decide, by decide, hhits, by norm_num, ?_⟩
  obtain ⟨r, hr⟩ := findRelatedGenomes_returns 1 (le_refl _) roundingExampleMatcher
    roundingExampleMatcher_reachable roundingExampleQuery 1 (by norm_num) true (Dbl.val 55) []
  obtain ⟨pooled, hcount, hreq⟩ := findRelatedGenomes_eq_scoreLoop roundingExampleMatcher
    roundingExampleQuery 1 true (Dbl.val 55) [] r (by decide) (by decide) hr
  have hN : Int.tdiv roundingExampleQuery.length 1 = 20 := by decide
  have hl : roundingExampleMatcher.m_genomeList = [⟨"X".toList, "A".toList⟩] := by decide
  have hp : percentage (numMatches pooled (Genome.mk "X".toList "A".toList).name) 20 =
      Dbl.val (55 + 1 / 2 ^ 47) := by
    rw [hcount]
    show percentage (windowHits roundingExampleMatcher roundingExampleQuery 1 true
      "X".toList) 20 = _
    rw [hhits]
    exact percentage_11_20
  have hgt : Dbl.gt (Dbl.val (55 + 1 / 2 ^ 47)) (Dbl.val 55) = true := by
    simp only [Dbl.gt, decide_eq_true_eq]
    norm_num
  rw [hr, hreq, hN, hl]
  simp only [GenomeMatcherImpl.scoreLoop, hp, hgt, if_true, insertMatch]
  rfl

end CS32

namespace CS32

/-! ## load -/

theorem isValidName_iff (l : Str) : (isValidName l).1 = true ↔ IsNameLine l := by
  unfold isValidName IsNameLine keyFront
  cases l with
  | nil => simp
  | cons c rest =>
    by_cases hc : c = '>'
    · subst hc
      cases rest with
      | nil => simp
      | cons d rest => simp
    · simp [hc]

theorem isValidName_snd (l : Str) (h : IsNameLine l) :
    (isValidName l).2 = l.drop 1 ∧ l.drop 1 ≠ [] := by
  have hv := (isValidName_iff l).mpr h
  unfold isValidName at hv ⊢
  split at hv
  · simp at hv
  · rename_i hcond
    rw [if_neg hcond]
    refine ⟨rfl, ?_⟩
    intro h0
    have := congrArg List.length h0
    simp only [List.length_drop, List.length_nil] at this
    have := h.2
    omega

theorem isValidBase_iff (c : Char) : (isValidBase c).1 = true ↔ IsBase c := by
  unfold isValidBase IsBase
  by_cases hl : c = 'a' ∨ c = 'c' ∨ c = 't' ∨ c = 'g' ∨ c = 'n'
  · simp only [if_pos hl, decide_eq_true_eq]
    constructor
    · intro _
      rcases hl with h | h | h | h | h <;> simp [h]
    · intro _
      rcases hl with h | h | h | h | h <;> subst h <;> decide
  · simp only [if_neg hl, decide_eq_true_eq]
    constructor
    · rintro (h | h | h | h | h) <;> simp [h]
    · rintro (h | h | h | h | h | h | h | h | h | h)
      · exact Or.inl h
      · exact Or.inr (Or.inl h)
      · exact Or.inr (Or.inr (Or.inl h))
      · exact Or.inr (Or.inr (Or.inr (Or.inl h)))
      · exact Or.inr (Or.inr (Or.inr (Or.inr h)))
      · exact absurd (Or.inl h) hl
      · exact absurd (Or.inr (Or.inl h)) hl
      · exact absurd (Or.inr (Or.inr (Or.inl h))) hl
      · exact absurd (Or.inr (Or.inr (Or.inr (Or.inl h)))) hl
      · exact absurd (Or.inr (Or.inr (Or.inr (Or.inr h)))) hl

theorem isValidBase_snd (c : Char) (h : IsBase c) :
    (isValidBase c).2 = upperBase c ∧ IsUpperBase (upperBase c) := by
  unfold isValidBase upperBase IsUpperBase
  rcases h with h | h | h | h | h | h | h | h | h | h <;> subst h <;> decide

theorem validBasesLoop_iff (l : Str) :
    (validBasesLoop l = some (l.map upperBase) ∧ ∀ c ∈ l, IsBase c) ∨
      (validBasesLoop l = none ∧ ¬ ∀ c ∈ l, IsBase c) := by
  induction l with
  | nil => left; simp [validBasesLoop]
  | cons c rest ih =>
    by_cases hc : (isValidBase c).1 = true
    · have hb := (isValidBase_iff c).mp hc
      rcases ih with ⟨h1, h2⟩ | ⟨h1, h2⟩
      · left
        refine ⟨?_, ?_⟩
        · rw [validBasesLoop, if_pos hc, h1, (isValidBase_snd c hb).1]
          rfl
        · intro x hx
          rcases List.mem_cons.mp hx with rfl | hx
          · exact hb
          · exact h2 x hx
      · right
        refine ⟨by rw [validBasesLoop, if_pos hc, h1]; rfl, ?_⟩
        intro hall
        exact h2 (fun x hx => hall x (List.mem_cons_of_mem _ hx))
    · right
      refine ⟨by rw [validBasesLoop, if_neg hc], ?_⟩
      intro hall
      exact hc ((isValidBase_iff c).mpr (hall c (List.mem_cons_self _ _)))

theorem isValidSequence_iff (l : Str) : (isValidSequence l).1 = true ↔ IsSequenceLine l := by
  unfold isValidSequence IsSequenceLine
  by_cases hcond : l.isEmpty = true ∨ 80 < l.length
  · rw [if_pos hcond]
    simp only [Bool.false_eq_true, false_iff]
    rintro ⟨h1, h2, _⟩
    rcases hcond with h | h
    · have : l = [] := by simpa using h
      rw [this] at h1
      simp at h1
    · omega
  · rw [if_neg hcond]
    have hne : ¬ l.isEmpty = true := fun h => hcond (Or.inl h)
    have hlen : 1 ≤ l.length := by
      cases l with
      | nil => simp at hne
      | cons c rest => simp
    rcases validBasesLoop_iff l with ⟨h1, h2⟩ | ⟨h1, h2⟩
    · rw [h1]
      simp only [true_iff]
      exact ⟨hlen, by omega, h2⟩
    · rw [h1]
      simp only [Bool.false_eq_true, false_iff]
      rintro ⟨_, _, h3⟩
      exact h2 h3

theorem isValidSequence_snd (l : Str) (h : IsSequenceLine l) :
    (isValidSequence l).2 = l.map upperBase ∧ l.map upperBase ≠ [] ∧
      ∀ c ∈ l.map upperBase, IsUpperBase c := by
  have hne : l ≠ [] := by
    intro h0; rw [h0] at h; have := h.1; simp at this
  refine ⟨?_, by simpa using hne, ?_⟩
  · unfold isValidSequence
    have hcond : ¬ (l.isEmpty = true ∨ 80 < l.length) := by
      rintro (h1 | h1)
      · exact hne (by simpa using h1)
      · have := h.2.1; omega
    rw [if_neg hcond]
    rcases validBasesLoop_iff l with ⟨h1, _⟩ | ⟨_, h2⟩
    · rw [h1]
    · exact absurd h.2.2 h2
  · intro c hc
    obtain ⟨x, hx, rfl⟩ := List.mem_map.mp hc
    exact (isValidBase_snd x (h.2.2 x hx)).2

theorem not_sequenceLine_of_nameLine (l : Str) (h : IsNameLine l) : ¬ IsSequenceLine l := by
  intro hs
  cases l with
  | nil => simp [IsNameLine] at h
  | cons c rest =>
    have hc : c = '>' := by simpa [IsNameLine] using h.1
    have := hs.2.2 c (List.mem_cons_self _ _)
    rw [hc] at this
    revert this
    unfold IsBase
    decide

/-- When `load`'s loop ends in success. -/
theorem loadLoop_success_iff :
    ∀ (lines : List Str) (name sequence : Str) (genomes : List Genome), name ≠ [] →
      ((loadLoop name sequence genomes lines).1 = true ↔ LinesOk sequence.isEmpty lines) := by
  intro lines
  induction lines with
  | nil =>
    intro name sequence genomes hn
    have hne : ¬ name.isEmpty = true := by simpa using hn
    unfold loadLoop LinesOk
    by_cases hs : sequence.isEmpty = true
    · simp [hs]
    · simp [hne, hs]
  | cons l rest ih =>
    intro name sequence genomes hn
    by_cases hN : IsNameLine l
    · have hv := (isValidName_iff l).mpr hN
      rw [loadLoop, if_pos hv, LinesOk, if_pos hN]
      by_cases hs : sequence.isEmpty = true
      · rw [if_pos hs]; simp [hs]
      · rw [if_neg hs, ih _ _ _ ((isValidName_snd l hN).1 ▸ (isValidName_snd l hN).2)]
        simp [hs]
    · have hv : ¬ (isValidName l).1 = true := fun h => hN ((isValidName_iff l).mp h)
      rw [loadLoop, if_neg hv, LinesOk, if_neg hN]
      by_cases hS : IsSequenceLine l
      · have hvs := (isValidSequence_iff l).mpr hS
        obtain ⟨e1, e2, _⟩ := isValidSequence_snd l hS
        rw [if_pos hvs, ih _ _ _ hn]
        have : (sequence ++ (isValidSequence l).2).isEmpty = false := by
          rw [e1]
          cases hm : l.map upperBase with
          | nil => exact absurd hm e2
          | cons c r => cases sequence <;> rfl
        rw [this]
        simp [hS]
      · have hvs : ¬ (isValidSequence l).1 = true :=
          fun h => hS ((isValidSequence_iff l).mp h)
        rw [if_neg hvs]
        simp [hS]

end CS32

namespace CS32

theorem namesFollowed_cons (l : Str) (rest : List Str) :
    NamesFollowed (l :: rest) ↔
      ((IsNameLine l → 0 < rest.length ∧ IsSequenceLine (rest.getD 0 [])) ∧
        NamesFollowed rest) := by
  unfold NamesFollowed
  constructor
  · intro h
    refine ⟨?_, ?_⟩
    · intro hN
      have := h 0 (by simp) (by simpa using hN)
      simpa using this
    · intro i hi hN
      have := h (i + 1) (by simpa using hi) (by simpa using hN)
      simpa using this
  · rintro ⟨h0, hr⟩ i hi hN
    cases i with
    | zero =>
      have := h0 (by simpa using hN)
      simpa using this
    | succ i =>
      have := hr i (by simpa using hi) (by simpa using hN)
      simpa using this

/-- The lines `load` accepts after a name line, in the words of the specification. -/
theorem linesOk_iff :
    ∀ (lines : List Str) (b : Bool),
      LinesOk b lines ↔
        ((∀ l ∈ lines, IsNameLine l ∨ IsSequenceLine l) ∧
          (b = true → 0 < lines.length ∧ IsSequenceLine (lines.getD 0 [])) ∧
          NamesFollowed lines) := by
  intro lines
  induction lines with
  | nil =>
    intro b
    cases b <;> simp [LinesOk, NamesFollowed]
  | cons l rest ih =>
    intro b
    rw [namesFollowed_cons]
    by_cases hN : IsNameLine l
    · have hS := not_sequenceLine_of_nameLine l hN
      rw [LinesOk, if_pos hN, ih true]
      constructor
      · rintro ⟨hb, h1, h2, h3⟩
        refine ⟨?_, ?_, fun _ => h2 rfl, h3⟩
        · intro x hx
          rcases List.mem_cons.mp hx with rfl | hx
          · exact Or.inl hN
          · exact h1 x hx
        · intro hbt; rw [hb] at hbt; exact absurd hbt (by simp)
      · rintro ⟨h1, h2, h3, h4⟩
        refine ⟨?_, fun x hx => h1 x (List.mem_cons_of_mem _ hx), fun _ => h3 hN, h4⟩
        cases b with
        | false => rfl
        | true =>
          have := (h2 rfl).2
          simp only [List.getD_cons_zero] at this
          exact absurd this hS
    · rw [LinesOk, if_neg hN, ih false]
      constructor
      · rintro ⟨hS, h1, _, h3⟩
        refine ⟨?_, ?_, fun h => absurd h hN, h3⟩
        · intro x hx
          rcases List.mem_cons.mp hx with rfl | hx
          · exact Or.inr hS
          · exact h1 x hx
        · intro _
          exact ⟨by simp, by simpa using hS⟩
      · rintro ⟨h1, _, _, h4⟩
        have hl := h1 l (List.mem_cons_self _ _)
        refine ⟨hl.resolve_left hN, fun x hx => h1 x (List.mem_cons_of_mem _ hx), ?_, h4⟩
        intro h; exact absurd h (by simp)

/-- C25. `load` accepts exactly the well-formed inputs: for every list of lines and every
previous content of the collection, `load` returns `true` if and only if the list is not
empty, its first line is a name line (it starts with `>` and has at least one further
character), every other line is a name line or a sequence line (1 to 80 characters, each
one of A, C, T, G, N in either case), and every name line is immediately followed by a
sequence line. -/
theorem load_succeeds_iff_wellFormed (lines : List Str) (genomes : List Genome) :
    (load lines genomes).1 = true ↔ WellFormedInput lines := by
  unfold WellFormedInput
  cases lines with
  | nil => simp [load]
  | cons l rest =>
    change _ ↔ _ ∧ _ ∧ _ ∧ NamesFollowed (l :: rest)
    rw [namesFollowed_cons]
    simp only [load, List.headD_cons, List.tail_cons, ne_eq, not_false_eq_true, true_and,
      reduceCtorEq]
    by_cases hN : IsNameLine l
    · have hv := (isValidName_iff l).mpr hN
      rw [if_pos hv, loadLoop_success_iff rest _ [] genomes
        ((isValidName_snd l hN).1 ▸ (isValidName_snd l hN).2)]
      have he : ([] : Str).isEmpty = true := rfl
      rw [he, linesOk_iff rest true]
      constructor
      · rintro ⟨h1, h2, h3⟩
        exact ⟨hN, h1, fun _ => h2 rfl, h3⟩
      · rintro ⟨_, h1, h2, h3⟩
        exact ⟨h1, fun _ => h2 hN, h3⟩
    · have hv : ¬ (isValidName l).1 = true := fun h => hN ((isValidName_iff l).mp h)
      rw [if_neg hv]
      simp [hN]

end CS32

namespace CS32

/-- When `load` succeeds, in the terms of its loop. -/
theorem load_succeeds_iff_wellFormed_aux (lines : List Str) (genomes : List Genome) :
    (load lines genomes).1 = true ↔
      match lines with
      | [] => False
      | l :: rest => IsNameLine l ∧ LinesOk true rest := by
  cases lines with
  | nil => simp [load]
  | cons l rest =>
    simp only [load]
    by_cases hN : IsNameLine l
    · have hv := (isValidName_iff l).mpr hN
      rw [if_pos hv, loadLoop_success_iff rest _ [] genomes
        ((isValidName_snd l hN).1 ▸ (isValidName_snd l hN).2)]
      have he : ([] : Str).isEmpty = true := rfl
      rw [he]
      simp [hN]
    · have hv : ¬ (isValidName l).1 = true := fun h => hN ((isValidName_iff l).mp h)
      rw [if_neg hv]
      simp [hN]

/-- What a successful run of `load`'s loop leaves in the collection. -/
theorem loadLoop_records :
    ∀ (lines : List Str) (name sequence : Str) (genomes : List Genome),
      (loadLoop name sequence genomes lines).1 = true →
      (loadLoop name sequence genomes lines).2 =
        genomes ++ ⟨name, sequence ++ basesUntilName lines⟩ :: recordsOf lines := by
  intro lines
  induction lines with
  | nil =>
    intro name sequence genomes h
    unfold loadLoop at h ⊢
    split at h
    · simp at h
    · rename_i hc
      rw [if_neg hc]
      simp [basesUntilName, recordsOf]
  | cons l rest ih =>
    intro name sequence genomes h
    by_cases hN : IsNameLine l
    · have hv := (isValidName_iff l).mpr hN
      rw [loadLoop, if_pos hv] at h ⊢
      by_cases hs : sequence.isEmpty = true
      · rw [if_pos hs] at h; simp at h
      · rw [if_neg hs] at h ⊢
        rw [ih _ _ _ h, (isValidName_snd l hN).1]
        simp [basesUntilName, recordsOf, hN]
    · have hv : ¬ (isValidName l).1 = true := fun h => hN ((isValidName_iff l).mp h)
      rw [loadLoop, if_neg hv] at h ⊢
      by_cases hS : IsSequenceLine l
      · have hvs := (isValidSequence_iff l).mpr hS
        rw [if_pos hvs] at h ⊢
        rw [ih _ _ _ h, (isValidSequence_snd l hS).1]
        simp [basesUntilName, recordsOf, hN]
      · have hvs : ¬ (isValidSequence l).1 = true :=
          fun h => hS ((isValidSequence_iff l).mp h)
        rw [if_neg hvs] at h; simp at h

/-- The records of accepted lines have non-empty bases, all upper-case bases. -/
theorem linesOk_records :
    ∀ (lines : List Str) (b : Bool), LinesOk b lines →
      (∀ c ∈ basesUntilName lines, IsUpperBase c) ∧
        (b = true → basesUntilName lines ≠ []) ∧
        ∀ g ∈ recordsOf lines, g.m_sequence ≠ [] ∧ ∀ c ∈ g.m_sequence, IsUpperBase c := by
  intro lines
  induction lines with
  | nil =>
    intro b h
    simp only [LinesOk] at h
    subst h
    simp [basesUntilName, recordsOf]
  | cons l rest ih =>
    intro b h
    by_cases hN : IsNameLine l
    · rw [LinesOk, if_pos hN] at h
      obtain ⟨hb, hrest⟩ := h
      obtain ⟨i1, i2, i3⟩ := ih true hrest
      subst hb
      refine ⟨by simp [basesUntilName, hN], by simp, ?_⟩
      intro g hg
      simp only [recordsOf, if_pos hN, List.mem_cons] at hg
      rcases hg with rfl | hg
      · exact ⟨i2 rfl, i1⟩
      · exact i3 g hg
    · rw [LinesOk, if_neg hN] at h
      obtain ⟨hS, hrest⟩ := h
      obtain ⟨i1, _, i3⟩ := ih false hrest
      obtain ⟨_, e2, e3⟩ := isValidSequence_snd l hS
      refine ⟨?_, ?_, ?_⟩
      · intro c hc
        simp only [basesUntilName, if_neg hN, List.mem_append] at hc
        rcases hc with hc | hc
        · exact e3 c hc
        · exact i1 c hc
      · intro _
        simp only [basesUntilName, if_neg hN]
        intro h0
        exact e2 (List.append_eq_nil.mp h0).1
      · intro g hg
        simp only [recordsOf, if_neg hN] at hg
        exact i3 g hg

/-- C26. A successful `load` yields normalized records: for every input on which `load`
returns `true`, the collection is its previous content followed by the records of the
input, one per name line in input order, each named by its name line without the leading
`>` and holding the upper-cased sequence lines up to the next name line, concatenated in
order; every such record has non-empty bases that are all among the upper-case characters
A, C, T, G, N. -/
theorem load_success_records (lines : List Str) (genomes : List Genome)
    (h : (load lines genomes).1 = true) :
    (load lines genomes).2 = genomes ++ recordsOf lines ∧
      (recordsOf lines).length = nameLineCount lines ∧
      ∀ g ∈ recordsOf lines, g.m_sequence ≠ [] ∧ ∀ c ∈ g.m_sequence, IsUpperBase c := by
  have hcount : ∀ ls : List Str, (recordsOf ls).length = nameLineCount ls := by
    intro ls
    induction ls with
    | nil => rfl
    | cons l rest ih =>
      unfold nameLineCount at ih ⊢
      by_cases hN : IsNameLine l
      · simp [recordsOf, hN, List.filter_cons, ih]
      · simp [recordsOf, hN, List.filter_cons, ih]
  refine ⟨?_, hcount lines, ?_⟩
  · cases lines with
    | nil => simp [load] at h
    | cons l rest =>
      unfold load at h ⊢
      by_cases hv : (isValidName l).1 = true
      · have hN := (isValidName_iff l).mp hv
        simp only [if_pos hv] at h ⊢
        rw [loadLoop_records rest _ _ _ h, (isValidName_snd l hN).1]
        simp [recordsOf, hN]
      · simp only [if_neg hv] at h
        simp at h
  · have hwf := (load_succeeds_iff_wellFormed_aux lines genomes).mp h
    cases lines with
    | nil => simp [recordsOf]
    | cons l rest =>
      obtain ⟨hN, hok⟩ := hwf
      obtain ⟨i1, i2, i3⟩ := linesOk_records rest true hok
      intro g hg
      simp only [recordsOf, if_pos hN, List.mem_cons] at hg
      rcases hg with rfl | hg
      · exact ⟨i2 rfl, i1⟩
      · exact i3 g hg

end CS32

namespace CS32

theorem load_success_records_witness :
    ((load [">a".toList, "acgt".toList, "NNa".toList, ">b".toList, "GG".toList]
      [⟨"p".toList, "T".toList⟩]).1 = true) ∧
    ((load [">a".toList, "acgt".toList, "NNa".toList, ">b".toList, "GG".toList]
        [⟨"p".toList, "T".toList⟩]).2 =
      [⟨"p".toList, "T".toList⟩] ++
        recordsOf [">a".toList, "acgt".toList, "NNa".toList, ">b".toList, "GG".toList] ∧
      (recordsOf [">a".toList, "acgt".toList, "NNa".toList, ">b".toList,
        "GG".toList]).length =
        nameLineCount [">a".toList, "acgt".toList, "NNa".toList, ">b".toList, "GG".toList] ∧
      ∀ g ∈ recordsOf [">a".toList, "acgt".toList, "NNa".toList, ">b".toList, "GG".toList],
        g.m_sequence ≠ [] ∧ ∀ c ∈ g.m_sequence, IsUpperBase c) :=
  ⟨by decide, load_success_records _ _ (by decide)⟩

/-- What a failing run of `load`'s loop leaves in the collection: the previous content
followed by records that were closed by a name line, a prefix of the records of the input
with at most as many entries as there are name lines left. -/
theorem loadLoop_failure :
    ∀ (lines : List Str) (name sequence : Str) (genomes : List Genome),
      (loadLoop name sequence genomes lines).1 = false →
      ∃ appended, (loadLoop name sequence genomes lines).2 = genomes ++ appended ∧
        appended <+: (⟨name, sequence ++ basesUntilName lines⟩ :: recordsOf lines) ∧
        appended.length ≤ nameLineCount lines := by
  intro lines
  induction lines with
  | nil =>
    intro name sequence genomes h
    unfold loadLoop at h ⊢
    split at h
    · rename_i hc
      rw [if_pos hc]
      exact ⟨[], by simp, List.nil_prefix, Nat.zero_le _⟩
    · simp at h
  | cons l rest ih =>
    intro name sequence genomes h
    by_cases hN : IsNameLine l
    · have hv := (isValidName_iff l).mpr hN
      rw [loadLoop, if_pos hv] at h ⊢
      by_cases hs : sequence.isEmpty = true
      · rw [if_pos hs]
        exact ⟨[], by simp, List.nil_prefix, Nat.zero_le _⟩
      · rw [if_neg hs] at h ⊢
        obtain ⟨app, h1, h2, h3⟩ := ih _ _ _ h
        refine ⟨⟨name, sequence⟩ :: app, by rw [h1]; simp, ?_, ?_⟩
        · rw [(isValidName_snd l hN).1] at h2
          simp only [basesUntilName, recordsOf, if_pos hN, List.append_nil]
          simp only [List.nil_append] at h2
          exact (List.prefix_cons_inj _).mpr h2
        · simp only [nameLineCount, List.filter_cons, hN, decide_True, if_true,
            List.length_cons] at h3 ⊢
          omega
    · have hv : ¬ (isValidName l).1 = true := fun h => hN ((isValidName_iff l).mp h)
      rw [loadLoop, if_neg hv] at h ⊢
      by_cases hS : IsSequenceLine l
      · have hvs := (isValidSequence_iff l).mpr hS
        rw [if_pos hvs] at h ⊢
        obtain ⟨app, h1, h2, h3⟩ := ih _ _ _ h
        refine ⟨app, h1, ?_, ?_⟩
        · rw [(isValidSequence_snd l hS).1] at h2
          simpa [basesUntilName, recordsOf, hN] using h2
        · simpa [nameLineCount, List.filter_cons, hN] using h3
      · have hvs : ¬ (isValidSequence l).1 = true :=
          fun h => hS ((isValidSequence_iff l).mp h)
        rw [if_neg hvs]
        exact ⟨[], by simp, List.nil_prefix, Nat.zero_le _⟩

/-- What a failing `load` leaves in the collection. -/
theorem load_failure (lines : List Str) (genomes : List Genome)
    (h : (load lines genomes).1 = false) :
    ∃ appended, (load lines genomes).2 = genomes ++ appended ∧
      appended <+: recordsOf lines ∧ appended.length ≤ nameLineCount lines - 1 := by
  cases lines with
  | nil => exact ⟨[], by simp [load], List.nil_prefix, Nat.zero_le _⟩
  | cons l rest =>
    unfold load at h ⊢
    by_cases hv : (isValidName l).1 = true
    · have hN := (isValidName_iff l).mp hv
      simp only [if_pos hv] at h ⊢
      obtain ⟨app, h1, h2, h3⟩ := loadLoop_failure rest _ _ _ h
      refine ⟨app, h1, ?_, ?_⟩
      · rw [(isValidName_snd l hN).1] at h2
        simpa [recordsOf, hN] using h2
      · simp only [nameLineCount, List.filter_cons, hN, decide_True, if_true,
          List.length_cons]
        unfold nameLineCount at h3
        omega
    · simp only [if_neg hv]
      exact ⟨[], by simp, List.nil_prefix, Nat.zero_le _⟩

theorem acceptedLines_initial :
    ∀ (lines : List Str) (b : Bool), acceptedLines b lines <+: lines := by
  intro lines
  induction lines with
  | nil => intro b; exact List.nil_prefix
  | cons l rest ih =>
    intro b
    rw [acceptedLines]
    split
    · split
      · exact List.nil_prefix
      · exact (List.prefix_cons_inj l).mpr (ih true)
    · split
      · exact (List.prefix_cons_inj l).mpr (ih false)
      · exact List.nil_prefix

theorem dropLast_cons_cons {α : Type} (a b : α) (l : List α) :
    (a :: b :: l).dropLast = a :: (b :: l).dropLast := rfl

/-- What a failing run of `load`'s loop leaves in the collection: the previous content
followed by the record being read and the records of the lines read before the violation,
without the last of them (the one still open at the violation). -/
theorem loadLoop_failure_exact :
    ∀ (lines : List Str) (name sequence : Str) (genomes : List Genome),
      (loadLoop name sequence genomes lines).1 = false →
      (loadLoop name sequence genomes lines).2 =
        genomes ++ (⟨name, sequence ++ basesUntilName (acceptedLines sequence.isEmpty lines)⟩ ::
          recordsOf (acceptedLines sequence.isEmpty lines)).dropLast := by
  intro lines
  induction lines with
  | nil =>
    intro name sequence genomes h
    unfold loadLoop at h ⊢
    split at h
    · rename_i hc
      rw [if_pos hc]
      simp [acceptedLines, recordsOf]
    · simp at h
  | cons l rest ih =>
    intro name sequence genomes h
    by_cases hN : IsNameLine l
    · have hv := (isValidName_iff l).mpr hN
      rw [loadLoop, if_pos hv] at h ⊢
      by_cases hs : sequence.isEmpty = true
      · rw [if_pos hs]
        simp [acceptedLines, hN, hs, recordsOf]
      · rw [if_neg hs] at h ⊢
        have hs' : sequence.isEmpty = false := by simpa using hs
        rw [ih _ _ _ h, (isValidName_snd l hN).1, hs']
        have he : ([] : Str).isEmpty = true := rfl
        rw [he]
        simp only [acceptedLines, if_pos hN, Bool.false_eq_true, if_false, basesUntilName,
          recordsOf, List.append_nil, List.nil_append, dropLast_cons_cons]
        simp
    · have hv : ¬ (isValidName l).1 = true := fun h => hN ((isValidName_iff l).mp h)
      rw [loadLoop, if_neg hv] at h ⊢
      by_cases hS : IsSequenceLine l
      · have hvs := (isValidSequence_iff l).mpr hS
        rw [if_pos hvs] at h ⊢
        obtain ⟨e1, e2, _⟩ := isValidSequence_snd l hS
        have hne : (sequence ++ (isValidSequence l).2).isEmpty = false := by
          rw [e1]
          cases hm : l.map upperBase with
          | nil => exact absurd hm e2
          | cons c r => cases sequence <;> rfl
        rw [ih _ _ _ h, hne, e1]
        simp only [acceptedLines, if_neg hN, if_pos hS, basesUntilName, recordsOf,
          List.append_assoc]
      · have hvs : ¬ (isValidSequence l).1 = true :=
          fun h => hS ((isValidSequence_iff l).mp h)
        rw [if_neg hvs]
        simp [acceptedLines, hN, hS, recordsOf]

/-- What a failing `load` leaves in the collection, exactly. -/
theorem load_failure_exact (lines : List Str) (genomes : List Genome)
    (h : (load lines genomes).1 = false) :
    (load lines genomes).2 = genomes ++ (recordsOf (linesBeforeViolation lines)).dropLast := by
  cases lines with
  | nil => simp [load, linesBeforeViolation, recordsOf]
  | cons l rest =>
    unfold load at h ⊢
    by_cases hv : (isValidName l).1 = true
    · have hN := (isValidName_iff l).mp hv
      simp only [if_pos hv] at h ⊢
      rw [loadLoop_failure_exact rest _ _ _ h, (isValidName_snd l hN).1]
      have he : ([] : Str).isEmpty = true := rfl
      rw [he]
      simp [linesBeforeViolation, hN, recordsOf]
    · have hN : ¬ IsNameLine l := fun h => hv ((isValidName_iff l).mpr h)
      simp only [if_neg hv]
      simp [linesBeforeViolation, hN, recordsOf]

theorem recordsOf_length (ls : List Str) : (recordsOf ls).length = nameLineCount ls := by
  induction ls with
  | nil => rfl
  | cons l rest ih =>
    unfold nameLineCount at ih ⊢
    by_cases hN : IsNameLine l
    · simp [recordsOf, hN, List.filter_cons, ih]
    · simp [recordsOf, hN, List.filter_cons, ih]

/-- C24 (as amended). On every input on which `load` fails, the collection is its previous
content followed by exactly the records that were closed before the violation: with `P` the
lines read before the first violation (`linesBeforeViolation`: the violation is a first line that
is not a name line, a line that is neither a name line nor a sequence line, a name line
directly after a name line, or the end of the input directly after a name line, where `P`
is the whole input), the appended records are the records of `P` without the last one, the
record still open at the violation.  `P` is a prefix of the input and the appended records
are a prefix of the records of the input.  The collection is left as it was if and only if
`P` has at most one name line. -/
theorem load_failure_appends_exactly_closed_records (lines : List Str)
    (genomes : List Genome) (h : (load lines genomes).1 = false) :
    (load lines genomes).2 = genomes ++ (recordsOf (linesBeforeViolation lines)).dropLast ∧
    linesBeforeViolation lines <+: lines ∧
    (recordsOf (linesBeforeViolation lines)).dropLast <+: recordsOf lines ∧
    ((load lines genomes).2 = genomes ↔ nameLineCount (linesBeforeViolation lines) ≤ 1) := by
  have hex := load_failure_exact lines genomes h
  refine ⟨hex, ?_, ?_, ?_⟩
  · cases lines with
    | nil => exact List.nil_prefix
    | cons l rest =>
      by_cases hN : IsNameLine l
      · simp only [linesBeforeViolation, if_pos hN]
        exact (List.prefix_cons_inj l).mpr (acceptedLines_initial rest true)
      · simp only [linesBeforeViolation, if_neg hN]
        exact List.nil_prefix
  · obtain ⟨app, h1, h2, _⟩ := load_failure lines genomes h
    rw [hex] at h1
    rw [List.append_cancel_left h1]
    exact h2
  · rw [hex, ← recordsOf_length]
    constructor
    · intro heq
      have h0 : (recordsOf (linesBeforeViolation lines)).dropLast = [] := by
        have : genomes ++ (recordsOf (linesBeforeViolation lines)).dropLast = genomes ++ [] := by
          rw [List.append_nil]; exact heq
        exact List.append_cancel_left this
      have := congrArg List.length h0
      simp only [List.length_dropLast, List.length_nil] at this
      omega
    · intro hle
      have h0 : (recordsOf (linesBeforeViolation lines)).dropLast = [] := by
        apply List.eq_nil_of_length_eq_zero
        rw [List.length_dropLast]
        omega
      rw [h0, List.append_nil]

theorem load_failure_appends_exactly_closed_records_witness :
    ((load [">a".toList, "ACGT".toList, ">b".toList, "GG".toList, ">c".toList, ">d".toList,
        "TT".toList] [⟨"p".toList, "T".toList⟩]).1 = false) ∧
    ((load [">a".toList, "ACGT".toList, ">b".toList, "GG".toList, ">c".toList, ">d".toList,
        "TT".toList] [⟨"p".toList, "T".toList⟩]).2 =
      [⟨"p".toList, "T".toList⟩] ++
        (recordsOf (linesBeforeViolation [">a".toList, "ACGT".toList, ">b".toList, "GG".toList,
          ">c".toList, ">d".toList, "TT".toList])).dropLast ∧
    linesBeforeViolation [">a".toList, "ACGT".toList, ">b".toList, "GG".toList, ">c".toList,
        ">d".toList, "TT".toList] <+:
      [">a".toList, "ACGT".toList, ">b".toList, "GG".toList, ">c".toList, ">d".toList,
        "TT".toList] ∧
    (recordsOf (linesBeforeViolation [">a".toList, "ACGT".toList, ">b".toList, "GG".toList,
        ">c".toList, ">d".toList, "TT".toList])).dropLast <+:
      recordsOf [">a".toList, "ACGT".toList, ">b".toList, "GG".toList, ">c".toList,
        ">d".toList, "TT".toList] ∧
    ((load [">a".toList, "ACGT".toList, ">b".toList, "GG".toList, ">c".toList, ">d".toList,
        "TT".toList] [⟨"p".toList, "T".toList⟩]).2 = [⟨"p".toList, "T".toList⟩] ↔
      nameLineCount (linesBeforeViolation [">a".toList, "ACGT".toList, ">b".toList, "GG".toList,
        ">c".toList, ">d".toList, "TT".toList]) ≤ 1)) :=
  ⟨by decide, load_failure_appends_exactly_closed_records _ _ (by decide)⟩

/-- Two failing inputs: a name line directly after a name line, after two closed records
(both are appended), and a bad line in the first record of an input with four name lines
(nothing is appended). -/
theorem load_failure_examples :
    load [">a".toList, "ACGT".toList, ">b".toList, "GG".toList, ">c".toList, ">d".toList,
        "TT".toList] [] = (false, [⟨"a".toList, "ACGT".toList⟩, ⟨"b".toList, "GG".toList⟩]) ∧
    linesBeforeViolation [">a".toList, "ACGT".toList, ">b".toList, "GG".toList, ">c".toList,
        ">d".toList, "TT".toList] =
      [">a".toList, "ACGT".toList, ">b".toList, "GG".toList, ">c".toList] ∧
    load [">a".toList, "ACGT".toList, "XYZ".toList, ">b".toList, "GG".toList, ">c".toList,
        "TT".toList, ">d".toList, "AA".toList] [] = (false, []) := by
  decide

/-- C24 (as stated) fails: on the lines `>a`, `ACGT`, `>b`, `XYZ` the load fails at the
fourth line, after the record `a` was pushed at the third, so the collection, empty before
the call, holds that record after it. -/
theorem load_failure_counterexample :
    load [">a".toList, "ACGT".toList, ">b".toList, "XYZ".toList] [] =
      (false, [⟨"a".toList, "ACGT".toList⟩]) ∧
    (load [">a".toList, "ACGT".toList, ">b".toList, "XYZ".toList] []).2 ≠ [] := by
  decide

end CS32

namespace CS32

/-! ## Invariants of the matcher state, reset, and failed extraction -/

/-- The values below the root of a trie built by inserts, for every key (the empty one
included). -/
theorem findNode_foldl_insert_perm {V : Type} (kvs : List (Str × V)) (q : Str) (ex : Bool) :
    ∀ t : Trie V,
      (findNode (kvs.foldl (fun t kv => t.insert kv.1 kv.2) t).m_root q ex).Perm
        (findNode t.m_root q ex ++
          (kvs.filter (fun kv => keyMatch kv.1 q ex)).map Prod.snd) := by
  induction kvs with
  | nil => intro t; simp
  | cons kv rest ih =>
    intro t
    simp only [List.foldl_cons]
    refine (ih (t.insert kv.1 kv.2)).trans ?_
    have h1 := findNode_insertNode_perm kv.1 kv.2 t.m_root q ex
    refine ((h1.append_right _).trans ?_)
    rw [List.append_assoc]
    apply List.Perm.append_left
    by_cases hm : keyMatch kv.1 q ex = true
    · simp [List.filter_cons, hm]
    · simp [List.filter_cons, hm]

/-- The values stored under a key in a trie built by inserts are the values inserted under
that key. -/
theorem mem_storedUnder_ofInserts {V : Type} (kvs : List (Str × V)) (k : Str) (v : V) :
    v ∈ (Trie.ofInserts kvs).storedUnder k ↔ (k, v) ∈ kvs := by
  unfold Trie.storedUnder Trie.ofInserts
  rw [(findNode_foldl_insert_perm kvs k true Trie.empty).mem_iff]
  have hempty : findNode (Trie.empty : Trie V).m_root k true = [] := by
    cases k <;> simp [Trie.empty, findNode, Node.vals, Node.childs]
  rw [hempty, List.nil_append]
  simp only [List.mem_map, List.mem_filter, keyMatch_true_iff]
  constructor
  · rintro ⟨⟨k', v'⟩, ⟨hmem, hk⟩, hv⟩
    simp only at hk hv
    subst hk; subst hv
    exact hmem
  · intro h
    exact ⟨(k, v), ⟨h, rfl⟩, rfl⟩

/-- The entries of the loop of `addGenome` are made for loop values up to the bound. -/
theorem addGenomeLoop_entries_le (g : Genome) (w idx bound : Nat) :
    ∀ (fuel i : Nat) (t t' : Trie SeqFrag),
      GenomeMatcherImpl.addGenomeLoop g w idx bound fuel i t = some t' →
      ∃ es : List (Str × SeqFrag),
        t' = es.foldl (fun t kv => t.insert kv.1 kv.2) t ∧
        ∀ e ∈ es, ∃ j, j ≤ bound ∧ e = GenomeMatcherImpl.addGenomeEntry g w idx j := by
  intro fuel
  induction fuel with
  | zero => intro i t t' h; simp [GenomeMatcherImpl.addGenomeLoop] at h
  | succ fuel ih =>
    intro i t t' h
    by_cases hi : i ≤ bound
    · rw [GenomeMatcherImpl.addGenomeLoop, if_pos hi] at h
      obtain ⟨es, h1, h2⟩ := ih _ _ _ h
      refine ⟨GenomeMatcherImpl.addGenomeEntry g w idx i :: es, ?_, ?_⟩
      · rw [h1]; rfl
      · intro e he
        rcases List.mem_cons.mp he with rfl | he
        · exact ⟨i, hi, rfl⟩
        · exact h2 e he
    · rw [GenomeMatcherImpl.addGenomeLoop, if_neg hi] at h
      simp only [Option.some.injEq] at h
      subst h
      exact ⟨[], rfl, by simp⟩

/-- On the states made from sequences at least as long as the window, every trie entry is a
window of a stored sequence with its index and offset. -/
theorem reachable_anchors (w : Nat) (m : GenomeMatcherImpl)
    (hm : GenomeMatcherImpl.Reachable w m) :
    (∀ g ∈ m.m_genomeList, w ≤ g.m_sequence.length) →
    ∃ kvs, m.m_seqFragTrie = Trie.ofInserts kvs ∧
      ∀ kv ∈ kvs, ∃ (g : Genome) (p : Nat), m.m_genomeList[kv.2.genomeIndex]? = some g ∧
        kv.2.position = (p : Int) ∧ p + w ≤ g.m_sequence.length ∧
        kv.1 = slice g.m_sequence p w := by
  induction hm with
  | construct => intro _; exact ⟨[], rfl, by simp⟩
  | @addGenome m m' g fuel hreach hadd ih =>
    intro hlen
    have hw : m.m_minSearchLength = w := (reachable_inv w m hreach).choose_spec.window
    unfold GenomeMatcherImpl.addGenome at hadd
    simp only at hadd
    split at hadd
    · exact absurd hadd (by simp)
    · rename_i t ht
      simp only [Option.some.injEq] at hadd
      subst hadd
      simp only at hlen ⊢
      obtain ⟨kvs, hk1, hk2⟩ := ih (fun x hx => hlen x (List.mem_append_left _ hx))
      have hg : w ≤ g.m_sequence.length := hlen g (by simp)
      obtain ⟨es, h1, h2⟩ := addGenomeLoop_entries_le _ _ _ _ _ _ _ _ ht
      have hidx : (m.m_genomeList ++ [g]).length - 1 = m.m_genomeList.length := by simp
      rw [hidx, hw] at h2
      refine ⟨kvs ++ es, by simp only [h1, hk1, Trie.ofInserts, List.foldl_append], ?_⟩
      intro kv hkv
      rcases List.mem_append.mp hkv with hkv | hkv
      · obtain ⟨g', p, e1, e2, e3, e4⟩ := hk2 kv hkv
        refine ⟨g', p, ?_, e2, e3, e4⟩
        have hlt : kv.2.genomeIndex < m.m_genomeList.length := by
          by_contra hge
          rw [List.getElem?_eq_none (by omega)] at e1
          exact absurd e1 (by simp)
        simp only [List.getElem?_append_left hlt]
        exact e1
      · obtain ⟨j, hj, rfl⟩ := h2 kv hkv
        have hb : sizeT (g.length - (w : Int)) ≤ g.m_sequence.length - w := by
          have h3 : g.length - (w : Int) = ((g.m_sequence.length - w : Nat) : Int) := by
            unfold Genome.length; omega
          rw [h3]
          exact sizeT_natCast_le _
        have hj' : j + w ≤ g.m_sequence.length := by omega
        refine ⟨g, j, by simp [GenomeMatcherImpl.addGenomeEntry], rfl, hj', ?_⟩
        simp only [GenomeMatcherImpl.addGenomeEntry, extract_inside g j w hj']

end CS32

namespace CS32

/-- C27. Anchor validity is an invariant of the matcher: in every state reached from the
constructed matcher by `addGenome` calls in which every stored sequence has length at least
`windowSize`, every payload `{sequenceIndex, position}` stored in the trie under a key `k`
has `sequenceIndex` below the size of the collection, `0 ≤ position ≤ length − windowSize`
for the sequence of that index, and `k = sequence[position : position + windowSize]`. -/
theorem anchors_are_valid (w : Nat) (m : GenomeMatcherImpl)
    (hm : GenomeMatcherImpl.Reachable w m)
    (hlen : ∀ g ∈ m.m_genomeList, w ≤ g.m_sequence.length) (k : Str) (sf : SeqFrag)
    (h : sf ∈ m.m_seqFragTrie.storedUnder k) :
    sf.genomeIndex < m.m_genomeList.length ∧
      ∃ g, m.m_genomeList[sf.genomeIndex]? = some g ∧
        0 ≤ sf.position ∧ sf.position ≤ g.length - (w : Int) ∧
        k = slice g.m_sequence sf.position.toNat w := by
  obtain ⟨kvs, h1, h2⟩ := reachable_anchors w m hm hlen
  rw [h1, mem_storedUnder_ofInserts] at h
  obtain ⟨g, p, e1, e2, e3, e4⟩ := h2 (k, sf) h
  simp only at e1 e2 e4
  refine ⟨?_, g, e1, by omega, ?_, ?_⟩
  · by_contra hge
    rw [List.getElem?_eq_none (by omega)] at e1
    exact absurd e1 (by simp)
  · unfold Genome.length; omega
  · rw [e2, Int.toNat_ofNat]; exact e4

theorem anchors_are_valid_witness :
    (∀ g ∈ exampleMatcher.m_genomeList, 4 ≤ g.m_sequence.length) ∧
    ((⟨1, 2⟩ : SeqFrag) ∈ exampleMatcher.m_seqFragTrie.storedUnder "ACGT".toList) ∧
    ((⟨1, 2⟩ : SeqFrag).genomeIndex < exampleMatcher.m_genomeList.length ∧
      ∃ g, exampleMatcher.m_genomeList[(⟨1, 2⟩ : SeqFrag).genomeIndex]? = some g ∧
        0 ≤ (⟨1, 2⟩ : SeqFrag).position ∧
        (⟨1, 2⟩ : SeqFrag).position ≤ g.length - ((4 : Nat) : Int) ∧
        "ACGT".toList = slice g.m_sequence (⟨1, 2⟩ : SeqFrag).position.toNat 4) :=
  ⟨by decide, by decide,
    anchors_are_valid 4 exampleMatcher exampleMatcher_reachable (by decide) "ACGT".toList
      ⟨1, 2⟩ (by decide)⟩

/-- What a returning `addGenome` does to the state. -/
theorem addGenome_some (m m' : GenomeMatcherImpl) (S : Genome) (fuel : Nat)
    (h : m.addGenome S fuel = some m') :
    m'.m_minSearchLength = m.m_minSearchLength ∧
      m'.m_genomeList = m.m_genomeList ++ [S] ∧
      ∃ es : List (Str × SeqFrag),
        m'.m_seqFragTrie = es.foldl (fun t kv => t.insert kv.1 kv.2) m.m_seqFragTrie := by
  unfold GenomeMatcherImpl.addGenome at h
  simp only at h
  split at h
  · exact absurd h (by simp)
  · rename_i t ht
    simp only [Option.some.injEq] at h
    subst h
    obtain ⟨es, h1, _⟩ := addGenomeLoop_entries_le _ _ _ _ _ _ _ _ ht
    exact ⟨rfl, rfl, es, h1⟩

/-- C28. State is add-only: for every matcher state (any genome list, any trie) and sequence
`S` with `windowSize ≤ S.length` (a length an `int` holds), `addGenome(S)` returns when
given fuel for `S.length − windowSize + 2` loop tests; and whenever it returns, every
previously added sequence is at the same index with the same name and bases, the window
size is unchanged, and for every key and exactness flag the lookup result before the call
is a sub-multiset of the lookup result after it (the lookup after the call returns for
every non-empty key). -/
theorem addGenome_add_only (m : GenomeMatcherImpl) (S : Genome)
    (hlen : m.m_minSearchLength ≤ S.m_sequence.length)
    (hint : S.m_sequence.length ≤ 2147483647) :
    (∃ m', m.addGenome S (S.m_sequence.length - m.m_minSearchLength + 2) = some m') ∧
    ∀ (fuel : Nat) (m' : GenomeMatcherImpl), m.addGenome S fuel = some m' →
      m'.m_minSearchLength = m.m_minSearchLength ∧
      (∀ (i : Nat) (g : Genome), m.m_genomeList[i]? = some g → m'.m_genomeList[i]? = some g) ∧
      ∀ key ex l, m.m_seqFragTrie.find key ex = some l →
        (∀ l', m'.m_seqFragTrie.find key ex = some l' → l.Subperm l') ∧
        (key ≠ [] → ∃ l', m'.m_seqFragTrie.find key ex = some l') := by
  refine ⟨⟨_, addGenome_eq_of_fuel m S hlen hint _ (le_refl _)⟩, ?_⟩
  intro fuel m' h
  obtain ⟨h1, h2, es, h3⟩ := addGenome_some m m' S fuel h
  refine ⟨h1, ?_, ?_⟩
  · intro i g hg
    have hlt : i < m.m_genomeList.length := by
      by_contra hge
      rw [List.getElem?_eq_none (by omega)] at hg
      exact absurd hg (by simp)
    rw [h2, List.getElem?_append_left hlt]
    exact hg
  · intro key ex l hl
    cases key with
    | nil =>
      have hnil : l = [] := findLoop_nil ex _ _ hl
      subst hnil
      exact ⟨fun l' _ => List.nil_subperm, fun hne => absurd rfl hne⟩
    | cons d q =>
      rw [find_cons] at hl
      simp only [Option.some.injEq] at hl
      have hp := foldl_insert_perm es d q ex m.m_seqFragTrie
      rw [← h3, hl] at hp
      refine ⟨?_, fun _ => ⟨_, find_cons _ d q ex⟩⟩
      intro l' hl'
      rw [find_cons] at hl'
      simp only [Option.some.injEq] at hl'
      rw [hl'] at hp
      exact ((List.sublist_append_left l _).subperm).trans hp.symm.subperm

theorem addGenome_add_only_witness :
    (exampleMatcher.m_minSearchLength ≤
      (Genome.mk "C".toList "ACGTT".toList).m_sequence.length) ∧
    ((Genome.mk "C".toList "ACGTT".toList).m_sequence.length ≤ 2147483647) ∧
    ((∃ m', exampleMatcher.addGenome ⟨"C".toList, "ACGTT".toList⟩
        ((Genome.mk "C".toList "ACGTT".toList).m_sequence.length -
          exampleMatcher.m_minSearchLength + 2) = some m') ∧
    ∀ (fuel : Nat) (m' : GenomeMatcherImpl), exampleMatcher.addGenome ⟨"C".toList, "ACGTT".toList⟩ fuel = some m' →
      m'.m_minSearchLength = exampleMatcher.m_minSearchLength ∧
      (∀ (i : Nat) (g : Genome), exampleMatcher.m_genomeList[i]? = some g → m'.m_genomeList[i]? = some g) ∧
      ∀ key ex l, exampleMatcher.m_seqFragTrie.find key ex = some l →
        (∀ l', m'.m_seqFragTrie.find key ex = some l' → l.Subperm l') ∧
        (key ≠ [] → ∃ l', m'.m_seqFragTrie.find key ex = some l')) :=
  ⟨by decide, by decide,
    addGenome_add_only exampleMatcher ⟨"C".toList, "ACGTT".toList⟩ (by decide) (by decide)⟩

/-- C29. Trie reset reinitializes to empty: for every trie state, after `reset` the call
`find(q, exactMatchOnly)` returns the empty collection for every key `q` and both flag
values, and every sequence of inserts followed by a `find` returns what the same inserts
and `find` return on a freshly constructed trie. -/
theorem reset_gives_empty_trie {V : Type} (t : Trie V) :
    (∀ (q : Str) (ex : Bool), t.reset.find q ex = some []) ∧
    (∀ (kvs : List (Str × V)) (q : Str) (ex : Bool),
      (kvs.foldl (fun t kv => t.insert kv.1 kv.2) t.reset).find q ex =
        (kvs.foldl (fun t kv => t.insert kv.1 kv.2) Trie.empty).find q ex) := by
  refine ⟨?_, fun _ _ _ => rfl⟩
  intro q ex
  cases q with
  | nil => rfl
  | cons d q => rw [find_cons]; rfl

/-- C30. A failed `extract` leaves the caller's output untouched: for every sequence,
position, length and prior value of the output string, if `extract` returns `false` the
output string holds its prior value. -/
theorem extract_failure_keeps_output (g : Genome) (position length : Int) (fragment : Str)
    (h : (g.extract position length fragment).1 = false) :
    (g.extract position length fragment).2 = fragment := by
  unfold Genome.extract at h ⊢
  by_cases he : g.m_sequence.isEmpty = true
  · rw [if_pos he]
  · rw [if_neg he] at h ⊢
    cases hl : Genome.extractLoop g.m_sequence length.toNat position [] with
    | none => rfl
    | some temp => rw [hl] at h; simp at h

theorem extract_failure_keeps_output_witness :
    (((Genome.mk "G".toList "ACGTTGCA".toList).extract 6 3 "XY".toList).1 = false) ∧
    ((Genome.mk "G".toList "ACGTTGCA".toList).extract 6 3 "XY".toList).2 = "XY".toList :=
  ⟨by decide, extract_failure_keeps_output _ 6 3 _ (by decide)⟩

end CS32
namespace CS32

/-! ## Well-formedness of the trie -/

theorem foldl_insert_WF {V : Type} (kvs : List (Str × V)) :
    ∀ t : Trie V, t.m_root.WF →
      (kvs.foldl (fun t kv => t.insert kv.1 kv.2) t).m_root.WF := by
  induction kvs with
  | nil => intro t ht; exact ht
  | cons kv rest ih =>
    intro t ht
    exact ih (t.insert kv.1 kv.2) (insertNode_WF kv.1 kv.2 t.m_root ht)

theorem findNode_foldl_insert_exact {V : Type} (kvs : List (Str × V)) (q : Str) :
    ∀ t : Trie V, t.m_root.WF →
      findNode (kvs.foldl (fun t kv => t.insert kv.1 kv.2) t).m_root q true =
        findNode t.m_root q true ++
          (kvs.filter (fun kv => decide (kv.1 = q))).map Prod.snd := by
  induction kvs with
  | nil => intro t _; simp
  | cons kv rest ih =>
    intro t ht
    rw [List.foldl_cons, ih (t.insert kv.1 kv.2) (insertNode_WF kv.1 kv.2 t.m_root ht)]
    have h1 : findNode (t.insert kv.1 kv.2).m_root q true =
        findNode t.m_root q true ++ if keyMatch kv.1 q true then [kv.2] else [] :=
      findNode_insertNode_exact kv.1 kv.2 t.m_root q ht
    rw [h1]
    by_cases hk : kv.1 = q
    · have hm : keyMatch kv.1 q true = true := (keyMatch_true_iff kv.1 q).2 hk
      rw [if_pos hm, List.filter_cons_of_pos (by simpa using hk)]
      simp
    · have hm : ¬ keyMatch kv.1 q true = true := fun h => hk ((keyMatch_true_iff kv.1 q).1 h)
      rw [if_neg hm, List.filter_cons_of_neg (by simpa using hk)]
      simp

/-- What `findNode` collects in exact mode: the values of the nodes the key leads to. -/
theorem findNode_eq_nodesAt {V : Type} (key : Str) :
    ∀ root : Node V, findNode root key true = (nodesAt key root).flatMap Node.vals := by
  induction key with
  | nil => intro root; simp [findNode, nodesAt]
  | cons c key ih =>
    intro root
    rw [findNode, nodesAt]
    generalize root.childs = cs
    induction cs with
    | nil => rfl
    | cons ch rest ihc =>
      rw [List.flatMap_cons, ihc]
      by_cases hc : c = ch.id
      · rw [if_pos hc, List.filter_cons_of_pos (by simpa using hc), List.flatMap_cons,
          List.flatMap_append, ih ch]
      · rw [if_neg hc, List.filter_cons_of_neg (by simpa using hc)]
        simp

theorem filter_id_length_le_one {V : Type} (c : Char) :
    ∀ cs : List (Node V), (cs.map Node.id).Nodup →
      cs.filter (fun ch => decide (c = ch.id)) = [] ∨
        ∃ ch ∈ cs, cs.filter (fun ch => decide (c = ch.id)) = [ch] := by
  intro cs
  induction cs with
  | nil => intro _; left; rfl
  | cons ch rest ih =>
    intro hn
    rw [List.map_cons, List.nodup_cons] at hn
    by_cases hc : c = ch.id
    · right
      refine ⟨ch, List.mem_cons_self _ _, ?_⟩
      rw [List.filter_cons_of_pos (by simpa using hc)]
      have : rest.filter (fun ch => decide (c = ch.id)) = [] := by
        rw [List.filter_eq_nil_iff]
        intro x hx hcx
        have hcx' : c = x.id := by simpa using hcx
        exact hn.1 (List.mem_map.2 ⟨x, hx, by rw [← hcx', hc]⟩)
      rw [this]
    · rw [List.filter_cons_of_neg (by simpa using hc)]
      rcases ih hn.2 with h | ⟨x, hx, h⟩
      · left; exact h
      · right; exact ⟨x, List.mem_cons_of_mem _ hx, h⟩

/-- In a well-formed tree a key leads to at most one node. -/
theorem nodesAt_length_le_one {V : Type} (key : Str) :
    ∀ root : Node V, root.WF → (nodesAt key root).length ≤ 1 := by
  induction key with
  | nil => intro root _; simp [nodesAt]
  | cons c key ih =>
    intro root hroot
    cases hroot with
    | mk id vals childs hn hch =>
      rw [nodesAt]
      show ((childs.filter (fun ch => decide (c = ch.id))).flatMap (nodesAt key)).length ≤ 1
      rcases filter_id_length_le_one c childs hn with h | ⟨ch, hmem, h⟩
      · rw [h]; simp
      · rw [h, List.flatMap_cons, List.flatMap_nil, List.append_nil]
        exact ih ch (hch ch hmem)

/-- C33. Trie well-formedness is preserved by insert: in every trie obtained from the empty
trie by insert calls no node has two children with the same character id, so every key
leads to at most one node, the values of that node are the values inserted under the key
(in insertion order), and every value inserted under a key is at the one node the key
leads to. -/
theorem insert_keeps_trie_wellFormed {V : Type} (kvs : List (Str × V)) :
    (Trie.ofInserts kvs).m_root.WF ∧
    ∀ key : Str,
      (nodesAt key (Trie.ofInserts kvs).m_root).length ≤ 1 ∧
      (∀ n ∈ nodesAt key (Trie.ofInserts kvs).m_root,
        n.vals = (kvs.filter (fun kv => decide (kv.1 = key))).map Prod.snd) ∧
      (∀ v, (key, v) ∈ kvs →
        ∃ n, nodesAt key (Trie.ofInserts kvs).m_root = [n] ∧ v ∈ n.vals) := by
  have hwf : (Trie.ofInserts kvs).m_root.WF := foldl_insert_WF kvs Trie.empty empty_WF
  refine ⟨hwf, fun key => ?_⟩
  have hle := nodesAt_length_le_one key (Trie.ofInserts kvs).m_root hwf
  have hfind : findNode (Trie.ofInserts kvs).m_root key true =
      (kvs.filter (fun kv => decide (kv.1 = key))).map Prod.snd := by
    have h := findNode_foldl_insert_exact kvs key Trie.empty empty_WF
    have h0 : findNode (Trie.empty : Trie V).m_root key true = [] := by
      cases key <;> rfl
    rw [h0, List.nil_append] at h
    exact h
  rw [findNode_eq_nodesAt] at hfind
  have hshape : nodesAt key (Trie.ofInserts kvs).m_root = [] ∨
      ∃ n, nodesAt key (Trie.ofInserts kvs).m_root = [n] := by
    cases hl : nodesAt key (Trie.ofInserts kvs).m_root with
    | nil => left; rfl
    | cons a rest =>
      right
      rw [hl] at hle
      cases rest with
      | nil => exact ⟨a, rfl⟩
      | cons b rest2 => simp at hle
  refine ⟨hle, ?_, ?_⟩
  · intro n hn
    rcases hshape with h | ⟨n0, h⟩
    · rw [h] at hn; exact absurd hn (List.not_mem_nil _)
    · rw [h] at hn hfind
      have : n = n0 := by simpa using hn
      subst this
      simpa using hfind
  · intro v hv
    have hvin : v ∈ (kvs.filter (fun kv => decide (kv.1 = key))).map Prod.snd :=
      List.mem_map.2 ⟨(key, v), List.mem_filter.2 ⟨hv, by simp⟩, rfl⟩
    rw [← hfind] at hvin
    rcases hshape with h | ⟨n0, h⟩
    · rw [h] at hvin; simp at hvin
    · refine ⟨n0, h, ?_⟩
      rw [h] at hvin
      simpa using hvin

theorem insert_keeps_trie_wellFormed_witness :
    (("AC".toList, 3) ∈
      ([("AC".toList, 1), ("AG".toList, 2), ("AC".toList, 3)] : List (Str × Nat))) ∧
    ∃ n, nodesAt "AC".toList
        (Trie.ofInserts [("AC".toList, 1), ("AG".toList, 2), ("AC".toList, 3)]).m_root = [n] ∧
      3 ∈ n.vals :=
  ⟨by decide,
    ((insert_keeps_trie_wellFormed
      [("AC".toList, 1), ("AG".toList, 2), ("AC".toList, 3)]).2 "AC".toList).2.2 3
      (by decide)⟩

/-! ## The scan of findMatch and the budget -/

theorem matchLength_eq_extension (f : Str) :
    ∀ (g : Str) (ex : Bool), matchLength f g ex = extensionWithBudget (budget ex) f g := by
  induction f with
  | nil => intro g ex; cases g <;> simp [matchLength, extensionWithBudget]
  | cons a fs ih =>
    intro g ex
    cases g with
    | nil => simp [matchLength, extensionWithBudget]
    | cons b gs =>
      by_cases hab : a = b
      · subst hab
        simp [matchLength, extensionWithBudget, ih]
      · cases ex with
        | true => simp [matchLength, extensionWithBudget, budget, hab]
        | false =>
          have := ih gs true
          simp [matchLength, extensionWithBudget, budget, hab] at this ⊢
          exact this

theorem extension_append (a : Str) :
    ∀ (c : Str) (b : Nat) (f g : Str), a.length = c.length → mismatches a c ≤ b →
      extensionWithBudget b (a ++ f) (c ++ g) =
        a.length + extensionWithBudget (b - mismatches a c) f g := by
  induction a with
  | nil =>
    intro c b f g hl _
    cases c with
    | nil => simp [mismatches]
    | cons y c => simp at hl
  | cons x a ih =>
    intro c b f g hl hm
    cases c with
    | nil => simp at hl
    | cons y c =>
      simp only [List.length_cons, Nat.add_right_cancel_iff] at hl
      by_cases hxy : x = y
      · subst hxy
        simp only [mismatches, if_true, Nat.zero_add] at hm ⊢
        show extensionWithBudget b (x :: (a ++ f)) (x :: (c ++ g)) = _
        simp only [extensionWithBudget, if_true]
        rw [ih c b f g hl hm, List.length_cons]
        omega
      · simp only [mismatches, if_neg hxy] at hm ⊢
        cases b with
        | zero => omega
        | succ b' =>
          show extensionWithBudget (b' + 1) (x :: (a ++ f)) (y :: (c ++ g)) = _
          simp only [extensionWithBudget, if_neg hxy]
          rw [ih c b' f g hl (by omega), List.length_cons]
          have : b' + 1 - (1 + mismatches a c) = b' - mismatches a c := by omega
          rw [this]
          omega

theorem slice_add (s : Str) (p a b : Nat) :
    slice s p (a + b) = slice s p a ++ slice s (p + a) b := by
  unfold slice
  rw [List.take_add, List.drop_drop]

/-- What a matching key tells: the lengths agree, the first characters agree and the
mismatches are within the budget. -/
theorem rootMatch_budget (k q : Str) (ex : Bool) (h : rootMatch k q ex = true) :
    k.length = q.length ∧ k.head? = q.head? ∧ mismatches k q ≤ budget ex := by
  cases q with
  | nil => cases k <;> simp [rootMatch] at h
  | cons d q =>
    cases ex with
    | true =>
      have := (rootMatch_true_iff k d q).1 h
      subst this
      exact ⟨rfl, rfl, by rw [mismatches_self]; exact Nat.zero_le _⟩
    | false =>
      have := (rootMatch_false_iff k d q).1 h
      exact ⟨this.1, this.2.1, this.2.2⟩

/-- C32. Recounting from offset 0 equals continuing with the budget the anchor left: for
every state reached with window size `w` and every anchor the trie returns for
`fragment[0:w]`, the anchor names a stored sequence `g` and a window `g[p:p+w]` that
differs from `fragment[0:w]` in at most `budget` positions (1, or 0 in exact mode), and
the length `findMatch` computes by its scan from offset 0 is `w` plus the length of the
extension of `fragment[w:]` over `g[p+w : p+overlap]` carried out with the budget minus
those mismatches; so the length is at least `w`. -/
theorem findMatch_recount_equals_extension (w : Nat) (m : GenomeMatcherImpl)
    (hm : GenomeMatcherImpl.Reachable w m) (fragment : Str) (ex : Bool)
    (temp : List SeqFrag)
    (hfind : m.m_seqFragTrie.find (fragment.take m.m_minSearchLength) ex = some temp)
    (sf : SeqFrag) (hsf : sf ∈ temp) :
    m.m_minSearchLength = w ∧
    ∃ (g : Genome) (p : Nat) (r : DNAMatch),
      m.m_genomeList[sf.genomeIndex]? = some g ∧ sf.position = (p : Int) ∧
      p + w ≤ g.m_sequence.length ∧ w ≤ fragment.length ∧
      mismatches (slice g.m_sequence p w) (fragment.take w) ≤ budget ex ∧
      m.findMatch fragment sf ex = some r ∧
      r.length = w + extensionWithBudget
        (budget ex - mismatches (slice g.m_sequence p w) (fragment.take w))
        (fragment.drop w)
        (slice g.m_sequence (p + w) (min fragment.length (g.m_sequence.length - p) - w)) ∧
      w ≤ r.length := by
  obtain ⟨kvs, hinv⟩ := reachable_inv w m hm
  have hw := hinv.window
  rw [hw] at hfind
  obtain ⟨g, p, hg, hsfeq, hp, hrm⟩ :=
    anchor_in_range w m kvs hinv (fragment.take w) ex temp hfind sf hsf
  obtain ⟨hlen, _, hmis⟩ := rootMatch_budget _ _ ex hrm
  rw [slice_length _ _ _ hp, List.length_take] at hlen
  have hwf : w ≤ fragment.length := by omega
  have hfm := findMatch_eq m fragment sf.genomeIndex p ex g hg (by omega)
  rw [← hsfeq] at hfm
  have hpos : sf.position = (p : Int) := by rw [hsfeq]
  have hr : matchLength fragment
      (slice g.m_sequence p (min fragment.length (g.m_sequence.length - p))) ex =
      w + extensionWithBudget
        (budget ex - mismatches (slice g.m_sequence p w) (fragment.take w))
        (fragment.drop w)
        (slice g.m_sequence (p + w) (min fragment.length (g.m_sequence.length - p) - w)) := by
    rw [matchLength_eq_extension]
    obtain ⟨d, hd⟩ : ∃ d, min fragment.length (g.m_sequence.length - p) = w + d :=
      ⟨min fragment.length (g.m_sequence.length - p) - w, by omega⟩
    rw [hd, Nat.add_sub_cancel_left, slice_add]
    conv_lhs => rw [← List.take_append_drop w fragment]
    rw [extension_append (fragment.take w) (slice g.m_sequence p w) (budget ex) _ _
      (by rw [slice_length _ _ _ hp, List.length_take]; omega)
      (by rw [mismatches_comm]; exact hmis)]
    rw [List.length_take, Nat.min_eq_left hwf, mismatches_comm (fragment.take w)]
  refine ⟨hw, g, p, _, hg, hpos, hp, hwf, hmis, hfm, hr, ?_⟩
  show w ≤ matchLength fragment _ ex
  rw [hr]
  omega

theorem findMatch_recount_equals_extension_witness :
    (exampleMatcher.m_seqFragTrie.find ("ACGATA".toList.take exampleMatcher.m_minSearchLength)
      false = some [⟨0, 0⟩, ⟨0, 4⟩, ⟨1, 2⟩, ⟨2, 2⟩]) ∧
    ((⟨1, 2⟩ : SeqFrag) ∈ ([⟨0, 0⟩, ⟨0, 4⟩, ⟨1, 2⟩, ⟨2, 2⟩] : List SeqFrag)) ∧
    (exampleMatcher.m_minSearchLength = 4 ∧
    ∃ (g : Genome) (p : Nat) (r : DNAMatch),
      exampleMatcher.m_genomeList[(⟨1, 2⟩ : SeqFrag).genomeIndex]? = some g ∧
      (⟨1, 2⟩ : SeqFrag).position = (p : Int) ∧
      p + 4 ≤ g.m_sequence.length ∧ 4 ≤ "ACGATA".toList.length ∧
      mismatches (slice g.m_sequence p 4) ("ACGATA".toList.take 4) ≤ budget false ∧
      exampleMatcher.findMatch "ACGATA".toList ⟨1, 2⟩ false = some r ∧
      r.length = 4 + extensionWithBudget
        (budget false - mismatches (slice g.m_sequence p 4) ("ACGATA".toList.take 4))
        ("ACGATA".toList.drop 4)
        (slice g.m_sequence (p + 4)
          (min "ACGATA".toList.length (g.m_sequence.length - p) - 4)) ∧
      4 ≤ r.length) :=
  ⟨by decide, by decide,
    findMatch_recount_equals_extension 4 exampleMatcher exampleMatcher_reachable
      "ACGATA".toList false [⟨0, 0⟩, ⟨0, 4⟩, ⟨1, 2⟩, ⟨2, 2⟩] (by decide) ⟨1, 2⟩ (by decide)⟩

/-! ## Queries on reachable states -/

theorem matchLength_le_left (f : Str) :
    ∀ (g : Str) (ex : Bool), matchLength f g ex ≤ f.length := by
  induction f with
  | nil => intro g ex; cases g <;> simp [matchLength]
  | cons a fs ih =>
    intro g ex
    cases g with
    | nil => simp [matchLength]
    | cons b gs =>
      rw [matchLength]
      have h1 := ih gs true
      have h2 := ih gs ex
      simp only [List.length_cons]
      split
      · omega
      · split <;> omega

theorem mismatches_take_le (a : Str) :
    ∀ (b : Str) (n : Nat), mismatches (a.take n) (b.take n) ≤ mismatches a b := by
  induction a with
  | nil => intro b n; simp [mismatches]
  | cons x a ih =>
    intro b n
    cases b with
    | nil => simp [mismatches]
    | cons y b =>
      cases n with
      | zero => simp [mismatches]
      | succ n =>
        simp only [List.take_succ_cons, mismatches]
        have := ih b n
        omega

/-- A key of the length of the query, with the same first character and mismatches within
the budget, matches. -/
theorem rootMatch_of_budget (k q : Str) (ex : Bool) (hne : q ≠ []) (hl : k.length = q.length)
    (hh : ex = false → k.head? = q.head?) (hm : mismatches k q ≤ budget ex) :
    rootMatch k q ex = true := by
  cases q with
  | nil => exact absurd rfl hne
  | cons d q =>
    cases ex with
    | true =>
      have h0 : mismatches k (d :: q) = 0 := by
        have : budget true = 0 := rfl
        omega
      exact (rootMatch_true_iff k d q).2 (eq_of_mismatches_zero k (d :: q) hl h0)
    | false =>
      exact (rootMatch_false_iff k d q).2 ⟨hl, hh rfl, hm⟩

/-- What passing the parameter check says about the lengths. -/
theorem check_lengths (w : Nat) (fragment : Str) (minimumLength : Int)
    (hint : minimumLength ≤ 2147483647)
    (hcheck : ¬ (fragment.length < sizeT minimumLength ∨ minimumLength < (w : Int))) :
    (w : Int) ≤ minimumLength ∧ minimumLength ≤ (fragment.length : Int) := by
  have h1 : (w : Int) ≤ minimumLength := by
    by_contra h; exact hcheck (Or.inr (by omega))
  have h2 : ¬ fragment.length < sizeT minimumLength := fun h => hcheck (Or.inl h)
  rw [sizeT_of_nonneg minimumLength (by omega) hint] at h2
  exact ⟨h1, by omega⟩

/-- C34. Query-time lookups cannot go out of range: on a state reached with a window size
`w ≥ 1`, for a fragment and a `minimumLength` (one an `int` holds) that pass the parameter
check, the trie lookup returns, and for every anchor it returns the index is below the size
of the sequence collection, the `extract` call of `findMatch` succeeds and gives a window of
length `min(fragment.length, sequence.length − position)`, which is at least `w`, and the
window is not longer than the fragment, so that the comparison loop, which runs over the
indices of the window, reads the fragment below `fragment.length` only. -/
theorem query_lookups_in_range (w : Nat) (hw : 1 ≤ w) (m : GenomeMatcherImpl)
    (hm : GenomeMatcherImpl.Reachable w m) (fragment : Str) (minimumLength : Int)
    (hint : minimumLength ≤ 2147483647) (ex : Bool)
    (hcheck : ¬ (fragment.length < sizeT minimumLength ∨
      minimumLength < (m.m_minSearchLength : Int))) :
    ∃ temp, m.m_seqFragTrie.find (fragment.take m.m_minSearchLength) ex = some temp ∧
      ∀ sf ∈ temp, sf.genomeIndex < m.m_genomeList.length ∧
        ∃ g, m.m_genomeList[sf.genomeIndex]? = some g ∧
          (g.extract sf.position (min (fragment.length : Int) (g.length - sf.position)) []).1
            = true ∧
          (((g.extract sf.position (min (fragment.length : Int) (g.length - sf.position))
            []).2.length : Nat) : Int) = min (fragment.length : Int) (g.length - sf.position) ∧
          (w : Int) ≤ min (fragment.length : Int) (g.length - sf.position) ∧
          (g.extract sf.position (min (fragment.length : Int) (g.length - sf.position))
            []).2.length ≤ fragment.length := by
  obtain ⟨kvs, hinv⟩ := reachable_inv w m hm
  have hwm := hinv.window
  rw [hwm] at hcheck ⊢
  obtain ⟨h1, h2⟩ := check_lengths w fragment minimumLength hint hcheck
  have hwf : w ≤ fragment.length := by omega
  have hkey : ∃ d q, fragment.take w = d :: q := by
    cases hf : fragment with
    | nil => rw [hf] at hwf; simp at hwf; omega
    | cons d q =>
      obtain ⟨w', rfl⟩ : ∃ w', w = w' + 1 := ⟨w - 1, by omega⟩
      exact ⟨d, q.take w', rfl⟩
  obtain ⟨d, q, hdq⟩ := hkey
  refine ⟨_, by rw [hdq]; exact find_cons _ d q ex, ?_⟩
  intro sf hsf
  have hfind : m.m_seqFragTrie.find (fragment.take w) ex =
      some (m.m_seqFragTrie.m_root.childs.flatMap (rootStep d q ex)) := by
    rw [hdq]; exact find_cons _ d q ex
  obtain ⟨g, p, hg, hsfeq, hp, _⟩ :=
    anchor_in_range w m kvs hinv (fragment.take w) ex _ hfind sf hsf
  have hpos : sf.position = (p : Int) := by rw [hsfeq]
  have hidx : sf.genomeIndex < m.m_genomeList.length := by
    by_contra hge
    rw [List.getElem?_eq_none (by omega)] at hg
    exact absurd hg (by simp)
  have hmin : min (fragment.length : Int) (g.length - sf.position) =
      ((min fragment.length (g.m_sequence.length - p) : Nat) : Int) := by
    rw [hpos]; unfold Genome.length; omega
  have hne : g.m_sequence ≠ [] := by
    intro h0; rw [h0] at hp; simp at hp; omega
  have hex := extract_eq_inside g p (min fragment.length (g.m_sequence.length - p)) []
    hne (by omega)
  refine ⟨hidx, g, hg, ?_, ?_, ?_, ?_⟩
  · rw [hmin, hpos, hex]
  · rw [hmin, hpos, hex]
    show (((slice g.m_sequence p (min fragment.length (g.m_sequence.length - p))).length
      : Nat) : Int) = _
    rw [slice_length _ _ _ (by omega)]
  · rw [hmin]; omega
  · rw [hmin, hpos, hex]
    show (slice g.m_sequence p (min fragment.length (g.m_sequence.length - p))).length ≤ _
    rw [slice_length _ _ _ (by omega)]
    omega

theorem query_lookups_in_range_witness :
    (1 ≤ 4) ∧ ((4 : Int) ≤ 2147483647) ∧
    (¬ ("ACGTAC".toList.length < sizeT 4 ∨
      (4 : Int) < (exampleMatcher.m_minSearchLength : Int))) ∧
    ∃ temp, exampleMatcher.m_seqFragTrie.find
        ("ACGTAC".toList.take exampleMatcher.m_minSearchLength) false = some temp ∧
      ∀ sf ∈ temp, sf.genomeIndex < exampleMatcher.m_genomeList.length ∧
        ∃ g, exampleMatcher.m_genomeList[sf.genomeIndex]? = some g ∧
          (g.extract sf.position
            (min ("ACGTAC".toList.length : Int) (g.length - sf.position)) []).1 = true ∧
          (((g.extract sf.position
            (min ("ACGTAC".toList.length : Int) (g.length - sf.position)) []).2.length
              : Nat) : Int) = min ("ACGTAC".toList.length : Int) (g.length - sf.position) ∧
          ((4 : Nat) : Int) ≤ min ("ACGTAC".toList.length : Int) (g.length - sf.position) ∧
          (g.extract sf.position
            (min ("ACGTAC".toList.length : Int) (g.length - sf.position)) []).2.length
              ≤ "ACGTAC".toList.length :=
  ⟨by decide, by decide, by decide,
    query_lookups_in_range 4 (by decide) exampleMatcher exampleMatcher_reachable
      "ACGTAC".toList 4 (by decide) false (by decide)⟩

/-- The length of a result is a count of `findMatch`, which is not above the length of the
fragment. -/
theorem findGenomes_length_le (m : GenomeMatcherImpl) (fragment : Str) (minimumLength : Int)
    (ex : Bool) (matches_ : List DNAMatch) (ok : Bool) (holder : List DNAMatch)
    (h : m.findGenomesWithThisDNA fragment minimumLength ex matches_ =
      some (ok, matches_ ++ holder)) :
    ∀ x ∈ holder, x.length ≤ fragment.length := by
  intro x hx
  rcases findGenomes_some m fragment minimumLength ex matches_ _ h with h0 | ⟨temp, cands, _, hc, hr⟩
  · have := (Prod.mk.inj h0).2
    have := List.append_cancel_left this
    rw [this] at hx
    exact absurd hx (List.not_mem_nil _)
  · have h2 := List.append_cancel_left (Prod.mk.inj hr).2
    rw [h2] at hx
    have hfind := ((foldl_reconcile_spec minimumLength cands).2 x.genomeName).2 x hx rfl
    have hmem : x ∈ cands := List.mem_of_find?_eq_some hfind.2.2
    obtain ⟨sf, _, hsf⟩ := (candidates_mem m fragment ex temp cands hc x).1 hmem
    unfold GenomeMatcherImpl.findMatch at hsf
    split at hsf
    · exact absurd hsf (by simp)
    · simp only [Option.some.injEq] at hsf
      rw [← hsf]
      exact matchLength_le_left _ _ _

/-- C31. Completeness for whole fragments: on a state reached with a window size `w ≥ 1`,
if a stored sequence `S` (of a length an `int` holds) has at offset `p` a stretch of
`fragment.length` characters that differs from the fragment in at most `budget` positions
(one in fuzzy mode, none in exact mode), the first character being the same, then for every
`minimumLength` with `w ≤ minimumLength ≤ fragment.length` the call
`findGenomesWithThisDNA(fragment, minimumLength, exactMatchOnly)` returns `true` and appends
a holder that has a match named as `S` of length exactly `fragment.length`. -/
theorem findGenomes_whole_fragment_found (w : Nat) (hw : 1 ≤ w) (m : GenomeMatcherImpl)
    (hm : GenomeMatcherImpl.Reachable w m) (S : Genome) (hS : S ∈ m.m_genomeList)
    (hlen : S.m_sequence.length ≤ 2147483647) (fragment : Str) (p : Nat)
    (hp : p + fragment.length ≤ S.m_sequence.length) (ex : Bool)
    (hmis : mismatches fragment (slice S.m_sequence p fragment.length) ≤ budget ex)
    (hhead : ex = false → fragment.head? = (slice S.m_sequence p fragment.length).head?)
    (minimumLength : Int) (hmin : (w : Int) ≤ minimumLength)
    (hmax : minimumLength ≤ (fragment.length : Int)) (matches_ : List DNAMatch) :
    ∃ holder, m.findGenomesWithThisDNA fragment minimumLength ex matches_ =
        some (true, matches_ ++ holder) ∧
      ∃ r ∈ holder, r.genomeName = S.name ∧ r.length = fragment.length := by
  have hwf : w ≤ fragment.length := by omega
  have hint : minimumLength ≤ 2147483647 := by omega
  have hcheck : ¬ (fragment.length < sizeT minimumLength ∨ minimumLength < (w : Int)) := by
    rw [sizeT_of_nonneg minimumLength (by omega) hint]
    omega
  have hov : min fragment.length (S.m_sequence.length - p) = fragment.length := by omega
  have hsl : (slice S.m_sequence p fragment.length).length = fragment.length :=
    slice_length _ _ _ hp
  have hfull := matchLength_full fragment (slice S.m_sequence p fragment.length) ex hsl hmis
  have hkne : fragment.take w ≠ [] := by
    cases hf : fragment with
    | nil => rw [hf] at hwf; simp at hwf; omega
    | cons d q =>
      obtain ⟨w', rfl⟩ : ∃ w', w = w' + 1 := ⟨w - 1, by omega⟩
      simp
  have htk : slice S.m_sequence p w = (slice S.m_sequence p fragment.length).take w :=
    (take_slice _ _ _ _ hwf).symm
  have hkey : rootMatch (slice S.m_sequence p w) (fragment.take w) ex = true := by
    apply rootMatch_of_budget _ _ _ hkne
    · rw [slice_length _ _ _ (by omega), List.length_take]; omega
    · intro hex
      have h1 := hhead hex
      rw [htk]
      have hw0 : 0 < w := hw
      cases hf : fragment with
      | nil => rw [hf] at hwf; simp at hwf; omega
      | cons d q =>
        rw [hf] at h1
        obtain ⟨w', rfl⟩ : ∃ w', w = w' + 1 := ⟨w - 1, by omega⟩
        cases hs : slice S.m_sequence p (d :: q).length with
        | nil => rw [hs] at h1; simp at h1
        | cons e s' => rw [hs] at h1; simp at h1 ⊢; exact h1.symm
    · rw [htk, mismatches_comm]
      exact le_trans (mismatches_take_le _ _ _) hmis
  obtain ⟨holder, hcall, r, hr, hname, _, hge⟩ :=
    findGenomes_finds_anchor w m hm S hS (by omega) p (by omega) fragment minimumLength ex
      matches_ hcheck hkey (by rw [hov]; omega)
  rw [hov] at hge
  have hle := findGenomes_length_le m fragment minimumLength ex matches_ true holder hcall r hr
  exact ⟨holder, hcall, r, hr, hname, by omega⟩

theorem findGenomes_whole_fragment_found_witness :
    (1 ≤ 4) ∧
    ((⟨"B".toList, "TTACGTTA".toList⟩ : Genome) ∈ exampleMatcher.m_genomeList) ∧
    ((Genome.mk "B".toList "TTACGTTA".toList).m_sequence.length ≤ 2147483647) ∧
    (2 + "ACGATA".toList.length ≤ (Genome.mk "B".toList "TTACGTTA".toList).m_sequence.length) ∧
    (mismatches "ACGATA".toList (slice "TTACGTTA".toList 2 "ACGATA".toList.length)
      ≤ budget false) ∧
    ("ACGATA".toList.head? = (slice "TTACGTTA".toList 2 "ACGATA".toList.length).head?) ∧
    (((4 : Nat) : Int) ≤ 5) ∧ ((5 : Int) ≤ ("ACGATA".toList.length : Int)) ∧
    ∃ holder, exampleMatcher.findGenomesWithThisDNA "ACGATA".toList 5 false [] =
        some (true, [] ++ holder) ∧
      ∃ r ∈ holder, r.genomeName = (Genome.mk "B".toList "TTACGTTA".toList).name ∧
        r.length = "ACGATA".toList.length :=
  ⟨by decide, by decide, by decide, by decide, by decide, by decide, by decide, by decide,
    findGenomes_whole_fragment_found 4 (by decide) exampleMatcher exampleMatcher_reachable
      ⟨"B".toList, "TTACGTTA".toList⟩ (by decide) (by decide) "ACGATA".toList 2 (by decide)
      false (by decide) (fun _ => by decide) 5 (by decide) (by decide) []⟩

/-! ## Comparing two queries -/

/-- A call that passes the parameter check and returns went through the trie lookup and
the candidates of its anchors. -/
theorem findGenomes_unfold (m : GenomeMatcherImpl) (fragment : Str) (minimumLength : Int)
    (ex : Bool) (matches_ : List DNAMatch) (r : Bool × List DNAMatch)
    (hcheck : ¬ (fragment.length < sizeT minimumLength ∨
      minimumLength < (m.m_minSearchLength : Int)))
    (h : m.findGenomesWithThisDNA fragment minimumLength ex matches_ = some r) :
    ∃ temp cands, m.m_seqFragTrie.find (fragment.take m.m_minSearchLength) ex = some temp ∧
      candidates m fragment ex temp = some cands := by
  unfold GenomeMatcherImpl.findGenomesWithThisDNA at h
  rw [if_neg hcheck] at h
  cases hf : m.m_seqFragTrie.find (fragment.take m.m_minSearchLength) ex with
  | none => rw [hf] at h; exact absurd h (by simp)
  | some temp =>
    rw [hf] at h
    simp only at h
    rw [findGenomesLoop_eq] at h
    cases hc : candidates m fragment ex temp with
    | none => rw [hc] at h; exact absurd h (by simp)
    | some cands => exact ⟨temp, cands, rfl, hc⟩

/-- A result of a call comes from a candidate: the call passed the parameter check, and the
result is one of the candidates of the anchors the trie returned, of length at least
`minimumLength`. -/
theorem findGenomes_holder_mem (m : GenomeMatcherImpl) (fragment : Str) (minimumLength : Int)
    (ex : Bool) (matches_ : List DNAMatch) (ok : Bool) (holder : List DNAMatch)
    (h : m.findGenomesWithThisDNA fragment minimumLength ex matches_ =
      some (ok, matches_ ++ holder)) (x : DNAMatch) (hx : x ∈ holder) :
    ¬ (fragment.length < sizeT minimumLength ∨ minimumLength < (m.m_minSearchLength : Int)) ∧
    ∃ temp cands, m.m_seqFragTrie.find (fragment.take m.m_minSearchLength) ex = some temp ∧
      candidates m fragment ex temp = some cands ∧ x ∈ cands ∧
      minimumLength ≤ (x.length : Int) := by
  have hcheck : ¬ (fragment.length < sizeT minimumLength ∨
      minimumLength < (m.m_minSearchLength : Int)) := by
    intro hbad
    unfold GenomeMatcherImpl.findGenomesWithThisDNA at h
    rw [if_pos hbad] at h
    have h2 := (Prod.mk.inj (Option.some.inj h)).2
    have h3 : holder = [] := by
      have : matches_ ++ [] = matches_ ++ holder := by rw [List.append_nil]; exact h2
      exact (List.append_cancel_left this).symm
    rw [h3] at hx
    exact absurd hx (List.not_mem_nil _)
  refine ⟨hcheck, ?_⟩
  obtain ⟨temp, cands, hf, hc⟩ := findGenomes_unfold m fragment minimumLength ex matches_ _ hcheck h
  have heq := findGenomes_eq m fragment minimumLength ex matches_ temp cands hcheck hf hc
  rw [h] at heq
  have h2 := List.append_cancel_left (Prod.mk.inj (Option.some.inj heq)).2
  rw [h2] at hx
  have hspec := ((foldl_reconcile_spec minimumLength cands).2 x.genomeName).2 x hx rfl
  exact ⟨temp, cands, hf, hc, List.mem_of_find?_eq_some hspec.2.2, hspec.1⟩

/-- A candidate of length at least `minimumLength` gives a result for its name that is at
least as long. -/
theorem findGenomes_of_candidate (m : GenomeMatcherImpl) (fragment : Str)
    (minimumLength : Int) (ex : Bool) (matches_ : List DNAMatch) (temp : List SeqFrag)
    (cands : List DNAMatch)
    (hcheck : ¬ (fragment.length < sizeT minimumLength ∨
      minimumLength < (m.m_minSearchLength : Int)))
    (hf : m.m_seqFragTrie.find (fragment.take m.m_minSearchLength) ex = some temp)
    (hc : candidates m fragment ex temp = some cands) (y : DNAMatch) (hy : y ∈ cands)
    (hlen : minimumLength ≤ (y.length : Int)) :
    ∃ holder, m.findGenomesWithThisDNA fragment minimumLength ex matches_ =
        some (true, matches_ ++ holder) ∧
      ∃ z ∈ holder, z.genomeName = y.genomeName ∧ y.length ≤ z.length := by
  have heq := findGenomes_eq m fragment minimumLength ex matches_ temp cands hcheck hf hc
  have hspec := (foldl_reconcile_spec minimumLength cands).2 y.genomeName
  obtain ⟨z, hz, hzn⟩ := hspec.1.2 ⟨y, hy, rfl, hlen⟩
  have hzl := (hspec.2 z hz hzn).2.1 y hy rfl
  refine ⟨_, ?_, z, hz, hzn, hzl⟩
  rw [heq]
  have hne : (cands.foldl (fun h c => reconcile minimumLength c h) []).isEmpty = false := by
    cases hh : cands.foldl (fun h c => reconcile minimumLength c h) [] with
    | nil => rw [hh] at hz; exact absurd hz (List.not_mem_nil _)
    | cons a b => rfl
  rw [hne]
  rfl

theorem matchLength_mono (f : Str) :
    ∀ g : Str, matchLength f g true ≤ matchLength f g false := by
  induction f with
  | nil => intro g; cases g <;> simp [matchLength]
  | cons a fs ih =>
    intro g
    cases g with
    | nil => simp [matchLength]
    | cons b gs =>
      by_cases hab : a = b
      · subst hab
        simp [matchLength, ih]
      · simp [matchLength, hab]

theorem flatMap_subset {α β : Type} (F G : α → List β) (hFG : ∀ a, F a ⊆ G a) :
    ∀ l : List α, l.flatMap F ⊆ l.flatMap G := by
  intro l x hx
  rw [List.mem_flatMap] at hx ⊢
  obtain ⟨a, ha, hxa⟩ := hx
  exact ⟨a, ha, hFG a hxa⟩

/-- What `findNode` collects in exact mode it collects in fuzzy mode too. -/
theorem findNode_exact_subset {V : Type} (key : Str) :
    ∀ n : Node V, findNode n key true ⊆ findNode n key false := by
  induction key with
  | nil => intro n; simp [findNode]
  | cons c key ih =>
    intro n
    rw [findNode, findNode]
    apply flatMap_subset
    intro ch
    by_cases hc : c = ch.id
    · rw [if_pos hc, if_pos hc]; exact ih ch
    · rw [if_neg hc, if_neg hc]; simp

/-- The anchors of an exact lookup are among the anchors of the fuzzy lookup. -/
theorem find_exact_subset {V : Type} (t : Trie V) (key : Str) (te tf : List V)
    (he : t.find key true = some te) (hf : t.find key false = some tf) : te ⊆ tf := by
  cases key with
  | nil =>
    have := findLoop_nil true _ _ he
    rw [this]; simp
  | cons d q =>
    rw [find_cons] at he hf
    simp only [Option.some.injEq] at he hf
    rw [← he, ← hf]
    apply flatMap_subset
    intro ch
    unfold rootStep
    by_cases hc : d = ch.id
    · rw [if_pos hc, if_pos hc]; exact findNode_exact_subset q ch
    · rw [if_neg hc, if_neg hc]; simp

/-- The candidate of an anchor in fuzzy mode has the name of its candidate in exact mode
and is at least as long. -/
theorem findMatch_fuzzy_ge (m : GenomeMatcherImpl) (fragment : Str) (sf : SeqFrag)
    (x : DNAMatch) (h : m.findMatch fragment sf true = some x) :
    ∃ y, m.findMatch fragment sf false = some y ∧ y.genomeName = x.genomeName ∧
      x.length ≤ y.length := by
  unfold GenomeMatcherImpl.findMatch at h ⊢
  cases hg : m.m_genomeList[sf.genomeIndex]? with
  | none => rw [hg] at h; exact absurd h (by simp)
  | some g =>
    rw [hg] at h
    simp only [Option.some.injEq] at h
    subst h
    exact ⟨_, rfl, rfl, matchLength_mono _ _⟩

/-- C35. Fuzzy search dominates exact search: for every matcher state (any genome list, any
trie), fragment and `minimumLength`, if the call with `exactMatchOnly = true` returns and
appends a match `x`, then every result the call with `exactMatchOnly = false` returns is
`true` with an appended match of the name of `x` and of length at least the length of `x`;
and on the states reached with a window size `w ≥ 1` the fuzzy call does return, for every
`minimumLength` an `int` holds. -/
theorem fuzzy_dominates_exact (m : GenomeMatcherImpl) (fragment : Str) (minimumLength : Int)
    (matches_ : List DNAMatch) (ok : Bool) (holder : List DNAMatch) (x : DNAMatch)
    (hexact : m.findGenomesWithThisDNA fragment minimumLength true matches_ =
      some (ok, matches_ ++ holder))
    (hx : x ∈ holder) :
    (∀ r, m.findGenomesWithThisDNA fragment minimumLength false matches_ = some r →
      ∃ holder2, r = (true, matches_ ++ holder2) ∧
        ∃ y ∈ holder2, y.genomeName = x.genomeName ∧ x.length ≤ y.length) ∧
    (∀ w, 1 ≤ w → GenomeMatcherImpl.Reachable w m → minimumLength ≤ 2147483647 →
      ∃ r, m.findGenomesWithThisDNA fragment minimumLength false matches_ = some r) := by
  refine ⟨?_, fun w hw hm hint => findGenomes_returns w hw m hm fragment minimumLength hint
    false matches_⟩
  intro r hr
  obtain ⟨hcheck, te, ce, hfe, hce, hxc, hxl⟩ :=
    findGenomes_holder_mem m fragment minimumLength true matches_ ok holder hexact x hx
  obtain ⟨tf, cf, hff, hcf⟩ :=
    findGenomes_unfold m fragment minimumLength false matches_ r hcheck hr
  obtain ⟨sf, hsf, hfm⟩ := (candidates_mem m fragment true te ce hce x).1 hxc
  obtain ⟨y, hy, hyn, hyl⟩ := findMatch_fuzzy_ge m fragment sf x hfm
  have hsf2 : sf ∈ tf := find_exact_subset _ _ te tf hfe hff hsf
  have hyc : y ∈ cf := (candidates_mem m fragment false tf cf hcf y).2 ⟨sf, hsf2, hy⟩
  obtain ⟨holder2, hcall, z, hz, hzn, hzl⟩ :=
    findGenomes_of_candidate m fragment minimumLength false matches_ tf cf hcheck hff hcf y hyc
      (by omega)
  rw [hcall] at hr
  refine ⟨holder2, (Option.some.inj hr).symm, z, hz, by rw [hzn, hyn], by omega⟩

theorem fuzzy_dominates_exact_witness :
    (exampleMatcher.findGenomesWithThisDNA "ACGTAC".toList 4 true [] =
      some (true, [] ++ [⟨"A".toList, 6, 0⟩, ⟨"B".toList, 4, 2⟩])) ∧
    ((⟨"B".toList, 4, 2⟩ : DNAMatch) ∈
      ([⟨"A".toList, 6, 0⟩, ⟨"B".toList, 4, 2⟩] : List DNAMatch)) ∧
    (exampleMatcher.findGenomesWithThisDNA "ACGTAC".toList 4 false [] =
      some (true, [⟨"A".toList, 6, 0⟩, ⟨"B".toList, 5, 2⟩])) ∧
    ∃ holder2, (true, [(⟨"A".toList, 6, 0⟩ : DNAMatch), ⟨"B".toList, 5, 2⟩]) =
        (true, [] ++ holder2) ∧
      ∃ y ∈ holder2, y.genomeName = (⟨"B".toList, 4, 2⟩ : DNAMatch).genomeName ∧
        (⟨"B".toList, 4, 2⟩ : DNAMatch).length ≤ y.length :=
  ⟨by decide, by decide, by decide,
    (fuzzy_dominates_exact exampleMatcher "ACGTAC".toList 4 [] true
      [⟨"A".toList, 6, 0⟩, ⟨"B".toList, 4, 2⟩] ⟨"B".toList, 4, 2⟩ (by decide)
      (by decide)).1 _ (by decide)⟩

/-! ## Queries before and after addGenome -/

/-- What a returning `addGenome` does to the state, with the index of the new entries. -/
theorem addGenome_entries (m m' : GenomeMatcherImpl) (S : Genome) (fuel : Nat)
    (h : m.addGenome S fuel = some m') :
    m'.m_minSearchLength = m.m_minSearchLength ∧
      m'.m_genomeList = m.m_genomeList ++ [S] ∧
      ∃ es : List (Str × SeqFrag),
        m'.m_seqFragTrie = es.foldl (fun t kv => t.insert kv.1 kv.2) m.m_seqFragTrie ∧
        ∀ e ∈ es, e.2.genomeIndex = m.m_genomeList.length := by
  unfold GenomeMatcherImpl.addGenome at h
  simp only at h
  split at h
  · exact absurd h (by simp)
  · rename_i t ht
    simp only [Option.some.injEq] at h
    subst h
    obtain ⟨es, h1, h2⟩ := addGenomeLoop_entries_le _ _ _ _ _ _ _ _ ht
    refine ⟨rfl, rfl, es, h1, ?_⟩
    intro e he
    obtain ⟨j, _, hj⟩ := h2 e he
    rw [hj]
    simp [GenomeMatcherImpl.addGenomeEntry]

theorem candidates_some_all (m : GenomeMatcherImpl) (fragment : Str) (ex : Bool) :
    ∀ (temp : List SeqFrag) (cands : List DNAMatch),
      candidates m fragment ex temp = some cands →
      ∀ sf ∈ temp, ∃ c, m.findMatch fragment sf ex = some c := by
  intro temp
  induction temp with
  | nil => intro _ _ sf hsf; exact absurd hsf (List.not_mem_nil _)
  | cons a rest ih =>
    intro cands hc sf hsf
    rw [candidates] at hc
    cases ha : m.findMatch fragment a ex with
    | none => rw [ha] at hc; exact absurd hc (by simp)
    | some c =>
      rw [ha] at hc
      simp only at hc
      cases hr : candidates m fragment ex rest with
      | none => rw [hr] at hc; exact absurd hc (by simp)
      | some cr =>
        rcases List.mem_cons.1 hsf with h | h
        · rw [h]; exact ⟨c, ha⟩
        · exact ih cr hr sf h

/-- A candidate of the state before `addGenome` is the candidate of the same anchor after
it: the sequence of its index is where it was. -/
theorem findMatch_append (m m' : GenomeMatcherImpl) (S : Genome)
    (hl : m'.m_genomeList = m.m_genomeList ++ [S]) (fragment : Str) (sf : SeqFrag)
    (ex : Bool) (x : DNAMatch) (h : m.findMatch fragment sf ex = some x) :
    m'.findMatch fragment sf ex = some x := by
  unfold GenomeMatcherImpl.findMatch at h ⊢
  cases hg : m.m_genomeList[sf.genomeIndex]? with
  | none => rw [hg] at h; exact absurd h (by simp)
  | some g =>
    have hlt : sf.genomeIndex < m.m_genomeList.length := by
      by_contra hge
      rw [List.getElem?_eq_none (by omega)] at hg
      exact absurd hg (by simp)
    rw [hl, List.getElem?_append_left hlt]
    exact h

/-- C36. Adding a sequence never loses a match: for every matcher state (any genome list,
any trie, any window size), every sequence `S` with `windowSize ≤ S.length` (a length an
`int` holds), fragment, `minimumLength` and exactness flag, if `findGenomesWithThisDNA`
returns and appends a match `x` before `addGenome(S)`, then `addGenome(S)` returns (given
fuel for `S.length − windowSize + 2` loop tests) and, in whatever state it returns, the
same query returns `true` and appends a match of the name of `x` and of length at least
the length of `x`. -/
theorem addGenome_keeps_matches (m : GenomeMatcherImpl) (S : Genome)
    (hlen : m.m_minSearchLength ≤ S.m_sequence.length)
    (hintS : S.m_sequence.length ≤ 2147483647) (fragment : Str) (minimumLength : Int)
    (ex : Bool) (matches_ : List DNAMatch) (ok : Bool)
    (holder : List DNAMatch) (x : DNAMatch)
    (hbefore : m.findGenomesWithThisDNA fragment minimumLength ex matches_ =
      some (ok, matches_ ++ holder))
    (hx : x ∈ holder) :
    (∃ m2, m.addGenome S (S.m_sequence.length - m.m_minSearchLength + 2) = some m2) ∧
    ∀ (fuel : Nat) (m2 : GenomeMatcherImpl), m.addGenome S fuel = some m2 →
      ∃ holder2, m2.findGenomesWithThisDNA fragment minimumLength ex matches_ =
          some (true, matches_ ++ holder2) ∧
        ∃ y ∈ holder2, y.genomeName = x.genomeName ∧ x.length ≤ y.length := by
  refine ⟨⟨_, addGenome_eq_of_fuel m S hlen hintS _ (le_refl _)⟩, ?_⟩
  intro fuel m2 hadd
  obtain ⟨hw2, hl2, es, ht2, hes⟩ := addGenome_entries m m2 S fuel hadd
  obtain ⟨hcheck, temp, cands, hf, hc, hxc, hxl⟩ :=
    findGenomes_holder_mem m fragment minimumLength ex matches_ ok holder hbefore x hx
  obtain ⟨d, q, hdq⟩ : ∃ d q, fragment.take m.m_minSearchLength = d :: q := by
    cases hk : fragment.take m.m_minSearchLength with
    | nil =>
      rw [hk] at hf
      have ht := findLoop_nil ex _ _ hf
      rw [ht] at hc
      have hcn : cands = [] := by
        simp only [candidates, Option.some.injEq] at hc
        exact hc.symm
      rw [hcn] at hxc
      exact absurd hxc (List.not_mem_nil _)
    | cons d q => exact ⟨d, q, rfl⟩
  have hcheck2 : ¬ (fragment.length < sizeT minimumLength ∨
      minimumLength < (m2.m_minSearchLength : Int)) := by rw [hw2]; exact hcheck
  -- the anchors after the call
  have hf2 : m2.m_seqFragTrie.find (fragment.take m2.m_minSearchLength) ex =
      some (m2.m_seqFragTrie.m_root.childs.flatMap (rootStep d q ex)) := by
    rw [hw2, hdq]; exact find_cons _ d q ex
  have hperm := foldl_insert_perm es d q ex m.m_seqFragTrie
  rw [← ht2] at hperm
  have hf' : m.m_seqFragTrie.m_root.childs.flatMap (rootStep d q ex) = temp := by
    rw [hdq, find_cons] at hf
    exact Option.some.inj hf
  rw [hf'] at hperm
  have hall := candidates_some_all m fragment ex temp cands hc
  have htot : ∀ sf ∈ m2.m_seqFragTrie.m_root.childs.flatMap (rootStep d q ex),
      ∃ g, m2.m_genomeList[sf.genomeIndex]? = some g := by
    intro sf hsf
    rcases List.mem_append.1 (hperm.subset hsf) with hold | hnew
    · obtain ⟨c, hcm⟩ := hall sf hold
      have := findMatch_append m m2 S hl2 fragment sf ex c hcm
      unfold GenomeMatcherImpl.findMatch at this
      cases hg : m2.m_genomeList[sf.genomeIndex]? with
      | none => rw [hg] at this; exact absurd this (by simp)
      | some g => exact ⟨g, rfl⟩
    · obtain ⟨e, he, hesf⟩ := List.mem_map.1 hnew
      have hidx := hes e (List.mem_filter.1 he).1
      rw [← hesf, hidx, hl2]
      exact ⟨S, by simp⟩
  obtain ⟨cands2, hc2⟩ := candidates_total m2 fragment ex _ htot
  obtain ⟨sf, hsf, hfm⟩ := (candidates_mem m fragment ex temp cands hc x).1 hxc
  have hsf2 : sf ∈ m2.m_seqFragTrie.m_root.childs.flatMap (rootStep d q ex) :=
    hperm.symm.subset (List.mem_append_left _ hsf)
  have hx2 : x ∈ cands2 :=
    (candidates_mem m2 fragment ex _ cands2 hc2 x).2
      ⟨sf, hsf2, findMatch_append m m2 S hl2 fragment sf ex x hfm⟩
  exact findGenomes_of_candidate m2 fragment minimumLength ex matches_ _ cands2 hcheck2 hf2
    hc2 x hx2 hxl

theorem addGenome_keeps_matches_witness :
    (exampleMatcher.m_minSearchLength ≤
      (Genome.mk "B".toList "ACGTTAC".toList).m_sequence.length) ∧
    ((Genome.mk "B".toList "ACGTTAC".toList).m_sequence.length ≤ 2147483647) ∧
    (exampleMatcher.findGenomesWithThisDNA "ACGTTA".toList 4 true [] =
      some (true, [] ++ [⟨"A".toList, 4, 0⟩, ⟨"B".toList, 6, 2⟩])) ∧
    ((⟨"B".toList, 6, 2⟩ : DNAMatch) ∈
      ([⟨"A".toList, 4, 0⟩, ⟨"B".toList, 6, 2⟩] : List DNAMatch)) ∧
    (exampleMatcher.addGenome ⟨"B".toList, "ACGTTAC".toList⟩ 5).isSome = true ∧
    ∃ holder2, ((exampleMatcher.addGenome ⟨"B".toList, "ACGTTAC".toList⟩ 5).getD
          exampleMatcher).findGenomesWithThisDNA "ACGTTA".toList 4 true [] =
        some (true, [] ++ holder2) ∧
      ∃ y ∈ holder2, y.genomeName = (⟨"B".toList, 6, 2⟩ : DNAMatch).genomeName ∧
        (⟨"B".toList, 6, 2⟩ : DNAMatch).length ≤ y.length :=
  ⟨by decide, by decide, by decide, by decide, by decide,
    (addGenome_keeps_matches exampleMatcher ⟨"B".toList, "ACGTTAC".toList⟩ (by decide)
      (by decide) "ACGTTA".toList 4 true [] true [⟨"A".toList, 4, 0⟩, ⟨"B".toList, 6, 2⟩]
      ⟨"B".toList, 6, 2⟩ (by decide) (by decide)).2 5 _ rfl⟩

theorem scoreLoop_no_frags (thr : Dbl) :
    ∀ (gs : List Genome) (holder : List GenomeMatch),
      GenomeMatcherImpl.scoreLoop [] 0 thr gs holder = holder := by
  intro gs
  induction gs with
  | nil => intro holder; rfl
  | cons g rest ih =>
    intro holder
    have h : Dbl.gt (percentage (numMatches [] g.name) 0) thr = false := by
      have h0 : numMatches [] g.name = 0 := rfl
      rw [h0, percentage_zero_zero]
      cases thr <;> rfl
    rw [GenomeMatcherImpl.scoreLoop, if_neg (by rw [h]; simp)]
    exact ih holder

/-- C37. A query shorter than one window matches nothing: for every matcher state (any
genome list, any trie), exactness flag and threshold (negative ones, the infinities and
not-a-number among them), when `windowSize ≤ fragmentMatchLength` and
`query.length < fragmentMatchLength`, `findRelatedGenomes` returns `false` and the results
collection is what it was. -/
theorem findRelatedGenomes_short_query (m : GenomeMatcherImpl) (query : Genome)
    (fragmentMatchLength : Int) (ex : Bool) (threshold : Dbl) (results : List GenomeMatch)
    (h1 : (m.m_minSearchLength : Int) ≤ fragmentMatchLength)
    (h2 : query.length < fragmentMatchLength) :
    m.findRelatedGenomes query fragmentMatchLength ex threshold results =
      some (false, results) := by
  have hq : 0 ≤ query.length := by unfold Genome.length; omega
  have hd : Int.tdiv query.length fragmentMatchLength = 0 :=
    Int.tdiv_eq_zero_of_lt hq h2
  unfold GenomeMatcherImpl.findRelatedGenomes
  rw [if_neg (by omega), if_neg (by omega), hd]
  simp [GenomeMatcherImpl.poolLoop, scoreLoop_no_frags]

theorem findRelatedGenomes_short_query_witness :
    ((((GenomeMatcherImpl.mk 4 [⟨"A".toList, "ACGTACGT".toList⟩] Trie.empty).m_minSearchLength
        : Nat) : Int) ≤ 4) ∧
    ((Genome.mk "Q".toList "ACG".toList).length < 4) ∧
    (GenomeMatcherImpl.mk 4 [⟨"A".toList, "ACGTACGT".toList⟩] Trie.empty).findRelatedGenomes
        ⟨"Q".toList, "ACG".toList⟩ 4 false (Dbl.val (-1)) [⟨"Z".toList, Dbl.val 50⟩] =
      some (false, [⟨"Z".toList, Dbl.val 50⟩]) :=
  ⟨by decide, by decide,
    findRelatedGenomes_short_query _ _ _ _ _ _ (by decide) (by decide)⟩

/-- C38. A value inserted under the empty key is unreachable: for every trie and value `v`,
`insert("", v)` stores `v` in the value list of the root, and every call
`find(q, exactMatchOnly)`, for any key `q` (the empty key among them) and either flag
value, gives after the insert exactly what it gave before it. -/
theorem insert_empty_key_unreachable {V : Type} (t : Trie V) (v : V) :
    (t.insert [] v).storedUnder [] = t.storedUnder [] ++ [v] ∧
    ∀ (q : Str) (ex : Bool), (t.insert [] v).find q ex = t.find q ex := by
  refine ⟨rfl, fun q ex => rfl⟩

/-- C39. Names are not unique keys in the ranking: `findRelatedGenomes` appends one entry
per stored sequence whose percentage is above the threshold (the number of entries the
second loop produces is the number of such sequences, counted with repetition), so on the
matcher of window size 4 that holds `A = ACGTACGT`, `B = TTACGTTA` and a second sequence
named `A`, `GGACGTAC`, the query `ACGT` with `fragmentMatchLength = 4` and threshold 0
appends two entries named `A`, both with 100 percent, whereas `findGenomesWithThisDNA` on
the same state and fragment reports the name `A` once. -/
theorem findRelatedGenomes_repeats_shared_name :
    GenomeMatcherImpl.Reachable 4 exampleMatcher ∧
    exampleMatcher.m_genomeList.map Genome.name = ["A".toList, "B".toList, "A".toList] ∧
    exampleMatcher.findRelatedGenomes ⟨"Q".toList, "ACGT".toList⟩ 4 true (Dbl.val 0) [] =
      some (true, [⟨"A".toList, Dbl.val 100⟩, ⟨"A".toList, Dbl.val 100⟩,
        ⟨"B".toList, Dbl.val 100⟩]) ∧
    exampleMatcher.findGenomesWithThisDNA "ACGT".toList 4 true [] =
      some (true, [⟨"A".toList, 4, 0⟩, ⟨"B".toList, 4, 2⟩]) ∧
    ∀ (matches_ : List DNAMatch) (numFrags : Int) (thr : Dbl) (gs : List Genome),
      (GenomeMatcherImpl.scoreLoop matches_ numFrags thr gs []).length =
        (gs.filter (fun g =>
          Dbl.gt (percentage (numMatches matches_ g.name) numFrags) thr)).length := by
  refine ⟨exampleMatcher_reachable, by decide, by with_unfolding_all decide, by decide, ?_⟩
  intro matches_ numFrags thr gs
  have h := (scoreLoop_perm matches_ numFrags thr gs []).length_eq
  rw [h, List.nil_append, List.length_map]

end CS32
